import Mathlib

/-!
Verification of the cctx core against its specification.

Shallow embedding of the cctx repository's core components — the dependency
graph engine (`src/cctx/graph.py`), the validation framework
(`src/cctx/validators/…`, `src/lctx/validators/base.py`), the fixer framework
(`src/cctx/fixers/…`, `src/lctx/fixers/…`) and the markdown structural parser
(`src/cctx/validators/markdown_parser.py`) — together with proofs of the
spec's testable properties.

Modelling conventions:
* Python `str` becomes `String`, lists become `List`, sets become lists whose
  membership is what matters.
* Python dicts keyed by strings are embedded either as association lists in
  insertion order (when iteration order is observable) or as Lean functions
  (when only lookup is observable).
* Filesystem and database effects are embedded as explicit state records
  threaded through the fixer functions; environmental collaborators
  (template rendering, version-control metadata) are parameters.
* Exceptions become `Except` results.
-/

namespace Cctx

/-! ## Data model (`lctx/validators/base.py`, `lctx/fixers/base.py`) -/

/-- `Severity = Literal["error", "warning", "info"]`. -/
inductive Severity where
  | error
  | warning
  | info
deriving DecidableEq, Repr

/-- `Literal["pass", "fail"]`, the status of a validator run. -/
inductive Status where
  | pass
  | fail
deriving DecidableEq, Repr

/-- `ValidationIssue` dataclass from `lctx/validators/base.py`. -/
structure ValidationIssue where
  system : String
  check : String
  severity : Severity
  message : String
  file : Option String := none
  line : Option Nat := none
deriving DecidableEq, Repr

/-- `ValidatorResult` dataclass from `lctx/validators/base.py`. -/
structure ValidatorResult where
  name : String
  status : Status
  issues : List ValidationIssue
  systems_checked : Nat
deriving DecidableEq, Repr

/-- `AggregatedResult` dataclass from `cctx/validators/runner.py`. -/
structure AggregatedResult where
  status : Status
  validators_run : Nat
  total_issues : Nat
  errors : Nat
  warnings : Nat
  infos : Nat
  results : List ValidatorResult
  all_issues : List ValidationIssue
deriving DecidableEq, Repr

/-! ## Validation runner (`cctx/validators/runner.py`)

A validator's `validate()` either returns a `ValidatorResult` or raises; we
embed the behaviour of the validators selected for a batch as a function
`env : String → Except String ValidatorResult` from validator name to outcome
(the `.error` case carries `str(e)` for the raised exception).  Constructing a
registry validator (`_create_validator`) only stores two paths and cannot
raise, so creation failures need no separate branch.

`_run_parallel` collects futures with `as_completed`, so the order in which
results are appended is a thread-scheduling choice; we embed it as an explicit
`completion` list (the names in completion order), which theorems constrain to
be a permutation of the submitted names. -/

/-- Keys of `ValidationRunner.VALIDATORS` in declaration order. -/
def VALIDATORS : List String := ["snapshot", "adr", "debt", "freshness"]

/-- The synthetic failing result built in `_run_sequential` / `_run_parallel`
for a validator whose `validate()` raised. -/
def validatorErrorResult (name msg : String) : ValidatorResult :=
  { name := name
    status := Status.fail
    issues := [{ system := ""
                 check := "validator_error"
                 severity := Severity.error
                 message := "Validator failed: " ++ msg }]
    systems_checked := 0 }

/-- One loop iteration of `ValidationRunner._run_sequential`: run the named
validator, converting a raised exception into the synthetic failing result. -/
def runOne (env : String → Except String ValidatorResult) (name : String) :
    ValidatorResult :=
  match env name with
  | Except.ok r => r
  | Except.error e => validatorErrorResult name e

/-- `ValidationRunner._run_sequential`. -/
def runSequential (env : String → Except String ValidatorResult)
    (names : List String) : List ValidatorResult :=
  names.map (runOne env)

/-- `ValidationRunner._run_parallel`: every submitted name yields the same
per-name result as the sequential path; results are appended in future
completion order, given here as the `completion` list. -/
def runParallel (env : String → Except String ValidatorResult)
    (completion : List String) : List ValidatorResult :=
  completion.map (runOne env)

/-- `ValidationRunner._aggregate_results`. -/
def aggregateResults (results : List ValidatorResult) : AggregatedResult :=
  let all_issues := results.flatMap (fun r => r.issues)
  let errors := (all_issues.filter (fun i => i.severity = Severity.error)).length
  let warnings := (all_issues.filter (fun i => i.severity = Severity.warning)).length
  let infos :=
    (all_issues.filter
      (fun i => i.severity ≠ Severity.error ∧ i.severity ≠ Severity.warning)).length
  let has_failures := results.any (fun r => r.status = Status.fail)
  { status := if has_failures then Status.fail else Status.pass
    validators_run := results.length
    total_issues := all_issues.length
    errors := errors
    warnings := warnings
    infos := infos
    results := results
    all_issues := all_issues }

/-- The early-return value of `run_validators` when no requested name is
registered. -/
def emptyAggregatedResult : AggregatedResult :=
  { status := Status.pass
    validators_run := 0
    total_issues := 0
    errors := 0
    warnings := 0
    infos := 0
    results := []
    all_issues := [] }

/-- `ValidationRunner.run_validators`.  `parallel` is the runner's `parallel`
flag; `completion` is the thread-completion order used by the parallel branch
(a permutation of the valid names). -/
def runValidators (env : String → Except String ValidatorResult)
    (parallel : Bool) (completion : List String)
    (names : List String) : AggregatedResult :=
  let valid_names := names.filter (fun n => n ∈ VALIDATORS)
  if valid_names = [] then
    emptyAggregatedResult
  else
    let results :=
      if parallel ∧ valid_names.length > 1 then
        runParallel env completion
      else
        runSequential env valid_names
    aggregateResults results

/-! ## Markdown structural parser (`cctx/validators/markdown_parser.py`)

Python dicts built row-by-row (`row_dict[header] = cell`) are embedded as
association lists in insertion order with Python's overwrite-on-existing-key
update (`dictInsert`). -/

/-- A parsed markdown table (`MarkdownTable` dataclass); each row is the
association list of the Python row dict in insertion order. -/
structure MarkdownTable where
  headers : List String
  rows : List (List (String × String))
deriving DecidableEq, Repr

/-- Python dict update `d[k] = v`: overwrite in place if the key exists,
append otherwise. -/
def dictInsert (d : List (String × String)) (k v : String) :
    List (String × String) :=
  if d.any (fun p => p.1 = k) then
    d.map (fun p => if p.1 = k then (k, v) else p)
  else d ++ [(k, v)]

/-- Python `dict.get(k)`: value of the first (unique) binding of `k`. -/
def dictGet (d : List (String × String)) (k : String) : Option String :=
  (d.find? (fun p => p.1 = k)).map (fun p => p.2)

/-- Python `str.strip()` on the line's characters (the documents involved are
ASCII, where Python's and Lean's whitespace notions agree). -/
def pyStrip (l : List Char) : List Char :=
  ((l.dropWhile Char.isWhitespace).reverse.dropWhile Char.isWhitespace).reverse

/-- Python `content.split("\n")`. -/
def splitLines : List Char → List (List Char)
  | [] => [[]]
  | c :: rest =>
    if c = '\n' then [] :: splitLines rest
    else
      match splitLines rest with
      | l :: ls => (c :: l) :: ls
      | [] => [[c]]

/-- `line.startswith("|") and line.endswith("|")` for a (stripped) line. -/
def isPipeDelimited (l : List Char) : Bool :=
  l.head? = some '|' ∧ l.getLast? = some '|'

/-- The character loop of `MarkdownParser._parse_table_row`: split on
unescaped pipes, unescaping `\|` and stripping each cell.  Each iteration
advances the scan position by at least one character, so `fuel` equal to the
character count is enough. -/
def splitCells : Nat → List Char → List Char → List String
  | 0, _, cur => [String.mk (pyStrip cur)]
  | _, [], cur => [String.mk (pyStrip cur)]
  | fuel + 1, '\\' :: '|' :: rest, cur => splitCells fuel rest (cur ++ ['|'])
  | fuel + 1, '\\' :: c :: rest, cur => splitCells fuel (c :: rest) (cur ++ ['\\'])
  | fuel + 1, ['\\'], cur => splitCells fuel [] (cur ++ ['\\'])
  | fuel + 1, '|' :: rest, cur => String.mk (pyStrip cur) :: splitCells fuel rest []
  | fuel + 1, c :: rest, cur => splitCells fuel rest (cur ++ [c])

/-- `MarkdownParser._parse_table_row`: strip one leading and one trailing
pipe, then split into trimmed cells. -/
def parseTableRow (line : List Char) : List String :=
  let l1 := match line with
    | '|' :: t => t
    | l => l
  let l2 := if l1.getLast? = some '|' then l1.dropLast else l1
  splitCells l2.length l2 []

/-- `MarkdownParser._SEPARATOR_PATTERN`, the regex `^:?-+:?$`. -/
def isSeparatorCell (s : String) : Bool :=
  let l := s.data
  let t := match l with
    | ':' :: rest => rest
    | l => l
  let ds := t.takeWhile (fun c => c = '-')
  let rest := t.dropWhile (fun c => c = '-')
  ds ≠ [] ∧ (rest = [] ∨ rest = [':'])

/-- The enumerated-header loop of `_try_parse_table` building one row dict:
`row_dict[header] = cells[j] if j < len(cells) else ""`. -/
def buildRow (headers cells : List String) : List (String × String) :=
  headers.enum.foldl (fun d p => dictInsert d p.2 (cells.getD p.1 "")) []

/-- The data-row loop of `_try_parse_table`: rows run until an empty or
non-pipe-delimited line. -/
def parseDataRows (headers : List String) :
    List (List Char) → List (List (String × String))
  | [] => []
  | line :: rest =>
    let l := pyStrip line
    if l = [] ∨ ¬ isPipeDelimited l then []
    else
      let cells := parseTableRow l
      if cells = [] then parseDataRows headers rest
      else buildRow headers cells :: parseDataRows headers rest

/-- `MarkdownParser._try_parse_table`, given the document's lines from the
candidate header row onward. -/
def tryParseTable : List (List Char) → Option MarkdownTable
  | headerLine :: separatorLine :: rest =>
    let header_line := pyStrip headerLine
    let separator_line := pyStrip separatorLine
    if ¬ isPipeDelimited header_line then none
    else if ¬ isPipeDelimited separator_line then none
    else
      let headers := parseTableRow header_line
      if headers = [] then none
      else
        let separator_cells := parseTableRow separator_line
        if separator_cells = [] then none
        else if ¬ separator_cells.all isSeparatorCell then none
        else if separator_cells.length ≠ headers.length then none
        else some { headers := headers, rows := parseDataRows headers rest }
  | _ => none

/-- `MarkdownParser.extract_tables`, scanning the given suffix of the line
list; after a successful parse the scan skips header, separator and data
rows.  The loop advances its index by at least one line per iteration, so it
runs at most `lines.length` iterations; `fuel` makes that bound explicit
(`extract_tables` passes the full line count). -/
def extractTablesAux : Nat → List (List Char) → List MarkdownTable
  | 0, _ => []
  | _, [] => []
  | fuel + 1, line :: rest =>
    let l := pyStrip line
    if isPipeDelimited l then
      match tryParseTable (line :: rest) with
      | some table =>
        table :: extractTablesAux fuel (rest.drop (1 + table.rows.length))
      | none => extractTablesAux fuel rest
    else extractTablesAux fuel rest

/-- `MarkdownParser.extract_tables` on a document. -/
def extractTables (content : String) : List MarkdownTable :=
  let lines := splitLines content.data
  extractTablesAux lines.length lines

/-! ## Dependency graph engine (`cctx/graph.py`)

The engine sees the store as the list of system paths (with display names
where needed) and the flat edge list `(system_path, depends_on)` of the
`system_dependencies` table; paths are unique store keys.  Python's
`{path: [] for path in system_paths}` iterates a set in an unspecified
order; the embedding fixes first-occurrence order (`eraseDups`), a
deterministic refinement — every observable below is independent of that
order.  The single SQL query orders rows by `(system_path, depends_on)`. -/

/-- First-occurrence deduplication — the embedding's fixed enumeration order
for Python's `{s["path"] for s in all_systems}` set. -/
def dedupKeys : List String → List String
  | [] => []
  | a :: rest => a :: (dedupKeys rest).filter (fun b => b ≠ a)

/-- Lexicographic comparison of character lists by code point — Python's
`<` on strings. -/
def charListLt : List Char → List Char → Bool
  | [], [] => false
  | [], _ :: _ => true
  | _ :: _, [] => false
  | a :: as, b :: bs =>
    if a.toNat < b.toNat then true
    else if a.toNat = b.toNat then charListLt as bs
    else false

/-- Python `<` on strings. -/
def strLt (a b : String) : Bool := charListLt a.data b.data

/-- Ascending insertion into a sorted string list. -/
def insertSorted (a : String) : List String → List String
  | [] => [a]
  | b :: rest => if strLt a b then a :: b :: rest else b :: insertSorted a rest

/-- Python `sorted` on strings. -/
def sortStrings (l : List String) : List String := l.foldr insertSorted []

/-- Lexicographic insertion for edge rows. -/
def insertEdgeSorted (a : String × String) :
    List (String × String) → List (String × String)
  | [] => [a]
  | b :: rest =>
    if strLt a.1 b.1 ∨ (a.1 = b.1 ∧ strLt a.2 b.2) then a :: b :: rest
    else b :: insertEdgeSorted a rest

/-- The `ORDER BY system_path, depends_on` of the dependency query. -/
def sortEdges (l : List (String × String)) : List (String × String) :=
  l.foldr insertEdgeSorted []

/-- Forward adjacency of `_build_adjacency_maps`: one entry per known system
(empty for isolated nodes), dependencies appended in row order; rows whose
`system_path` is unknown are skipped. -/
def buildDependenciesMap (systems : List String)
    (edges : List (String × String)) : List (String × List String) :=
  (dedupKeys systems).map
    (fun p => (p, ((sortEdges edges).filter (fun e => e.1 = p)).map (fun e => e.2)))

/-- Reverse adjacency of `_build_adjacency_maps`: dependers appended in row
order; rows whose `depends_on` is unknown are skipped. -/
def buildDependentsMap (systems : List String)
    (edges : List (String × String)) : List (String × List String) :=
  (dedupKeys systems).map
    (fun p => (p, ((sortEdges edges).filter (fun e => e.2 = p)).map (fun e => e.1)))

/-- Python `adjacency.get(node, [])`. -/
def lookupAdj (m : List (String × List String)) (k : String) : List String :=
  ((m.find? (fun e => e.1 = k)).map (fun e => e.2)).getD []

/-- One node of `generate_graph`'s JSON-ready output. -/
structure GraphNode where
  system : String
  name : String
  dependencies : List String
  dependents : List String
deriving DecidableEq, Repr

/-- `generate_graph`: nodes sorted by path, inner lists sorted; `name` from
`_build_system_names` (paths are unique store keys). -/
def generateGraph (systems : List (String × String))
    (edges : List (String × String)) : List GraphNode :=
  let depM := buildDependenciesMap (systems.map (fun s => s.1)) edges
  let depsM := buildDependentsMap (systems.map (fun s => s.1)) edges
  (sortStrings (depM.map (fun e => e.1))).map
    (fun p =>
      { system := p
        name := (((systems.find? (fun s => s.1 = p)).map (fun s => s.2)).getD "")
        dependencies := sortStrings (lookupAdj depM p)
        dependents := sortStrings (lookupAdj depsM p) })

/-! ### Transitive closure (`get_all_dependencies` / `get_all_dependents`)

The worklist is Python's `to_visit` list reversed (Python appends and pops at
the end; the embedding pushes and pops at the head, preserving the pop
order).  Each loop iteration strictly decreases
`|to_visit| + Σ {len(adj(v)) : v unexpanded}`, so that quantity bounds the
iteration count and serves as fuel. -/

/-- Upper bound on the remaining iterations of the traversal loop. -/
def closurePotential (dm : List (String × List String))
    (visited toVisit : List String) : Nat :=
  toVisit.length +
    (((dm.filter (fun e => e.1 ∉ visited)).map (fun e => e.2.length)).sum)

/-- The `while to_visit:` loop shared by `get_all_dependencies` and
`get_all_dependents` (over the respective adjacency map): pop, skip if
visited, else mark visited and push the unvisited neighbours. -/
def closureLoop (dm : List (String × List String)) :
    Nat → List String → List String → List String
  | 0, visited, _ => visited
  | _ + 1, visited, [] => visited
  | fuel + 1, visited, current :: rest =>
    if current ∈ visited then closureLoop dm fuel visited rest
    else
      let visited' := visited ++ [current]
      closureLoop dm fuel visited'
        (((lookupAdj dm current).filter (fun d => d ∉ visited')).reverse ++ rest)

/-- `get_all_dependencies`: transitive closure over the forward adjacency
(the returned Python set is the `visited` list's membership). -/
def getAllDependencies (systems : List String)
    (edges : List (String × String)) (system_path : String) : List String :=
  let dm := buildDependenciesMap systems edges
  if dm.all (fun e => e.1 ≠ system_path) then []
  else
    let start := lookupAdj dm system_path
    closureLoop dm (closurePotential dm [] start) [] start

/-- `get_all_dependents`: transitive closure over the reverse adjacency. -/
def getAllDependents (systems : List String)
    (edges : List (String × String)) (system_path : String) : List String :=
  let dm := buildDependentsMap systems edges
  if dm.all (fun e => e.1 ≠ system_path) then []
  else
    let start := lookupAdj dm system_path
    closureLoop dm (closurePotential dm [] start) [] start

/-! ### Cycle detection (`detect_cycles`, Tarjan's algorithm)

The mutable dicts `index`, `lowlinks`, `on_stack` are embedded as functions
(`index` partial via `Option`); `stack` has its top at the list head (Python
appends and pops at the end).  `strongconnect` recurses once per unvisited
node, so any fuel at least the number of distinct nodes is enough; the
embedding passes `|keys| + Σ len(deps)`, an upper bound on the node count. -/

/-- Mutable state of Tarjan's algorithm in `detect_cycles`. -/
structure TarjanState where
  counter : Nat
  stack : List String
  indexOf : String → Option Nat
  lowlink : String → Nat
  onStack : String → Bool
  sccs : List (List String)

/-- The `while True` pop loop generating one SCC: pop the stack down to (and
including) `node`, in pop order. -/
def popScc (node : String) : List String → List String × List String
  | [] => ([], [])
  | x :: rest =>
    if x = node then ([x], rest)
    else
      let (s, r) := popScc node rest
      (x :: s, r)

/-- The components appended for one popped SCC candidate: only size > 1, or
an explicit self-loop singleton. -/
def sccsAppended (dm : List (String × List String)) (scc : List String) :
    List (List String) :=
  if scc.length > 1 then [sortStrings scc]
  else
    match scc with
    | [a] => if a ∈ lookupAdj dm a then [[a]] else []
    | _ => []

/-- `strongconnect` from `detect_cycles`: index and push the node, scan its
successors (recursing into unvisited ones, folding lowlinks), then pop an
SCC if the node is a root. -/
def strongconnect (dm : List (String × List String)) :
    Nat → String → TarjanState → TarjanState
  | 0, _, st => st
  | fuel + 1, node, st =>
    let st1 : TarjanState :=
      { st with
        indexOf := fun v => if v = node then some st.counter else st.indexOf v
        lowlink := fun v => if v = node then st.counter else st.lowlink v
        counter := st.counter + 1
        stack := node :: st.stack
        onStack := fun v => if v = node then true else st.onStack v }
    let st2 := (lookupAdj dm node).foldl
      (fun s succ =>
        if (s.indexOf succ).isNone then
          let t := strongconnect dm fuel succ s
          { t with
            lowlink := fun v =>
              if v = node then min (t.lowlink node) (t.lowlink succ)
              else t.lowlink v }
        else if s.onStack succ then
          { s with
            lowlink := fun v =>
              if v = node then min (s.lowlink node) ((s.indexOf succ).getD 0)
              else s.lowlink v }
        else s) st1
    if st2.lowlink node = (st2.indexOf node).getD 0 then
      let p := popScc node st2.stack
      { st2 with
        stack := p.2
        onStack := fun v => if v ∈ p.1 then false else st2.onStack v
        sccs := st2.sccs ++ sccsAppended dm p.1 }
    else st2

/-- The entry bookkeeping of `strongconnect`: assign the index and
lowlink, advance the counter, push and mark the node. -/
def pushState (st : TarjanState) (node : String) : TarjanState :=
  { st with
    indexOf := fun v => if v = node then some st.counter else st.indexOf v
    lowlink := fun v => if v = node then st.counter else st.lowlink v
    counter := st.counter + 1
    stack := node :: st.stack
    onStack := fun v => if v = node then true else st.onStack v }

/-- One iteration of the successor loop of `strongconnect`. -/
def scanStep (dm : List (String × List String)) (fuel : Nat)
    (node : String) (s : TarjanState) (succ : String) : TarjanState :=
  if (s.indexOf succ).isNone then
    let t := strongconnect dm fuel succ s
    { t with
      lowlink := fun v =>
        if v = node then min (t.lowlink node) (t.lowlink succ)
        else t.lowlink v }
  else if s.onStack succ then
    { s with
      lowlink := fun v =>
        if v = node then min (s.lowlink node) ((s.indexOf succ).getD 0)
        else s.lowlink v }
  else s

/-- The state after pushing `node` and scanning all its successors. -/
def scanned (dm : List (String × List String)) (fuel : Nat)
    (node : String) (st : TarjanState) : TarjanState :=
  (lookupAdj dm node).foldl (scanStep dm fuel node) (pushState st node)

/-- The root pop of `strongconnect`: emit one candidate component. -/
def popState (dm : List (String × List String)) (node : String)
    (st2 : TarjanState) : TarjanState :=
  let p := popScc node st2.stack
  { st2 with
    stack := p.2
    onStack := fun v => if v ∈ p.1 then false else st2.onStack v
    sccs := st2.sccs ++ sccsAppended dm p.1 }

/-- Initial Tarjan state. -/
def tarjanInit : TarjanState :=
  { counter := 0
    stack := []
    indexOf := fun _ => none
    lowlink := fun _ => 0
    onStack := fun _ => false
    sccs := [] }

/-- Fuel bound passed to `strongconnect` (at least the number of distinct
nodes reachable by the scan). -/
def tarjanFuel (dm : List (String × List String)) : Nat :=
  dm.length + ((dm.map (fun e => e.2.length)).sum)

/-- The `for node in dependencies_map:` driver loop of `detect_cycles`. -/
def tarjanRun (dm : List (String × List String)) : TarjanState :=
  dm.foldl
    (fun st e =>
      if (st.indexOf e.1).isNone then strongconnect dm (tarjanFuel dm) e.1 st
      else st)
    tarjanInit

/-- Sort key `(len(x), x[0] if x else "")` used on the final SCC list. -/
def sccKeyLt (a b : List String) : Bool :=
  a.length < b.length ∨ (a.length = b.length ∧ strLt (a.headD "") (b.headD ""))

/-- Insertion for the final `sorted(sccs, key=...)`. -/
def insertSccSorted (a : List String) :
    List (List String) → List (List String)
  | [] => [a]
  | b :: rest =>
    if sccKeyLt a b then a :: b :: rest else b :: insertSccSorted a rest

/-- `sorted(sccs, key=lambda x: (len(x), x[0] if x else ""))`. -/
def sortSccs (l : List (List String)) : List (List String) :=
  l.foldr insertSccSorted []

/-- `detect_cycles`. -/
def detectCycles (systems : List String)
    (edges : List (String × String)) : List (List String) :=
  let dm := buildDependenciesMap systems edges
  if dm = [] then []
  else sortSccs (tarjanRun dm).sccs

/-! ### Specification vocabulary for the SCC analysis -/

/-- A node already visited by Tarjan's scan (assigned an index). -/
def Indexed (st : TarjanState) (v : String) : Prop :=
  (st.indexOf v).isSome = true

/-- The discovery index of a node (0 if unassigned). -/
def numOf (st : TarjanState) (v : String) : Nat := (st.indexOf v).getD 0

/-- A node whose component has been emitted: visited and off the stack. -/
def Finished (st : TarjanState) (v : String) : Prop :=
  Indexed st v ∧ v ∉ st.stack

/-- One dependency edge of the adjacency store. -/
def Succ (dm : List (String × List String)) (v w : String) : Prop :=
  w ∈ lookupAdj dm v

/-- Reachability along dependency edges. -/
def Reach (dm : List (String × List String)) : String → String → Prop :=
  Relation.ReflTransGen (Succ dm)

/-- Mutual reachability: membership in the same strongly connected
component. -/
def SameScc (dm : List (String × List String)) (v w : String) : Prop :=
  Reach dm v w ∧ Reach dm w v

/-- Key list of an adjacency store. -/
def keysOf (dm : List (String × List String)) : List String :=
  dm.map (fun e => e.1)

/-- Number of keys not yet visited (the termination measure of the scan). -/
def unvisitedCount (dm : List (String × List String))
    (st : TarjanState) : Nat :=
  ((keysOf dm).filter (fun k => (st.indexOf k).isNone)).length

/-- The well-formedness invariant of Tarjan states between calls: the
bookkeeping dicts agree, the stack is a duplicate-free index-decreasing
reachability chain, emitted components are exactly filtered sorted
strongly connected classes of finished nodes, and finished nodes cannot
reach unfinished ones. -/
structure TarjanWF (dm : List (String × List String))
    (st : TarjanState) : Prop where
  stack_nodup : st.stack.Nodup
  onstack_iff : ∀ v, st.onStack v = true ↔ v ∈ st.stack
  stack_indexed : ∀ v ∈ st.stack, Indexed st v
  num_lt : ∀ v, Indexed st v → numOf st v < st.counter
  num_inj : ∀ v w, Indexed st v → Indexed st w →
    numOf st v = numOf st w → v = w
  stack_sorted : st.stack.Pairwise (fun x y => numOf st y < numOf st x)
  stack_reach : st.stack.Pairwise (fun x y => Reach dm y x)
  finished_closed : ∀ u, Finished st u → ∀ x ∈ lookupAdj dm u, Finished st x
  indexed_key : ∀ v, Indexed st v → v ∈ keysOf dm
  sccs_classes : ∀ C ∈ st.sccs, ∃ x, Finished st x ∧ x ∈ C ∧
    (∀ w, w ∈ C ↔ SameScc dm x w) ∧
    C.Pairwise (fun a b => strLt a b = true) ∧
    (1 < C.length ∨ x ∈ lookupAdj dm x)
  sccs_complete : ∀ x, Finished st x →
    ((∃ y, y ≠ x ∧ SameScc dm x y) ∨ x ∈ lookupAdj dm x) →
    ∃ C ∈ st.sccs, ∀ w, w ∈ C ↔ SameScc dm x w
  sccs_disjoint : st.sccs.Pairwise (fun C1 C2 => ∀ x ∈ C1, x ∉ C2)

/-- The postcondition of one `strongconnect` call on a fresh `node`. -/
structure SCPost (dm : List (String × List String)) (st : TarjanState)
    (node : String) (st' : TarjanState) : Prop where
  wf : TarjanWF dm st'
  node_idx : st'.indexOf node = some st.counter
  counter_lt : st.counter < st'.counter
  idx_pres : ∀ v, Indexed st v → st'.indexOf v = st.indexOf v
  low_pres : ∀ v, Indexed st v → st'.lowlink v = st.lowlink v
  fin_mono : ∀ v, Finished st v → Finished st' v
  new_num_ge : ∀ v, ¬ Indexed st v → Indexed st' v → st.counter ≤ numOf st' v
  new_reach : ∀ v, ¬ Indexed st v → Indexed st' v → Reach dm node v
  scan_all : ∀ u, ¬ Indexed st u → Indexed st' u → ∀ x ∈ lookupAdj dm u,
    Indexed st' x ∧ (Finished st' x ∨ x ∈ st'.stack) ∧
    (x ∈ st.stack → st'.lowlink node ≤ numOf st' x)
  stack_delta : ∃ Δ, st'.stack = Δ ++ st.stack ∧
    (∀ y ∈ Δ, ¬ Indexed st y ∧ Reach dm y node) ∧
    (Δ = [] ∧ st'.lowlink node = st.counter ∨
      node ∈ Δ ∧ ∃ z ∈ st.stack, Reach dm node z ∧
        numOf st' z = st'.lowlink node)
  low_le : st'.lowlink node ≤ st.counter

/-- The invariant holding at every intermediate state of the successor
scan inside `strongconnect node`, relative to the state `st` at call
entry. -/
structure ScanInv (dm : List (String × List String)) (st : TarjanState)
    (node : String) (s : TarjanState) : Prop where
  wf : TarjanWF dm s
  node_fresh : ¬ Indexed st node
  node_idx : s.indexOf node = some st.counter
  counter_lt : st.counter < s.counter
  idx_pres : ∀ v, Indexed st v → s.indexOf v = st.indexOf v
  low_pres : ∀ v, Indexed st v → s.lowlink v = st.lowlink v
  fin_mono : ∀ v, Finished st v → Finished s v
  new_num_ge : ∀ v, ¬ Indexed st v → Indexed s v → st.counter ≤ numOf s v
  new_reach : ∀ v, ¬ Indexed st v → Indexed s v → Reach dm node v
  stack_form : ∃ Γ, s.stack = Γ ++ node :: st.stack ∧
    ∀ y ∈ Γ, ¬ Indexed st y ∧ Reach dm y node
  low_le : s.lowlink node ≤ st.counter
  low_sound : s.lowlink node = st.counter ∨
    ∃ z ∈ st.stack, Reach dm node z ∧ numOf s z = s.lowlink node
  covered : ∀ u, ¬ Indexed st u → Indexed s u → u ≠ node →
    ∀ x ∈ lookupAdj dm u, Indexed s x ∧ (Finished s x ∨ x ∈ s.stack) ∧
      (x ∈ st.stack → s.lowlink node ≤ numOf s x)

/-- The conclusion bundle of a (partial) successor scan from state `s` to
state `s'`, covering the scanned successor list `rest`. -/
structure ScanOut (dm : List (String × List String)) (st : TarjanState)
    (node : String) (rest : List String) (s s' : TarjanState) : Prop where
  inv : ScanInv dm st node s'
  cov : ∀ x ∈ rest, Indexed s' x ∧ (Finished s' x ∨ x ∈ s'.stack) ∧
    (x ∈ st.stack → s'.lowlink node ≤ numOf s' x)
  idx_pres : ∀ v, Indexed s v → s'.indexOf v = s.indexOf v
  stack_ext : ∃ g, s'.stack = g ++ s.stack
  low_mono : s'.lowlink node ≤ s.lowlink node
  fin_mono : ∀ v, Finished s v → Finished s' v
  unvis_le : unvisitedCount dm s' ≤ unvisitedCount dm s

/-! ### Topological order (`get_topological_order`, Kahn's algorithm)

`in_degree` is embedded as a function; the ready queue is a sorted list
popped at the front (`queue.pop(0)`) and re-sorted after each append.  The
`while` loop appends one queue element to `result` per iteration and
`result ++ queue` stays duplicate-free inside the key set, so the loop runs
at most `|keys|` iterations; that count is the fuel. -/

/-- The body of `for other_node, deps in dependencies_map.items():` — one
entry's in-degree decrement and conditional (sorted) enqueue. -/
def kahnStep (node : String) (result : List String)
    (acc : (String → Int) × List String) (entry : String × List String) :
    (String → Int) × List String :=
  if node ∈ entry.2 ∧ entry.1 ∉ result then
    let newDeg := acc.1 entry.1 - 1
    let indeg' : String → Int :=
      fun v => if v = entry.1 then newDeg else acc.1 v
    (indeg',
      if newDeg = 0 ∧ entry.1 ∉ acc.2 then
        sortStrings (acc.2 ++ [entry.1])
      else acc.2)
  else acc

/-- The `while queue:` loop of `get_topological_order`. -/
def kahnLoop (dm : List (String × List String)) :
    Nat → (String → Int) → List String → List String → List String
  | 0, _, _, result => result
  | fuel + 1, indeg, queue, result =>
    match queue with
    | [] => result
    | node :: rest =>
      let result' := result ++ [node]
      let next := dm.foldl (kahnStep node result') (indeg, rest)
      kahnLoop dm fuel next.1 next.2 result'

/-- `get_topological_order`; the `CyclicDependencyError` branch is the
`Except.error` case, carrying the `detect_cycles` output quoted in the
error's message. -/
def getTopologicalOrder (systems : List String)
    (edges : List (String × String)) : Except (List (List String)) (List String) :=
  let dm := buildDependenciesMap systems edges
  if dm = [] then Except.ok []
  else
    let indeg : String → Int :=
      fun v => (((dm.find? (fun e => e.1 = v)).map
        (fun e => (e.2.length : Int)))).getD 0
    let queue := sortStrings ((dm.filter (fun e => e.2.length = 0)).map (fun e => e.1))
    let result := kahnLoop dm dm.length indeg queue []
    if result.length ≠ dm.length then Except.error (detectCycles systems edges)
    else Except.ok result

/-- Topological-order correctness: every element's adjacency targets appear
strictly earlier in the list. -/
def OrderedByAdj (dm : List (String × List String)) (l : List String) : Prop :=
  ∀ l1 v l2, l = l1 ++ v :: l2 → ∀ d ∈ lookupAdj dm v, d ∈ l1

/-- The loop invariant of Kahn's algorithm: `result` and `queue` are
duplicate-free disjoint key lists, queue members have all dependencies
resolved, `result` is topologically ordered so far, and for every pending
key the in-degree counter equals its number of unresolved dependencies and
is positive. -/
def KahnInv (dm : List (String × List String)) (indeg : String → Int)
    (queue result : List String) : Prop :=
  result.Nodup ∧ queue.Nodup ∧ (∀ q ∈ queue, q ∉ result) ∧
  (∀ v ∈ result, v ∈ dm.map (fun e => e.1)) ∧
  (∀ q ∈ queue, q ∈ dm.map (fun e => e.1)) ∧
  (∀ q ∈ queue, ∀ d ∈ lookupAdj dm q, d ∈ result) ∧
  OrderedByAdj dm result ∧
  (∀ v ∈ dm.map (fun e => e.1), v ∉ result → v ∉ queue →
    indeg v = (((lookupAdj dm v).filter (fun d => d ∉ result)).length : Int) ∧
    0 < ((lookupAdj dm v).filter (fun d => d ∉ result)).length)

instance {α β : Type} [DecidableEq α] [DecidableEq β] :
    DecidableEq (Except α β) := fun a b =>
  match a, b with
  | Except.ok x, Except.ok y =>
    if h : x = y then isTrue (by rw [h]) else isFalse (by simp [h])
  | Except.error x, Except.error y =>
    if h : x = y then isTrue (by rw [h]) else isFalse (by simp [h])
  | Except.ok _, Except.error _ => isFalse (by simp)
  | Except.error _, Except.ok _ => isFalse (by simp)

/-- `get_root_systems`. -/
def getRootSystems (systems : List String)
    (edges : List (String × String)) : List String :=
  sortStrings
    (((buildDependenciesMap systems edges).filter (fun e => e.2 = [])).map
      (fun e => e.1))

/-- `get_leaf_systems`. -/
def getLeafSystems (systems : List String)
    (edges : List (String × String)) : List String :=
  sortStrings
    (((buildDependentsMap systems edges).filter (fun e => e.2 = [])).map
      (fun e => e.1))

/-! ## Fixer framework (`lctx/fixers/*`, `cctx/fixers/*`)

Fixers mutate the filesystem and the knowledge store; both are embedded as
explicit state.  Paths are segment lists (`project_root ++ [segment, …]`);
`issue.system` and `fix_params` path values are single opaque segments, and
`pathStr` renders a path the way `str(p.relative_to(project_root))` does.
Environmental collaborators — template rendering, the scaffolder, config
loading, ADR file reading/parsing — are `Except`-valued parameters
(`FixerEnv`); plain file writes and store inserts, whose `OSError`/database
failures are machine conditions outside the model, always succeed here.
Every `fix` is a total function into `FixResult` — no embedded fixer can
raise, matching the framework contract. -/

/-- A filesystem path as the list of its segments. -/
abbrev FsPath := List String

/-- The part of the filesystem state the fixers observe: which files and
which directories exist. -/
structure FileSystem where
  files : List FsPath
  dirs : List FsPath
deriving DecidableEq, Repr

/-- `FixResult` dataclass from `lctx/fixers/base.py`. -/
structure FixResult where
  success : Bool
  message : String
  files_modified : List String := []
  files_deleted : List String := []
deriving DecidableEq, Repr

/-- `FixableIssue` dataclass (a `ValidationIssue` plus fix metadata); the
parameter bag holds string values. -/
structure FixableIssue where
  system : String
  check : String
  severity : Severity
  message : String
  fix_id : String
  fix_params : List (String × String) := []
  fix_description : String := ""
deriving DecidableEq, Repr

/-- The knowledge store as the fixers see it: systems `(path, name)`, the
dependency edge list, and the registered ADR identifiers. -/
structure KnowledgeDB where
  systems : List (String × String)
  edges : List (String × String)
  adrs : List String
deriving DecidableEq, Repr

/-- Environmental collaborators of the fixers. -/
structure FixerEnv where
  /-- `render_template(name, system_name=…)`; `.error` for
  `FileNotFoundError`/`ValueError`. -/
  renderTemplate : String → String → Except String String
  /-- `scaffold_system_ctx`: on success, the file names created inside the
  new `.ctx` directory; `.error` for `ScaffoldError`. -/
  scaffoldCtx : String → FsPath → Except String (List String)
  /-- `load_config`; `.error` for `ValueError`. -/
  loadConfig : Except String Unit
  /-- Reading and parsing an ADR file (`read_text` + `_parse_adr_content`);
  the parsed metadata only feeds the created store row. -/
  readParseAdr : FsPath → Except String Unit

/-- Render a path (or a path relative to the project root) as a string. -/
def pathStr (p : FsPath) : String := String.intercalate "/" p

/-- `str.title()` for the ASCII names involved. -/
def pyTitleAux : Bool → List Char → List Char
  | _, [] => []
  | prevAlpha, c :: rest =>
    let c' := if c.isAlpha then (if prevAlpha then c.toLower else c.toUpper) else c
    c' :: pyTitleAux c.isAlpha rest

/-- `derive_system_name` from `lctx/fixers/utils.py`: last path segment,
dashes/underscores to spaces, title case. -/
def deriveSystemName (system_path : FsPath) : String :=
  String.mk (pyTitleAux false
    (((system_path.getLastD "").data).map
      (fun c => if c = '-' ∨ c = '_' then ' ' else c)))

/-- `params.get(key)` followed by Python falsiness fallback
(`if not value: value = default`). -/
def paramOr (params : List (String × String)) (key : String)
    (default : String) : String :=
  match dictGet params key with
  | some s => if s = "" then default else s
  | none => default

/-- `SnapshotFixer.fix` (`lctx/fixers/snapshot_fixer.py`,
`fix_id = "missing_snapshot"`). -/
def snapshotFixerFix (env : FixerEnv) (project_root : FsPath)
    (fs : FileSystem) (issue : FixableIssue) : FixResult × FileSystem :=
  let system_path := project_root ++ [issue.system]
  let ctx_dir := system_path ++ [".ctx"]
  let snapshot_path := ctx_dir ++ ["snapshot.md"]
  if snapshot_path ∈ fs.files then
    ({ success := true
       message := "snapshot.md already exists at " ++ pathStr snapshot_path }, fs)
  else if ctx_dir ∉ fs.dirs then
    ({ success := false
       message := ".ctx directory does not exist at " ++ pathStr ctx_dir ++
         ". Run the missing_ctx_dir fixer first." }, fs)
  else
    let system_name := paramOr issue.fix_params "system_name"
      (deriveSystemName system_path)
    match env.renderTemplate "snapshot" system_name with
    | Except.error e =>
      ({ success := false
         message := "Failed to render snapshot template: " ++ e }, fs)
    | Except.ok _content =>
      let rel := pathStr (snapshot_path.drop project_root.length)
      ({ success := true
         message := "Created snapshot.md from template at " ++ rel
         files_modified := [rel] },
       { fs with files := fs.files ++ [snapshot_path] })

/-- `MissingTemplateFileFixer.VALID_TEMPLATES`. -/
def VALID_TEMPLATES : List String := ["constraints", "decisions", "debt"]

/-- `MissingTemplateFileFixer.fix` (`cctx/fixers/scaffolding_fixer.py`,
`fix_id = "missing_template_file"`). -/
def missingTemplateFileFixerFix (env : FixerEnv) (project_root : FsPath)
    (fs : FileSystem) (issue : FixableIssue) : FixResult × FileSystem :=
  let template_name := paramOr issue.fix_params "template_name" ""
  if template_name = "" then
    ({ success := false
       message := "template_name is required in fix_params" }, fs)
  else if template_name ∉ VALID_TEMPLATES then
    ({ success := false
       message := "Invalid template_name: " ++ template_name ++
         ". Valid templates: constraints, debt, decisions" }, fs)
  else
    let system_path := project_root ++ [issue.system]
    let ctx_dir := system_path ++ [".ctx"]
    let template_path := ctx_dir ++ [template_name ++ ".md"]
    if template_path ∈ fs.files then
      ({ success := true
         message := template_name ++ ".md already exists at " ++
           pathStr template_path }, fs)
    else if ctx_dir ∉ fs.dirs then
      ({ success := false
         message := ".ctx directory does not exist at " ++ pathStr ctx_dir ++
           ". Run the missing_ctx_dir fixer first." }, fs)
    else
      let system_name := paramOr issue.fix_params "system_name"
        (deriveSystemName system_path)
      match env.renderTemplate template_name system_name with
      | Except.error e =>
        ({ success := false
           message := "Failed to render " ++ template_name ++ " template: " ++ e },
         fs)
      | Except.ok _content =>
        let rel := pathStr (template_path.drop project_root.length)
        ({ success := true
           message := "Created " ++ template_name ++ ".md from template at " ++ rel
           files_modified := [rel] },
         { fs with files := fs.files ++ [template_path] })

/-- `MissingCtxDirFixer.fix` (`cctx/fixers/scaffolding_fixer.py`,
`fix_id = "missing_ctx_dir"`). -/
def missingCtxDirFixerFix (env : FixerEnv) (project_root : FsPath)
    (fs : FileSystem) (issue : FixableIssue) : FixResult × FileSystem :=
  let system_path := project_root ++ [issue.system]
  let ctx_dir := system_path ++ [".ctx"]
  if ctx_dir ∈ fs.dirs then
    ({ success := true
       message := ".ctx directory already exists at " ++ pathStr ctx_dir }, fs)
  else
    let fs1 := if system_path ∈ fs.dirs then fs
      else { fs with dirs := fs.dirs ++ [system_path] }
    let system_name := paramOr issue.fix_params "system_name"
      (deriveSystemName system_path)
    match env.loadConfig with
    | Except.error e =>
      ({ success := false, message := "Failed to load config: " ++ e }, fs1)
    | Except.ok _ =>
      match env.scaffoldCtx system_name system_path with
      | Except.error e =>
        ({ success := false
           message := "Failed to scaffold .ctx directory: " ++ e }, fs1)
      | Except.ok created =>
        let files_modified := sortStrings (created.map
          (fun n => pathStr ((ctx_dir ++ [n]).drop project_root.length)))
        ({ success := true
           message := "Created .ctx directory at " ++
             pathStr (ctx_dir.drop project_root.length) ++ " with " ++
             toString files_modified.length ++ " files"
           files_modified := files_modified },
         { fs1 with
           dirs := fs1.dirs ++ [ctx_dir]
           files := fs1.files ++ created.map (fun n => ctx_dir ++ [n]) })

/-- `GraphFixer.fix` (`lctx/fixers/graph_fixer.py`, `fix_id = "stale_graph"`):
regenerates `graph.json` unconditionally. -/
def graphFixerFix (project_root db_path : FsPath) (fs : FileSystem)
    (db : KnowledgeDB) (_issue : FixableIssue) : FixResult × FileSystem :=
  let ctx_dir := project_root ++ [".ctx"]
  let graph_path := ctx_dir ++ ["graph.json"]
  if db_path ∉ fs.files then
    ({ success := false
       message := "Knowledge database not found at " ++ pathStr db_path ++
         ". Initialize the project first." }, fs)
  else if ctx_dir ∉ fs.dirs then
    ({ success := false
       message := ".ctx directory does not exist at " ++ pathStr ctx_dir ++
         ". Initialize the project first." }, fs)
  else
    let graph_data := generateGraph db.systems db.edges
    let rel := pathStr (graph_path.drop project_root.length)
    ({ success := true
       message := "Regenerated graph.json with " ++
         toString graph_data.length ++ " systems at " ++ rel
       files_modified := [rel] },
     { fs with
       files := if graph_path ∈ fs.files then fs.files
         else fs.files ++ [graph_path] })

/-- `AdrFixer.fix` (`cctx/fixers/adr_fixer.py`, `fix_id = "unregistered_adr"`):
registers an on-disk ADR in the store (no file is written). -/
def adrFixerFix (env : FixerEnv) (project_root db_path : FsPath)
    (fs : FileSystem) (db : KnowledgeDB) (issue : FixableIssue) :
    FixResult × KnowledgeDB :=
  let adr_id := paramOr issue.fix_params "adr_id" ""
  let file_path := paramOr issue.fix_params "file_path" ""
  if adr_id = "" then
    ({ success := false, message := "adr_id is required in fix_params" }, db)
  else if file_path = "" then
    ({ success := false, message := "file_path is required in fix_params" }, db)
  else if db_path ∉ fs.files then
    ({ success := false
       message := "Database not found at " ++ pathStr db_path }, db)
  else
    let adr_file := project_root ++ [file_path]
    if adr_file ∉ fs.files then
      ({ success := false
         message := "ADR file not found at " ++ pathStr adr_file }, db)
    else if adr_id ∈ db.adrs then
      ({ success := true
         message := "ADR " ++ adr_id ++ " is already registered in database"
         files_modified := [] }, db)
    else
      match env.readParseAdr adr_file with
      | Except.error e =>
        ({ success := false, message := "Failed to parse ADR file: " ++ e }, db)
      | Except.ok _ =>
        ({ success := true
           message := "Registered ADR " ++ adr_id ++ " in database"
           files_modified := [] },
         { db with adrs := db.adrs ++ [adr_id] })

/-! ## Debt auditor (`cctx/validators/debt_auditor.py`)

Time is embedded at day granularity: a `datetime` is the integer day number
of its civil date (days since 1970-01-01).  `_parse_date` is embedded for
date-valued strings with four-digit years — exactly the strings the debt
table's `Created` column holds; sub-day timestamp components are below the
model's resolution (every age comparison and message in the auditor uses
whole days).  `dict.get(...) or ...` chains use Python falsiness (`None` or
`""` fall through).  Filesystem existence and the version-control query
`has_changes_since` are environment parameters. -/

/-- Python `str.lower()` (ASCII). -/
def pyLower (s : String) : String := String.mk (s.data.map Char.toLower)

/-- Python `a or b` on an optional string and a fallback (left value wins iff
present and non-empty). -/
def pyOr (a b : Option String) : Option String :=
  match a with
  | some s => if s = "" then b else some s
  | none => b

/-- Python `a or default` with a string default. -/
def pyOrD (a : Option String) (default : String) : String :=
  match a with
  | some s => if s = "" then default else s
  | none => default

/-- `item.get("ID") or item.get("id") or item.get("Id") or "unknown"`. -/
def debtItemId (item : List (String × String)) : String :=
  pyOrD (pyOr (pyOr (dictGet item "ID") (dictGet item "id"))
    (dictGet item "Id")) "unknown"

/-- The priority alias chain, lower-cased. -/
def debtItemPriority (item : List (String × String)) : String :=
  pyLower (pyOrD (pyOr (pyOr (pyOr (dictGet item "Priority")
    (dictGet item "priority")) (dictGet item "Severity"))
    (dictGet item "severity")) "")

/-- The created-date alias chain. -/
def debtItemCreatedStr (item : List (String × String)) : String :=
  pyOrD (pyOr (pyOr (pyOr (dictGet item "Created") (dictGet item "created"))
    (dictGet item "Date")) (dictGet item "date")) ""

/-- The referenced-files alias chain. -/
def debtItemFilesStr (item : List (String × String)) : String :=
  pyOrD (pyOr (pyOr (pyOr (dictGet item "Files") (dictGet item "files"))
    (dictGet item "File")) (dictGet item "file")) ""

/-- Gregorian leap year. -/
def isLeap (y : Nat) : Bool := (y % 4 = 0 ∧ y % 100 ≠ 0) ∨ y % 400 = 0

/-- Days in a month (`strptime`/`fromisoformat` range validation). -/
def daysInMonth (y m : Nat) : Nat :=
  if m = 1 then 31 else if m = 2 then (if isLeap y then 29 else 28)
  else if m = 3 then 31 else if m = 4 then 30 else if m = 5 then 31
  else if m = 6 then 30 else if m = 7 then 31 else if m = 8 then 31
  else if m = 9 then 30 else if m = 10 then 31 else if m = 11 then 30
  else if m = 12 then 31 else 0

/-- A valid civil date with a positive four-digit-range year. -/
def isValidDate (y m d : Nat) : Bool :=
  1 ≤ y ∧ 1 ≤ m ∧ m ≤ 12 ∧ 1 ≤ d ∧ d ≤ daysInMonth y m

/-- Day number of a civil date, days since 1970-01-01 (standard era/
day-of-year computation; all intermediate quantities are non-negative for
`y ≥ 1`). -/
def daysFromCivil (y m d : Nat) : Int :=
  let yAdj := if m ≤ 2 then y - 1 else y
  let era := yAdj / 400
  let yoe := yAdj % 400
  let mp := if m > 2 then m - 3 else m + 9
  let doy := (153 * mp + 2) / 5 + d - 1
  let doe := yoe * 365 + yoe / 4 - yoe / 100 + doy
  (era * 146097 + doe : Int) - 719468

/-- All-digit character list to its numeric value. -/
def parseDigits : List Char → Option Nat
  | [] => none
  | l =>
    if l.all Char.isDigit then
      some (l.foldl (fun acc c => acc * 10 + (c.toNat - 48)) 0)
    else none

/-- Split a character list at a separator character. -/
def splitOnChar (sep : Char) : List Char → List (List Char)
  | [] => [[]]
  | c :: rest =>
    if c = sep then [] :: splitOnChar sep rest
    else
      match splitOnChar sep rest with
      | l :: ls => (c :: l) :: ls
      | [] => [[c]]

/-- Parse `year-sep-month-sep-day` with a four-digit year and one- or
two-digit month/day, range-checked. -/
def parseYmd (sep : Char) (l : List Char) : Option Int :=
  match splitOnChar sep l with
  | [ys, ms, ds] =>
    if ys.length = 4 ∧ (ms.length = 1 ∨ ms.length = 2) ∧
        (ds.length = 1 ∨ ds.length = 2) then
      match parseDigits ys, parseDigits ms, parseDigits ds with
      | some y, some m, some d =>
        if isValidDate y m d then some (daysFromCivil y m d) else none
      | _, _, _ => none
    else none
  | _ => none

/-- Parse `day/month/year` (`%d/%m/%Y`), range-checked. -/
def parseDmy (l : List Char) : Option Int :=
  match splitOnChar '/' l with
  | [ds, ms, ys] =>
    if ys.length = 4 ∧ (ms.length = 1 ∨ ms.length = 2) ∧
        (ds.length = 1 ∨ ds.length = 2) then
      match parseDigits ys, parseDigits ms, parseDigits ds with
      | some y, some m, some d =>
        if isValidDate y m d then some (daysFromCivil y m d) else none
      | _, _, _ => none
    else none
  | _ => none

/-- `DebtAuditor._parse_date` at day granularity: strip, then try ISO /
`%Y-%m-%d` (one grammar at this granularity), then `%Y/%m/%d`, then
`%d/%m/%Y`; `None` when all fail. -/
def parseDate (s : String) : Option Int :=
  let l := pyStrip s.data
  if l = [] then none
  else
    match parseYmd '-' l with
    | some v => some v
    | none =>
      match parseYmd '/' l with
      | some v => some v
      | none => parseDmy l

/-- Separator class of `re.split(r"[,;\s]+", …)`. -/
def isSepChar (c : Char) : Bool := c = ',' ∨ c = ';' ∨ c.isWhitespace

/-- `re.split(r"[,;\s]+", …)`: split on separator runs (boundary runs yield
empty tokens).  Each step consumes at least one character, so the character
count serves as fuel. -/
def splitSepRuns : Nat → List Char → List (List Char)
  | 0, _ => [[]]
  | _, [] => [[]]
  | fuel + 1, c :: rest =>
    if isSepChar c then [] :: splitSepRuns fuel (rest.dropWhile isSepChar)
    else
      match splitSepRuns fuel rest with
      | l :: ls => (c :: l) :: ls
      | [] => [[c]]

/-- `DebtAuditor._extract_file_refs`: drop backticks, split on separator
runs, keep parts that strip non-empty and contain a dot. -/
def extractFileRefs (files_str : String) : List String :=
  let noTicks := files_str.data.filter (fun c => c ≠ '`')
  let parts := splitSepRuns noTicks.length noTicks
  (parts.filter (fun p => pyStrip p ≠ [] ∧ '.' ∈ p)).map
    (fun p => String.mk (pyStrip p))

/-- `DebtAuditor.DEFAULT_AGE_THRESHOLD_DAYS`. -/
def DEFAULT_AGE_THRESHOLD_DAYS : Nat := 30

/-- `DebtAuditor._audit_debt_item`: the age-threshold check and the
possible-resolution check for one table row.  `now` is the current day
number; `fileExists` and `hasChangesSince` stand for `Path.exists` and the
git helper. -/
def auditDebtItem (fileExists : FsPath → Bool)
    (hasChangesSince : FsPath → Int → Bool) (age_threshold_days : Nat)
    (now : Int) (item : List (String × String)) (system_path : FsPath)
    (rel_system : String) : List ValidationIssue :=
  let debt_id := debtItemId item
  let priority := debtItemPriority item
  let created_str := debtItemCreatedStr item
  let files_str := debtItemFilesStr item
  let created_date := parseDate created_str
  let ageIssues : List ValidationIssue :=
    match created_date with
    | none => []
    | some created =>
      let age := now - created
      if age > (age_threshold_days : Int) then
        if priority = "high" then
          [{ system := rel_system
             check := "age_threshold"
             severity := Severity.warning
             message := "High-priority debt " ++ debt_id ++
               " aging without resolution (" ++ toString age ++ " days)"
             file := some "debt.md" }]
        else
          [{ system := rel_system
             check := "age_threshold"
             severity := Severity.info
             message := "Debt item " ++ debt_id ++ " older than " ++
               toString age_threshold_days ++ " days (" ++ toString age ++
               " days), consider review"
             file := some "debt.md" }]
      else []
  let fileIssues : List ValidationIssue :=
    match created_date with
    | none => []
    | some created =>
      if files_str ≠ "" then
        (extractFileRefs files_str).filterMap (fun ref =>
          let full_path := system_path ++ [ref]
          if fileExists full_path ∧ hasChangesSince full_path created then
            some { system := rel_system
                   check := "possibly_resolved"
                   severity := Severity.info
                   message := "Debt " ++ debt_id ++ " references " ++ ref ++
                     " which had commits since debt created"
                   file := some "debt.md" }
          else none)
      else []
  ageIssues ++ fileIssues

/-! ## Theorems: validation runner -/

/-! ### Graph engine: basic lemmas -/

lemma mem_dedupKeys {x : String} {l : List String} :
    x ∈ dedupKeys l ↔ x ∈ l := by
  induction l with
  | nil => simp [dedupKeys]
  | cons a rest ih =>
    simp only [dedupKeys, List.mem_cons, List.mem_filter, ih, ne_eq,
      decide_not, Bool.not_eq_eq_eq_not, Bool.not_true, decide_eq_false_iff_not]
    constructor
    · rintro (rfl | ⟨h, _⟩) <;> tauto
    · rintro (rfl | h)
      · left; rfl
      · by_cases hxa : x = a
        · left; exact hxa
        · right; exact ⟨h, hxa⟩

lemma nodup_dedupKeys (l : List String) : (dedupKeys l).Nodup := by
  induction l with
  | nil => simp [dedupKeys]
  | cons a rest ih =>
    simp only [dedupKeys, List.nodup_cons]
    refine ⟨fun hmem => ?_, List.Nodup.filter _ ih⟩
    have := (List.mem_filter.mp hmem).2
    simp at this

lemma mem_insertSorted {x a : String} {l : List String} :
    x ∈ insertSorted a l ↔ x = a ∨ x ∈ l := by
  induction l with
  | nil => simp [insertSorted]
  | cons b rest ih =>
    simp only [insertSorted]
    split
    · simp
    · simp only [List.mem_cons, ih]
      tauto

lemma mem_sortStrings {x : String} {l : List String} :
    x ∈ sortStrings l ↔ x ∈ l := by
  induction l with
  | nil => simp [sortStrings]
  | cons a rest ih =>
    simp only [sortStrings, List.foldr_cons] at ih ⊢
    rw [mem_insertSorted, ih, List.mem_cons]

lemma mem_insertEdgeSorted {x a : String × String} {l : List (String × String)} :
    x ∈ insertEdgeSorted a l ↔ x = a ∨ x ∈ l := by
  induction l with
  | nil => simp [insertEdgeSorted]
  | cons b rest ih =>
    simp only [insertEdgeSorted]
    split
    · simp
    · simp only [List.mem_cons, ih]
      tauto

lemma mem_sortEdges {x : String × String} {l : List (String × String)} :
    x ∈ sortEdges l ↔ x ∈ l := by
  induction l with
  | nil => simp [sortEdges]
  | cons a rest ih =>
    simp only [sortEdges, List.foldr_cons] at ih ⊢
    rw [mem_insertEdgeSorted, ih, List.mem_cons]

lemma length_insertSorted (a : String) (l : List String) :
    (insertSorted a l).length = l.length + 1 := by
  induction l with
  | nil => simp [insertSorted]
  | cons b rest ih =>
    simp only [insertSorted]
    split <;> simp [ih]

lemma length_sortStrings (l : List String) :
    (sortStrings l).length = l.length := by
  induction l with
  | nil => rfl
  | cons a rest ih =>
    simp only [sortStrings, List.foldr_cons] at ih ⊢
    rw [length_insertSorted, ih, List.length_cons]

/-- Adjacency lookup over a map built from a key list. -/
lemma lookupAdj_map_keys (keys : List String) (f : String → List String)
    (q : String) :
    lookupAdj (keys.map (fun p => (p, f p))) q =
      if q ∈ keys then f q else [] := by
  induction keys with
  | nil => simp [lookupAdj]
  | cons k rest ih =>
    by_cases hk : k = q
    · subst hk
      simp [lookupAdj, List.find?]
    · have hskip : lookupAdj ((k :: rest).map (fun p => (p, f p))) q =
          lookupAdj (rest.map (fun p => (p, f p))) q := by
        simp [lookupAdj, List.find?_cons, hk]
      rw [hskip, ih]
      by_cases hq : q ∈ rest
      · rw [if_pos hq, if_pos (List.mem_cons_of_mem _ hq)]
      · rw [if_neg hq, if_neg (by simp [hq, Ne.symm hk])]

lemma lookupAdj_buildDependenciesMap (systems : List String)
    (edges : List (String × String)) (q : String) :
    lookupAdj (buildDependenciesMap systems edges) q =
      if q ∈ systems then
        ((sortEdges edges).filter (fun e => e.1 = q)).map (fun e => e.2)
      else [] := by
  rw [buildDependenciesMap, lookupAdj_map_keys]
  simp [mem_dedupKeys]

lemma lookupAdj_buildDependentsMap (systems : List String)
    (edges : List (String × String)) (q : String) :
    lookupAdj (buildDependentsMap systems edges) q =
      if q ∈ systems then
        ((sortEdges edges).filter (fun e => e.2 = q)).map (fun e => e.1)
      else [] := by
  rw [buildDependentsMap, lookupAdj_map_keys]
  simp [mem_dedupKeys]

/-- Membership in the forward adjacency is exactly edge membership (for a
known source system). -/
lemma mem_lookupAdj_deps {systems : List String}
    {edges : List (String × String)} {q d : String} :
    d ∈ lookupAdj (buildDependenciesMap systems edges) q ↔
      (q, d) ∈ edges ∧ q ∈ systems := by
  rw [lookupAdj_buildDependenciesMap]
  split
  · next hq =>
    simp only [List.mem_map, List.mem_filter]
    constructor
    · rintro ⟨e, ⟨he, heq⟩, rfl⟩
      simp only [decide_eq_true_eq] at heq
      exact ⟨by simpa [← heq, Prod.ext_iff] using mem_sortEdges.mp he, hq⟩
    · rintro ⟨he, _⟩
      exact ⟨(q, d), ⟨mem_sortEdges.mpr he, by simp⟩, rfl⟩
  · next hq => simp [hq]

/-- Membership in the reverse adjacency is exactly reversed-edge
membership (for a known target system). -/
lemma mem_lookupAdj_dependents {systems : List String}
    {edges : List (String × String)} {q d : String} :
    d ∈ lookupAdj (buildDependentsMap systems edges) q ↔
      (d, q) ∈ edges ∧ q ∈ systems := by
  rw [lookupAdj_buildDependentsMap]
  split
  · next hq =>
    simp only [List.mem_map, List.mem_filter]
    constructor
    · rintro ⟨e, ⟨he, heq⟩, rfl⟩
      simp only [decide_eq_true_eq] at heq
      exact ⟨by simpa [← heq, Prod.ext_iff] using mem_sortEdges.mp he, hq⟩
    · rintro ⟨he, _⟩
      exact ⟨(d, q), ⟨mem_sortEdges.mpr he, by simp⟩, rfl⟩
  · next hq => simp [hq]

/-- Keys of the forward adjacency map. -/
lemma keys_buildDependenciesMap (systems : List String)
    (edges : List (String × String)) :
    (buildDependenciesMap systems edges).map (fun e => e.1) =
      dedupKeys systems := by
  simp [buildDependenciesMap, Function.comp_def]

/-- Keys of the reverse adjacency map. -/
lemma keys_buildDependentsMap (systems : List String)
    (edges : List (String × String)) :
    (buildDependentsMap systems edges).map (fun e => e.1) =
      dedupKeys systems := by
  simp [buildDependentsMap, Function.comp_def]

/-! ### Transitive closure: correctness of the worklist loop -/

lemma lookupAdj_eq_nil_of_not_mem_keys {dm : List (String × List String)}
    {q : String} (h : q ∉ dm.map (fun e => e.1)) : lookupAdj dm q = [] := by
  induction dm with
  | nil => rfl
  | cons e rest ih =>
    simp only [List.map_cons, List.mem_cons, not_or] at h
    have hd : (decide (e.1 = q)) = false :=
      decide_eq_false (fun hh => h.1 hh.symm)
    simp only [lookupAdj, List.find?_cons, hd]
    exact ih h.2

lemma filter_unexpanded_congr (rest : List (String × List String))
    (visited : List String) (current : String)
    (h : current ∉ rest.map (fun e => e.1)) :
    rest.filter (fun e => e.1 ∉ visited ++ [current]) =
      rest.filter (fun e => e.1 ∉ visited) := by
  apply List.filter_congr
  intro e he
  have hne : e.1 ≠ current := fun hc => h (hc ▸ List.mem_map_of_mem _ he)
  simp [List.mem_append, hne]

/-- Visiting `current` removes exactly its adjacency-list contribution from
the unexpanded total. -/
lemma sum_unexpanded_split (dm : List (String × List String))
    (visited : List String) (current : String)
    (hnd : (dm.map (fun e => e.1)).Nodup) (hcv : current ∉ visited) :
    ((dm.filter (fun e => e.1 ∉ visited)).map (fun e => e.2.length)).sum =
      ((dm.filter (fun e => e.1 ∉ visited ++ [current])).map
        (fun e => e.2.length)).sum +
      (if current ∈ dm.map (fun e => e.1) then (lookupAdj dm current).length
       else 0) := by
  induction dm with
  | nil => simp
  | cons e rest ih =>
    rw [List.map_cons, List.nodup_cons] at hnd
    have ihr := ih hnd.2
    by_cases hek : e.1 = current
    · have hkeep : e.1 ∉ visited := hek ▸ hcv
      have hcur_rest : current ∉ rest.map (fun e => e.1) := hek ▸ hnd.1
      have hlook : lookupAdj (e :: rest) current = e.2 := by
        simp [lookupAdj, List.find?_cons, hek]
      rw [hlook]
      rw [List.filter_cons, List.filter_cons]
      rw [if_pos (by simpa using hkeep), if_neg (by simp [hek])]
      rw [filter_unexpanded_congr rest visited current hcur_rest]
      simp [hek, Nat.add_comm]
    · have hd : (decide (e.1 = current)) = false := decide_eq_false hek
      have hlook : lookupAdj (e :: rest) current = lookupAdj rest current := by
        simp only [lookupAdj, List.find?_cons, hd]
      have hnotk : ∀ hh : current ∈ e.1 :: List.map (fun e => e.1) rest,
          current ∉ List.map (fun e => e.1) rest → False := fun hh hk =>
        (List.mem_cons.mp hh).elim (fun h1 => hek h1.symm) hk
      rw [List.filter_cons, List.filter_cons]
      by_cases hev : e.1 ∈ visited
      · rw [if_neg (by simp [hev]), if_neg (by simp [List.mem_append, hev])]
        rw [ihr, hlook]
        simp only [List.map_cons]
        by_cases hk : current ∈ rest.map (fun e => e.1)
        · rw [if_pos hk, if_pos (List.mem_cons_of_mem _ hk)]
        · rw [if_neg hk, if_neg (fun hh => hnotk hh hk)]
      · rw [if_pos (by simp [hev]),
          if_pos (by simp [List.mem_append, hev, hek])]
        simp only [List.map_cons, List.sum_cons]
        rw [ihr, hlook]
        by_cases hk : current ∈ rest.map (fun e => e.1)
        · rw [if_pos hk, if_pos (List.mem_cons_of_mem _ hk)]
          omega
        · rw [if_neg hk, if_neg (fun hh => hnotk hh hk)]
          omega

/-- Soundness of the traversal loop: everything visited is reachable (in the
reflexive-transitive sense) from the initial worklist, unless already
visited. -/
lemma closureLoop_sound (dm : List (String × List String)) :
    ∀ (fuel : Nat) (visited tv : List String) (x : String),
      x ∈ closureLoop dm fuel visited tv →
      x ∈ visited ∨ ∃ t ∈ tv, Relation.ReflTransGen
        (fun a b => b ∈ lookupAdj dm a) t x := by
  intro fuel
  induction fuel with
  | zero =>
    intro visited tv x hx
    exact Or.inl hx
  | succ fuel ih =>
    intro visited tv x hx
    match tv with
    | [] => exact Or.inl hx
    | current :: rest =>
      by_cases hc : current ∈ visited
      · rw [show closureLoop dm (fuel + 1) visited (current :: rest) =
            closureLoop dm fuel visited rest from by
          simp [closureLoop, hc]] at hx
        rcases ih visited rest x hx with h | ⟨t, ht, hr⟩
        · exact Or.inl h
        · exact Or.inr ⟨t, List.mem_cons_of_mem _ ht, hr⟩
      · rw [show closureLoop dm (fuel + 1) visited (current :: rest) =
            closureLoop dm fuel (visited ++ [current])
              (((lookupAdj dm current).filter
                (fun d => d ∉ visited ++ [current])).reverse ++ rest) from by
          simp [closureLoop, hc]] at hx
        rcases ih _ _ x hx with h | ⟨t, ht, hr⟩
        · rcases List.mem_append.mp h with h | h
          · exact Or.inl h
          · simp only [List.mem_singleton] at h
            exact Or.inr ⟨current, List.mem_cons_self _ _,
              h ▸ Relation.ReflTransGen.refl⟩
        · rcases List.mem_append.mp ht with ht | ht
          · have hmem : t ∈ lookupAdj dm current :=
              (List.mem_filter.mp (List.mem_reverse.mp ht)).1
            exact Or.inr ⟨current, List.mem_cons_self _ _,
              Relation.ReflTransGen.head hmem hr⟩
          · exact Or.inr ⟨t, List.mem_cons_of_mem _ ht, hr⟩

/-- Completeness of the traversal loop: with enough fuel (the potential) and
the visited-set invariant, the result absorbs the visited set and the
worklist and is closed under the adjacency relation. -/
lemma closureLoop_complete (dm : List (String × List String))
    (hnd : (dm.map (fun e => e.1)).Nodup) :
    ∀ (fuel : Nat) (visited tv : List String),
      closurePotential dm visited tv ≤ fuel →
      (∀ v ∈ visited, ∀ d ∈ lookupAdj dm v, d ∈ visited ∨ d ∈ tv) →
      (∀ v ∈ visited, v ∈ closureLoop dm fuel visited tv) ∧
      (∀ t ∈ tv, t ∈ closureLoop dm fuel visited tv) ∧
      (∀ v ∈ closureLoop dm fuel visited tv, ∀ d ∈ lookupAdj dm v,
        d ∈ closureLoop dm fuel visited tv) := by
  intro fuel
  induction fuel with
  | zero =>
    intro visited tv hfuel hInv
    have htv : tv = [] := by
      have : tv.length = 0 := by
        simp only [closurePotential] at hfuel
        omega
      exact List.length_eq_zero.mp this
    subst htv
    exact ⟨fun v hv => hv, by simp,
      fun v hv d hd => (hInv v hv d hd).resolve_right (by simp)⟩
  | succ fuel ih =>
    intro visited tv hfuel hInv
    match tv with
    | [] =>
      refine ⟨fun v hv => ?_, by simp, fun v hv d hd => ?_⟩
      · simpa [closureLoop] using hv
      · simp only [closureLoop] at hv ⊢
        exact (hInv v hv d hd).resolve_right (by simp)
    | current :: rest =>
      by_cases hc : current ∈ visited
      · have heq : closureLoop dm (fuel + 1) visited (current :: rest) =
            closureLoop dm fuel visited rest := by
          simp [closureLoop, hc]
        have hfuel' : closurePotential dm visited rest ≤ fuel := by
          simp only [closurePotential, List.length_cons] at hfuel ⊢
          omega
        have hInv' : ∀ v ∈ visited, ∀ d ∈ lookupAdj dm v,
            d ∈ visited ∨ d ∈ rest := by
          intro v hv d hd
          rcases hInv v hv d hd with h | h
          · exact Or.inl h
          · rcases List.mem_cons.mp h with rfl | h
            · exact Or.inl hc
            · exact Or.inr h
        obtain ⟨ha, hb, hcl⟩ := ih visited rest hfuel' hInv'
        rw [heq]
        refine ⟨ha, fun t ht => ?_, hcl⟩
        rcases List.mem_cons.mp ht with rfl | ht
        · exact ha _ hc
        · exact hb t ht
      · have heq : closureLoop dm (fuel + 1) visited (current :: rest) =
            closureLoop dm fuel (visited ++ [current])
              (((lookupAdj dm current).filter
                (fun d => d ∉ visited ++ [current])).reverse ++ rest) := by
          simp [closureLoop, hc]
        have hsplit := sum_unexpanded_split dm visited current hnd hc
        have hflt : ((lookupAdj dm current).filter
            (fun d => d ∉ visited ++ [current])).length ≤
            (lookupAdj dm current).length := List.length_filter_le _ _
        have hfuel' : closurePotential dm (visited ++ [current])
            (((lookupAdj dm current).filter
              (fun d => d ∉ visited ++ [current])).reverse ++ rest) ≤ fuel := by
          by_cases hk : current ∈ dm.map (fun e => e.1)
          · rw [if_pos hk] at hsplit
            simp only [closurePotential, List.length_append,
              List.length_reverse, List.length_cons] at hfuel ⊢
            omega
          · have hnil : lookupAdj dm current = [] :=
              lookupAdj_eq_nil_of_not_mem_keys hk
            rw [if_neg hk] at hsplit
            simp only [closurePotential, List.length_append,
              List.length_reverse, List.length_cons, hnil,
              List.filter_nil, List.length_nil] at hfuel ⊢
            rw [hsplit] at hfuel
            omega
        have hInv' : ∀ v ∈ visited ++ [current], ∀ d ∈ lookupAdj dm v,
            d ∈ visited ++ [current] ∨
            d ∈ ((lookupAdj dm current).filter
              (fun d => d ∉ visited ++ [current])).reverse ++ rest := by
          intro v hv d hd
          rcases List.mem_append.mp hv with hv | hv
          · rcases hInv v hv d hd with h | h
            · exact Or.inl (List.mem_append_left _ h)
            · rcases List.mem_cons.mp h with rfl | h
              · exact Or.inl (List.mem_append_right _ (by simp))
              · exact Or.inr (List.mem_append_right _ h)
          · simp only [List.mem_singleton] at hv
            subst hv
            by_cases hdv : d ∈ visited ++ [v]
            · exact Or.inl hdv
            · exact Or.inr (List.mem_append_left _
                (List.mem_reverse.mpr
                  (List.mem_filter.mpr ⟨hd, by simpa using hdv⟩)))
        obtain ⟨ha, hb, hcl⟩ := ih _ _ hfuel' hInv'
        rw [heq]
        refine ⟨fun v hv => ha v (List.mem_append_left _ hv),
          fun t ht => ?_, hcl⟩
        rcases List.mem_cons.mp ht with rfl | ht
        · exact ha _ (List.mem_append_right _ (by simp))
        · exact hb t (List.mem_append_right _ ht)

/-- The traversal from a start node computes exactly transitive reachability
over the given adjacency map. -/
lemma closure_run_iff (dm : List (String × List String))
    (hnd : (dm.map (fun e => e.1)).Nodup) (p x : String) :
    x ∈ closureLoop dm (closurePotential dm [] (lookupAdj dm p)) []
        (lookupAdj dm p) ↔
      Relation.TransGen (fun a b => b ∈ lookupAdj dm a) p x := by
  constructor
  · intro hx
    rcases closureLoop_sound dm _ [] _ x hx with h | ⟨t, ht, hr⟩
    · simp at h
    · exact Relation.TransGen.head' ht hr
  · intro hx
    obtain ⟨-, hb, hcl⟩ := closureLoop_complete dm hnd _ [] (lookupAdj dm p)
      le_rfl (by simp)
    induction hx with
    | single h => exact hb _ h
    | tail _ hyx ih => exact hcl _ ih _ hyx

/-- **C6.** For every graph — including cyclic graphs and self-loops — and
every system path `p`, `get_all_dependencies` returns exactly the set of
nodes reachable from `p` by following one or more dependency edges, and
`get_all_dependents` the same over reversed edges.  (Both embedded functions
are total: the loop variant `closurePotential` proven adequate here is what
bounds the Python `while` loop, so both terminate on every input; the
characterization at `x = p` says the origin is included exactly when a cycle
loops back to it.)  The hypothesis is the store's edge-endpoint integrity
constraint. -/
theorem transitive_closures_are_reachability (systems : List String)
    (edges : List (String × String))
    (hE : ∀ e ∈ edges, e.1 ∈ systems ∧ e.2 ∈ systems) (p x : String) :
    (x ∈ getAllDependencies systems edges p ↔
        Relation.TransGen (fun a b => (a, b) ∈ edges) p x) ∧
    (x ∈ getAllDependents systems edges p ↔
        Relation.TransGen (fun a b => (b, a) ∈ edges) p x) := by
  constructor
  · have hiff : ∀ a b : String,
        (b ∈ lookupAdj (buildDependenciesMap systems edges) a) ↔ (a, b) ∈ edges := by
      intro a b
      rw [mem_lookupAdj_deps]
      exact ⟨fun h => h.1, fun h => ⟨h, (hE _ h).1⟩⟩
    by_cases hall : (buildDependenciesMap systems edges).all (fun e => e.1 ≠ p)
    · rw [getAllDependencies, if_pos hall]
      simp only [List.not_mem_nil, false_iff]
      intro hx
      induction hx with
      | single h =>
        have hp : p ∈ systems := (hE _ h).1
        have hkey : p ∈ (buildDependenciesMap systems edges).map (fun e => e.1) := by
          rw [keys_buildDependenciesMap]
          exact mem_dedupKeys.mpr hp
        obtain ⟨e, he, hep⟩ := List.mem_map.mp hkey
        have := List.all_eq_true.mp hall e he
        simp [hep] at this
      | tail _ _ ih => exact ih
    · rw [getAllDependencies, if_neg hall]
      rw [closure_run_iff _ (keys_buildDependenciesMap systems edges ▸
        nodup_dedupKeys systems) p x]
      constructor
      · exact Relation.TransGen.mono (fun a b hab => (hiff a b).mp hab)
      · exact Relation.TransGen.mono (fun a b hab => (hiff a b).mpr hab)
  · have hiff : ∀ a b : String,
        (b ∈ lookupAdj (buildDependentsMap systems edges) a) ↔ (b, a) ∈ edges := by
      intro a b
      rw [mem_lookupAdj_dependents]
      exact ⟨fun h => h.1, fun h => ⟨h, (hE _ h).2⟩⟩
    by_cases hall : (buildDependentsMap systems edges).all (fun e => e.1 ≠ p)
    · rw [getAllDependents, if_pos hall]
      simp only [List.not_mem_nil, false_iff]
      intro hx
      induction hx with
      | single h =>
        have hp : p ∈ systems := (hE _ h).2
        have hkey : p ∈ (buildDependentsMap systems edges).map (fun e => e.1) := by
          rw [keys_buildDependentsMap]
          exact mem_dedupKeys.mpr hp
        obtain ⟨e, he, hep⟩ := List.mem_map.mp hkey
        have := List.all_eq_true.mp hall e he
        simp [hep] at this
      | tail _ _ ih => exact ih
    · rw [getAllDependents, if_neg hall]
      rw [closure_run_iff _ (keys_buildDependentsMap systems edges ▸
        nodup_dedupKeys systems) p x]
      constructor
      · exact Relation.TransGen.mono (fun a b hab => (hiff a b).mp hab)
      · exact Relation.TransGen.mono (fun a b hab => (hiff a b).mpr hab)

/-- Witness for C6: in the diamond graph, `core` is a transitive dependency
of `ui`, and `ui` a transitive dependent of `core`. -/
theorem transitive_closures_are_reachability_witness :
    Relation.TransGen
      (fun a b => (a, b) ∈
        [("api", "core"), ("cli", "core"), ("ui", "api"), ("ui", "cli")])
      "ui" "core" ∧
    Relation.TransGen
      (fun a b => (b, a) ∈
        [("api", "core"), ("cli", "core"), ("ui", "api"), ("ui", "cli")])
      "core" "ui" :=
  ⟨(transitive_closures_are_reachability ["core", "api", "cli", "ui"]
      [("api", "core"), ("cli", "core"), ("ui", "api"), ("ui", "cli")]
      (by decide) "ui" "core").1.mp (by decide),
   (transitive_closures_are_reachability ["core", "api", "cli", "ui"]
      [("api", "core"), ("cli", "core"), ("ui", "api"), ("ui", "cli")]
      (by decide) "core" "ui").2.mp (by decide)⟩

/-! ### Topological order: correctness of Kahn's algorithm -/

lemma perm_insertSorted (a : String) (l : List String) :
    (insertSorted a l).Perm (a :: l) := by
  induction l with
  | nil => exact List.Perm.refl _
  | cons b rest ih =>
    simp only [insertSorted]
    split
    · exact List.Perm.refl _
    · exact (List.Perm.cons b ih).trans (List.Perm.swap a b rest)

lemma perm_sortStrings (l : List String) : (sortStrings l).Perm l := by
  induction l with
  | nil => exact List.Perm.refl _
  | cons a rest ih =>
    simp only [sortStrings, List.foldr_cons] at ih ⊢
    exact (perm_insertSorted a _).trans (List.Perm.cons a ih)

lemma perm_insertEdgeSorted (a : String × String) (l : List (String × String)) :
    (insertEdgeSorted a l).Perm (a :: l) := by
  induction l with
  | nil => exact List.Perm.refl _
  | cons b rest ih =>
    simp only [insertEdgeSorted]
    split
    · exact List.Perm.refl _
    · exact (List.Perm.cons b ih).trans (List.Perm.swap a b rest)

lemma perm_sortEdges (l : List (String × String)) : (sortEdges l).Perm l := by
  induction l with
  | nil => exact List.Perm.refl _
  | cons a rest ih =>
    simp only [sortEdges, List.foldr_cons] at ih ⊢
    exact (perm_insertEdgeSorted a _).trans (List.Perm.cons a ih)

/-- With duplicate-free keys, the adjacency lookup of a present entry is
that entry's list. -/
lemma lookupAdj_eq_of_mem {dm : List (String × List String)}
    (hnd : (dm.map (fun e => e.1)).Nodup) {v : String} {ds : List String}
    (hmem : (v, ds) ∈ dm) : lookupAdj dm v = ds := by
  induction dm with
  | nil => simp at hmem
  | cons e rest ih =>
    rw [List.map_cons, List.nodup_cons] at hnd
    rcases List.mem_cons.mp hmem with rfl | hmem
    · simp [lookupAdj, List.find?_cons]
    · have hne : e.1 ≠ v := by
        intro hc
        exact hnd.1 (hc ▸ List.mem_map_of_mem _ hmem)
      have hd : (decide (e.1 = v)) = false := decide_eq_false hne
      simp only [lookupAdj, List.find?_cons, hd]
      exact ih hnd.2 hmem

/-- With unique edge rows, every adjacency list of the forward map is
duplicate-free. -/
lemma nodup_lookupAdj_deps {systems : List String}
    {edges : List (String × String)} (hedges : edges.Nodup) (v : String) :
    (lookupAdj (buildDependenciesMap systems edges) v).Nodup := by
  rw [lookupAdj_buildDependenciesMap]
  split
  · have hnd : ((sortEdges edges).filter (fun e => e.1 = v)).Nodup :=
      (((perm_sortEdges edges).nodup_iff).mpr hedges).filter _
    refine List.Nodup.map_on ?_ hnd
    intro x hx y hy hxy
    have hx1 : x.1 = v := by simpa using (List.mem_filter.mp hx).2
    have hy1 : y.1 = v := by simpa using (List.mem_filter.mp hy).2
    exact Prod.ext (hx1.trans hy1.symm) hxy
  · exact List.nodup_nil

/-- Removing one present element from the "unresolved" filter decreases its
count by exactly one. -/
lemma filter_not_mem_append_length {l result : List String} {a : String}
    (hnd : l.Nodup) (hal : a ∈ l) (har : a ∉ result) :
    (l.filter (fun d => d ∉ result ++ [a])).length + 1 =
      (l.filter (fun d => d ∉ result)).length := by
  induction l with
  | nil => simp at hal
  | cons b rest ih =>
    rw [List.nodup_cons] at hnd
    rcases List.mem_cons.mp hal with rfl | hal'
    · rw [List.filter_cons, List.filter_cons]
      rw [if_neg (by simp [List.mem_append]), if_pos (by simpa using har)]
      have hcg : rest.filter (fun d => d ∉ result ++ [a]) =
          rest.filter (fun d => d ∉ result) := by
        apply List.filter_congr
        intro d hd
        have : d ≠ a := fun hc => hnd.1 (hc ▸ hd)
        simp [List.mem_append, this]
      rw [hcg, List.length_cons]
    · have hba : b ≠ a := fun hc => hnd.1 (hc ▸ hal')
      rw [List.filter_cons, List.filter_cons]
      by_cases hbr : b ∈ result
      · rw [if_neg (by simp [hbr]), if_neg (by simp [List.mem_append, hbr])]
        exact ih hnd.2 hal'
      · rw [if_pos (by simp [List.mem_append, hbr, hba]),
          if_pos (by simpa using hbr)]
        simp only [List.length_cons]
        have := ih hnd.2 hal'
        omega

/-- When the removed element is absent, the "unresolved" filter is
unchanged. -/
lemma filter_not_mem_append_of_not_mem {l result : List String} {a : String}
    (hal : a ∉ l) :
    l.filter (fun d => d ∉ result ++ [a]) = l.filter (fun d => d ∉ result) := by
  apply List.filter_congr
  intro d hd
  have : d ≠ a := fun hc => hal (hc ▸ hd)
  simp [List.mem_append, this]

/-- A duplicate-free list included in `keys` and at least as long contains
every key. -/
lemma mem_of_nodup_subset_length {l keys : List String} (hnd : l.Nodup)
    (hsub : ∀ x ∈ l, x ∈ keys) (hlen : keys.length ≤ l.length) :
    ∀ k ∈ keys, k ∈ l := by
  have hsp : l.Subperm keys := List.subperm_of_subset hnd hsub
  have hperm : l.Perm keys := hsp.perm_of_length_le hlen
  intro k hk
  exact hperm.mem_iff.mpr hk

/-- In a finite set where every node has a successor inside the set, some
node lies on a cycle. -/
lemma cycle_of_successors {E : String → String → Prop} (R : List String)
    (hne : R ≠ []) (hsucc : ∀ v ∈ R, ∃ w ∈ R, E v w) :
    ∃ v, Relation.TransGen E v v := by
  classical
  obtain ⟨v0, hv0⟩ := List.exists_mem_of_ne_nil R hne
  have hchoice : ∀ v : String, ∃ w : String, v ∈ R → w ∈ R ∧ E v w := by
    intro v
    by_cases hv : v ∈ R
    · obtain ⟨w, hw, he⟩ := hsucc v hv
      exact ⟨w, fun _ => ⟨hw, he⟩⟩
    · exact ⟨v0, fun h => absurd h hv⟩
  choose g hg using hchoice
  have hiter : ∀ n : Nat, g^[n] v0 ∈ R := by
    intro n
    induction n with
    | zero => simpa using hv0
    | succ n ih =>
      rw [Function.iterate_succ_apply']
      exact (hg _ ih).1
  have hstep : ∀ i k : Nat, Relation.TransGen E (g^[i] v0) (g^[i + (k + 1)] v0) := by
    intro i k
    induction k with
    | zero =>
      rw [show i + 1 = i + 1 from rfl, Function.iterate_succ_apply']
      exact Relation.TransGen.single (hg _ (hiter i)).2
    | succ k ih =>
      rw [show i + (k + 1 + 1) = (i + (k + 1)) + 1 from by omega,
        Function.iterate_succ_apply']
      exact Relation.TransGen.tail ih (hg _ (hiter _)).2
  have hpigeon : ∃ i ∈ Finset.range (R.length + 1),
      ∃ j ∈ Finset.range (R.length + 1), i ≠ j ∧ g^[i] v0 = g^[j] v0 := by
    apply Finset.exists_ne_map_eq_of_card_lt_of_maps_to
    · rw [Finset.card_range]
      exact Nat.lt_succ_of_le R.toFinset_card_le
    · intro i _
      exact List.mem_toFinset.mpr (hiter i)
  obtain ⟨i, _, j, _, hij, heq⟩ := hpigeon
  rcases Nat.lt_or_ge i j with hlt | hge
  · refine ⟨g^[i] v0, ?_⟩
    have := hstep i (j - i - 1)
    rw [show i + (j - i - 1 + 1) = j from by omega] at this
    rw [← heq] at this
    exact this
  · have hlt2 : j < i := lt_of_le_of_ne hge (Ne.symm hij)
    refine ⟨g^[j] v0, ?_⟩
    have := hstep j (i - j - 1)
    rw [show j + (i - j - 1 + 1) = i from by omega] at this
    rw [heq] at this
    exact this

lemma kahnStep_fst (node : String) (result : List String)
    (acc : (String → Int) × List String) (e : String × List String) :
    (kahnStep node result acc e).1 =
      if node ∈ e.2 ∧ e.1 ∉ result
      then (fun w => if w = e.1 then acc.1 e.1 - 1 else acc.1 w)
      else acc.1 := by
  by_cases h : node ∈ e.2 ∧ e.1 ∉ result
  · rw [if_pos h]
    simp only [kahnStep, if_pos h]
  · rw [if_neg h]
    simp [kahnStep, h]

lemma kahnStep_snd (node : String) (result : List String)
    (acc : (String → Int) × List String) (e : String × List String) :
    (kahnStep node result acc e).2 =
      if (node ∈ e.2 ∧ e.1 ∉ result) ∧ (acc.1 e.1 - 1 = 0 ∧ e.1 ∉ acc.2)
      then sortStrings (acc.2 ++ [e.1]) else acc.2 := by
  by_cases h : node ∈ e.2 ∧ e.1 ∉ result
  · simp only [kahnStep, if_pos h]
    by_cases h2 : acc.1 e.1 - 1 = 0 ∧ e.1 ∉ acc.2
    · rw [if_pos h2, if_pos ⟨h, h2⟩]
    · rw [if_neg h2, if_neg (by tauto)]
  · rw [if_neg (by tauto)]
    simp [kahnStep, h]

/-- Effect of one pass of the decrement loop on the in-degree map. -/
lemma kahnFold_indeg (node : String) (result : List String) :
    ∀ (dm' : List (String × List String)) (acc : (String → Int) × List String)
      (v : String), (dm'.map (fun e => e.1)).Nodup →
      (dm'.foldl (kahnStep node result) acc).1 v =
        if (∃ e ∈ dm', e.1 = v ∧ node ∈ e.2) ∧ v ∉ result then acc.1 v - 1
        else acc.1 v := by
  intro dm'
  induction dm' with
  | nil =>
    intro acc v _
    simp
  | cons e rest ih =>
    intro acc v hnd
    rw [List.map_cons, List.nodup_cons] at hnd
    rw [List.foldl_cons, ih _ v hnd.2]
    by_cases hv : v = e.1
    · subst hv
      have hrest : ¬ ∃ e' ∈ rest, e'.1 = e.1 ∧ node ∈ e'.2 := by
        rintro ⟨e', he', hk, -⟩
        exact hnd.1 (hk ▸ List.mem_map_of_mem (fun x => x.1) he')
      rw [if_neg (fun hcon => hrest hcon.1)]
      rw [kahnStep_fst]
      by_cases hhit : node ∈ e.2 ∧ e.1 ∉ result
      · rw [if_pos hhit,
          if_pos (And.intro ⟨e, List.mem_cons_self _ _, rfl, hhit.1⟩ hhit.2)]
        simp
      · have hnc : ¬ ((∃ e' ∈ e :: rest, e'.1 = e.1 ∧ node ∈ e'.2) ∧
            e.1 ∉ result) := by
          rintro ⟨⟨e', he', hk, hnode⟩, hvr⟩
          rcases List.mem_cons.mp he' with rfl | he'
          · exact hhit ⟨hnode, hk ▸ hvr⟩
          · exact hrest ⟨e', he', hk, hnode⟩
        rw [if_neg hhit, if_neg hnc]
    · have hstep1 : (kahnStep node result acc e).1 v = acc.1 v := by
        rw [kahnStep_fst]
        split
        · exact if_neg hv
        · rfl
      rw [hstep1]
      have hcond : ((∃ e' ∈ rest, e'.1 = v ∧ node ∈ e'.2) ∧ v ∉ result) ↔
          ((∃ e' ∈ e :: rest, e'.1 = v ∧ node ∈ e'.2) ∧ v ∉ result) := by
        constructor
        · rintro ⟨⟨e', he', hk, hnode⟩, hvr⟩
          exact ⟨⟨e', List.mem_cons_of_mem _ he', hk, hnode⟩, hvr⟩
        · rintro ⟨⟨e', he', hk, hnode⟩, hvr⟩
          rcases List.mem_cons.mp he' with rfl | he'
          · exact absurd hk.symm hv  -- hmm hk : e'.1 = v with e' = e → e.1 = v contradicts hv : ¬ v = e.1
          · exact ⟨⟨e', he', hk, hnode⟩, hvr⟩
      rw [if_congr hcond rfl rfl]

/-- Effect of one pass of the decrement loop on the queue's membership. -/
lemma kahnFold_queue (node : String) (result : List String) :
    ∀ (dm' : List (String × List String)) (acc : (String → Int) × List String)
      (v : String), (dm'.map (fun e => e.1)).Nodup →
      (v ∈ (dm'.foldl (kahnStep node result) acc).2 ↔
        v ∈ acc.2 ∨ ((∃ e ∈ dm', e.1 = v ∧ node ∈ e.2) ∧ v ∉ result ∧
          acc.1 v - 1 = 0 ∧ v ∉ acc.2)) := by
  intro dm'
  induction dm' with
  | nil =>
    intro acc v _
    simp
  | cons e rest ih =>
    intro acc v hnd
    rw [List.map_cons, List.nodup_cons] at hnd
    rw [List.foldl_cons, ih _ v hnd.2]
    by_cases hv : v = e.1
    · subst hv
      have hrest : ¬ ∃ e' ∈ rest, e'.1 = e.1 ∧ node ∈ e'.2 := by
        rintro ⟨e', he', hk, -⟩
        exact hnd.1 (hk ▸ List.mem_map_of_mem (fun x => x.1) he')
      have hsnd := kahnStep_snd node result acc e
      have hex : (∃ e' ∈ e :: rest, e'.1 = e.1 ∧ node ∈ e'.2) ↔ node ∈ e.2 := by
        constructor
        · rintro ⟨e', he', hk, hnode⟩
          rcases List.mem_cons.mp he' with rfl | he'
          · exact hnode
          · exact absurd ⟨e', he', hk, hnode⟩ hrest
        · intro hnode
          exact ⟨e, List.mem_cons_self _ _, rfl, hnode⟩
      rw [iff_iff_eq] at hex
      constructor
      · intro h
        rcases h with h | ⟨hexr, -⟩
        · rw [hsnd] at h
          split at h
          · next hc =>
            have h2 : e.1 ∈ acc.2 ++ [e.1] := mem_sortStrings.mp h
            rcases List.mem_append.mp h2 with h2 | h2
            · exact Or.inl h2
            · exact Or.inr ⟨hex ▸ hc.1.1, hc.1.2, hc.2.1, hc.2.2⟩
          · exact Or.inl h
        · exact absurd hexr hrest
      · intro h
        rw [hsnd]
        rcases h with h | ⟨hexm, hvr, hdeg, hq⟩
        · left
          split
          · exact mem_sortStrings.mpr (List.mem_append_left _ h)
          · exact h
        · left
          rw [if_pos ⟨⟨hex ▸ hexm, hvr⟩, hdeg, hq⟩]
          exact mem_sortStrings.mpr (List.mem_append_right _ (by simp))
    · have hstep1 : (kahnStep node result acc e).1 v = acc.1 v := by
        rw [kahnStep_fst]
        split
        · exact if_neg hv
        · rfl
      have hstep2 : (v ∈ (kahnStep node result acc e).2) ↔ v ∈ acc.2 := by
        rw [kahnStep_snd]
        split
        · rw [mem_sortStrings, List.mem_append]
          simp [hv]
        · exact Iff.rfl
      have hcond : (∃ e' ∈ rest, e'.1 = v ∧ node ∈ e'.2) ↔
          (∃ e' ∈ e :: rest, e'.1 = v ∧ node ∈ e'.2) := by
        constructor
        · rintro ⟨e', he', hk, hnode⟩
          exact ⟨e', List.mem_cons_of_mem _ he', hk, hnode⟩
        · rintro ⟨e', he', hk, hnode⟩
          rcases List.mem_cons.mp he' with rfl | he'
          · exact absurd hk.symm hv
          · exact ⟨e', he', hk, hnode⟩
      rw [hstep1]
      constructor
      · intro h
        rcases h with h | ⟨hexr, hrest'⟩
        · exact Or.inl (hstep2.mp h)
        · exact Or.inr ⟨hcond.mp hexr, hrest'.1, hrest'.2.1, fun hm => hrest'.2.2 (hstep2.mpr hm)⟩
      · intro h
        rcases h with h | ⟨hexm, hvr, hdeg, hq⟩
        · exact Or.inl (hstep2.mpr h)
        · exact Or.inr ⟨hcond.mpr hexm, hvr, hdeg, fun hm => hq (hstep2.mp hm)⟩

/-- The existential over map entries, phrased through the lookup. -/
lemma exists_entry_iff (dm : List (String × List String))
    (hnd : (dm.map (fun e => e.1)).Nodup) (node v : String) :
    (∃ e ∈ dm, e.1 = v ∧ node ∈ e.2) ↔
      (v ∈ dm.map (fun e => e.1) ∧ node ∈ lookupAdj dm v) := by
  constructor
  · rintro ⟨e, he, rfl, hnode⟩
    refine ⟨List.mem_map_of_mem _ he, ?_⟩
    rw [lookupAdj_eq_of_mem hnd (show (e.1, e.2) ∈ dm from by simpa using he)]
    exact hnode
  · rintro ⟨hk, hnode⟩
    obtain ⟨e, he, rfl⟩ := List.mem_map.mp hk
    exact ⟨e, he, rfl, by
      rwa [lookupAdj_eq_of_mem hnd
        (show (e.1, e.2) ∈ dm from by simpa using he)] at hnode⟩

/-- The queue stays duplicate-free through one decrement pass. -/
lemma kahnFold_queue_nodup (node : String) (result : List String) :
    ∀ (dm' : List (String × List String)) (acc : (String → Int) × List String),
      acc.2.Nodup → (dm'.foldl (kahnStep node result) acc).2.Nodup := by
  intro dm'
  induction dm' with
  | nil => intro acc h; exact h
  | cons e rest ih =>
    intro acc h
    rw [List.foldl_cons]
    apply ih
    rw [kahnStep_snd]
    split
    · next hc =>
      refine ((perm_sortStrings _).nodup_iff).mpr ?_
      rw [List.nodup_append]
      exact ⟨h, List.nodup_singleton _, by
        intro x hx hx1
        simp only [List.mem_singleton] at hx1
        exact hc.2.2 (hx1 ▸ hx)⟩
    · exact h

/-- Splitting a list that ends in one appended element. -/
lemma append_singleton_eq_append_cons {α : Type} {l l1 l2 : List α} {v a : α}
    (h : l ++ [a] = l1 ++ v :: l2) :
    (l2 = [] ∧ v = a ∧ l1 = l) ∨
      ∃ l2', l = l1 ++ v :: l2' ∧ l2 = l2' ++ [a] := by
  rcases List.eq_nil_or_concat l2 with rfl | ⟨l2', b, rfl⟩
  · left
    have h2 := List.append_inj' h (by simp)
    have hva : v = a := by simpa using h2.2.symm
    exact ⟨rfl, hva, h2.1.symm⟩
  · right
    have h2 : l ++ [a] = (l1 ++ v :: l2') ++ [b] := by simpa using h
    have h3 := List.append_inj' h2 rfl
    have hab : a = b := by simpa using h3.2
    exact ⟨l2', h3.1, by rw [hab, List.concat_eq_append]⟩

/-- Main loop lemma for Kahn's algorithm: from any state satisfying the
invariant, with fuel covering the remaining keys, the final result is
duplicate-free, made of keys, topologically ordered, and leaves every
unprocessed key with at least one unprocessed dependency. -/
lemma kahnLoop_spec (dm : List (String × List String))
    (hnd : (dm.map (fun e => e.1)).Nodup)
    (hdeps : ∀ v, (lookupAdj dm v).Nodup) :
    ∀ (fuel : Nat) (indeg : String → Int) (queue result : List String),
      dm.length ≤ fuel + result.length →
      KahnInv dm indeg queue result →
      (kahnLoop dm fuel indeg queue result).Nodup ∧
      (∀ v ∈ kahnLoop dm fuel indeg queue result, v ∈ dm.map (fun e => e.1)) ∧
      OrderedByAdj dm (kahnLoop dm fuel indeg queue result) ∧
      (∀ v ∈ dm.map (fun e => e.1), v ∉ kahnLoop dm fuel indeg queue result →
        0 < ((lookupAdj dm v).filter
          (fun d => d ∉ kahnLoop dm fuel indeg queue result)).length) := by
  intro fuel
  induction fuel with
  | zero =>
    intro indeg queue result hfuel hInv
    obtain ⟨hRnd, hQnd, hdisj, hRk, hQk, hQdep, hOrd, hI5⟩ := hInv
    have hall : ∀ k ∈ dm.map (fun e => e.1), k ∈ result :=
      mem_of_nodup_subset_length hRnd hRk (by simpa using hfuel)
    exact ⟨hRnd, hRk, hOrd, fun v hv hnv => absurd (hall v hv) hnv⟩
  | succ fuel ih =>
    intro indeg queue result hfuel hInv
    obtain ⟨hRnd, hQnd, hdisj, hRk, hQk, hQdep, hOrd, hI5⟩ := hInv
    cases queue with
    | nil =>
      exact ⟨hRnd, hRk, hOrd,
        fun v hv hnv => (hI5 v hv hnv (List.not_mem_nil v)).2⟩
    | cons node rest =>
      have hnodeK : node ∈ dm.map (fun e => e.1) :=
        hQk node (List.mem_cons_self _ _)
      have hnodeR : node ∉ result := hdisj node (List.mem_cons_self _ _)
      have hnodeDeps : ∀ d ∈ lookupAdj dm node, d ∈ result :=
        hQdep node (List.mem_cons_self _ _)
      have hnodeRest : node ∉ rest := (List.nodup_cons.mp hQnd).1
      have hRestNd : rest.Nodup := (List.nodup_cons.mp hQnd).2
      set result' := result ++ [node] with hres'
      set next := dm.foldl (kahnStep node result') (indeg, rest) with hnext
      have hloopEq : kahnLoop dm (fuel + 1) indeg (node :: rest) result =
          kahnLoop dm fuel next.1 next.2 result' := rfl
      have hIndeg : ∀ v, next.1 v =
          if (v ∈ dm.map (fun e => e.1) ∧ node ∈ lookupAdj dm v) ∧ v ∉ result'
          then indeg v - 1 else indeg v := by
        intro v
        rw [hnext, kahnFold_indeg node result' dm (indeg, rest) v hnd,
          if_congr (and_congr_left' (exists_entry_iff dm hnd node v)) rfl rfl]
      have hQmem : ∀ v, v ∈ next.2 ↔ v ∈ rest ∨
          ((v ∈ dm.map (fun e => e.1) ∧ node ∈ lookupAdj dm v) ∧
            v ∉ result' ∧ indeg v - 1 = 0 ∧ v ∉ rest) := by
        intro v
        rw [hnext, kahnFold_queue node result' dm (indeg, rest) v hnd]
        exact or_congr Iff.rfl
          (and_congr_left' (exists_entry_iff dm hnd node v))
      have hRnd' : result'.Nodup := by
        rw [hres', List.nodup_append]
        exact ⟨hRnd, List.nodup_singleton _, by
          intro x hx hx1
          simp only [List.mem_singleton] at hx1
          exact hnodeR (hx1 ▸ hx)⟩
      have hQnd' : next.2.Nodup := by
        rw [hnext]
        exact kahnFold_queue_nodup node result' dm (indeg, rest) hRestNd
      have hdisj' : ∀ q ∈ next.2, q ∉ result' := by
        intro q hq
        rcases (hQmem q).mp hq with hq | ⟨-, hqR', -⟩
        · intro hc
          rw [hres'] at hc
          rcases List.mem_append.mp hc with hc | hc
          · exact hdisj q (List.mem_cons_of_mem _ hq) hc
          · simp only [List.mem_singleton] at hc
            exact hnodeRest (hc ▸ hq)
        · exact hqR'
      have hRk' : ∀ v ∈ result', v ∈ dm.map (fun e => e.1) := by
        intro v hv
        rw [hres'] at hv
        rcases List.mem_append.mp hv with hv | hv
        · exact hRk v hv
        · simp only [List.mem_singleton] at hv
          exact hv ▸ hnodeK
      have hQk' : ∀ q ∈ next.2, q ∈ dm.map (fun e => e.1) := by
        intro q hq
        rcases (hQmem q).mp hq with hq | ⟨⟨hk, -⟩, -⟩
        · exact hQk q (List.mem_cons_of_mem _ hq)
        · exact hk
      have hQdep' : ∀ q ∈ next.2, ∀ d ∈ lookupAdj dm q, d ∈ result' := by
        intro q hq d hd
        rcases (hQmem q).mp hq with hq | ⟨⟨hqK, hqdep⟩, hqR', hqdeg, hqrest⟩
        · exact List.mem_append_left _ (hQdep q (List.mem_cons_of_mem _ hq) d hd)
        · have hqR : q ∉ result := fun hc => hqR' (List.mem_append_left _ hc)
          have hqQ : q ∉ node :: rest := by
            intro hc
            rcases List.mem_cons.mp hc with rfl | hc
            · exact hqR' (List.mem_append_right _ (by simp))
            · exact hqrest hc
          obtain ⟨hdege, hpos⟩ := hI5 q hqK hqR hqQ
          have hcnt1 : ((lookupAdj dm q).filter (fun d => d ∉ result)).length = 1 := by
            rw [hdege] at hqdeg
            omega
          obtain ⟨a, ha⟩ := List.length_eq_one.mp hcnt1
          have hnode_in : node ∈ (lookupAdj dm q).filter (fun d => d ∉ result) :=
            List.mem_filter.mpr ⟨hqdep, by simpa using hnodeR⟩
          rw [ha] at hnode_in
          have hanode : a = node := (List.mem_singleton.mp hnode_in).symm
          by_cases hdR : d ∈ result
          · exact List.mem_append_left _ hdR
          · have hdf : d ∈ (lookupAdj dm q).filter (fun d => d ∉ result) :=
              List.mem_filter.mpr ⟨hd, by simpa using hdR⟩
            rw [ha] at hdf
            have : d = a := List.mem_singleton.mp hdf
            rw [this, hanode]
            exact List.mem_append_right _ (by simp)
      have hOrd' : OrderedByAdj dm result' := by
        intro l1 v l2 hsplit d hd
        rcases append_singleton_eq_append_cons
            (hres'.symm.trans hsplit : result ++ [node] = l1 ++ v :: l2) with
          ⟨-, rfl, rfl⟩ | ⟨l2', hres2, -⟩
        · exact hnodeDeps d hd
        · exact hOrd l1 v l2' hres2 d hd
      have hI5' : ∀ v ∈ dm.map (fun e => e.1), v ∉ result' → v ∉ next.2 →
          next.1 v =
            (((lookupAdj dm v).filter (fun d => d ∉ result')).length : Int) ∧
          0 < ((lookupAdj dm v).filter (fun d => d ∉ result')).length := by
        intro v hvK hvR' hvQ'
        have hvR : v ∉ result := fun hc => hvR' (List.mem_append_left _ hc)
        have hvnode : v ≠ node := fun hc =>
          hvR' (List.mem_append_right _ (by simp [hc]))
        have hvrest : v ∉ rest := fun hc => hvQ' ((hQmem v).mpr (Or.inl hc))
        have hvQ : v ∉ node :: rest := by
          intro hc
          rcases List.mem_cons.mp hc with hc | hc
          · exact hvnode hc
          · exact hvrest hc
        obtain ⟨hdege, hpos⟩ := hI5 v hvK hvR hvQ
        by_cases hnode_dep : node ∈ lookupAdj dm v
        · have hcond : (v ∈ dm.map (fun e => e.1) ∧ node ∈ lookupAdj dm v) ∧
              v ∉ result' := ⟨⟨hvK, hnode_dep⟩, hvR'⟩
          have hdeg' : next.1 v = indeg v - 1 := by
            rw [hIndeg v, if_pos hcond]
          have hne0 : ¬ (indeg v - 1 = 0) := by
            intro hc
            exact hvQ' ((hQmem v).mpr
              (Or.inr ⟨⟨hvK, hnode_dep⟩, hvR', hc, hvrest⟩))
          have hlen : ((lookupAdj dm v).filter (fun d => d ∉ result')).length + 1 =
              ((lookupAdj dm v).filter (fun d => d ∉ result)).length := by
            rw [hres']
            exact filter_not_mem_append_length (hdeps v) hnode_dep hnodeR
          rw [hdege] at hdeg' hne0
          constructor
          · rw [hdeg']
            omega
          · omega
        · have hcond : ¬ ((v ∈ dm.map (fun e => e.1) ∧ node ∈ lookupAdj dm v) ∧
              v ∉ result') := by tauto
          have hdeg' : next.1 v = indeg v := by
            rw [hIndeg v, if_neg hcond]
          have hfeq : (lookupAdj dm v).filter (fun d => d ∉ result') =
              (lookupAdj dm v).filter (fun d => d ∉ result) := by
            rw [hres']
            exact filter_not_mem_append_of_not_mem hnode_dep
          rw [hdeg', hfeq]
          exact ⟨hdege, hpos⟩
      have hfuel' : dm.length ≤ fuel + result'.length := by
        rw [hres']
        simp only [List.length_append, List.length_cons, List.length_nil]
        omega
      obtain ⟨ha, hb, hc, hd2⟩ := ih next.1 next.2 result' hfuel'
        ⟨hRnd', hQnd', hdisj', hRk', hQk', hQdep', hOrd', hI5'⟩
      rw [hloopEq]
      exact ⟨ha, hb, hc, hd2⟩

/-- `get_topological_order` with its `let` bindings spelled out. -/
lemma getTopologicalOrder_eq (systems : List String)
    (edges : List (String × String)) :
    getTopologicalOrder systems edges =
      (if buildDependenciesMap systems edges = [] then
        Except.ok ([] : List String)
      else
        if (kahnLoop (buildDependenciesMap systems edges)
              (buildDependenciesMap systems edges).length
              (fun v => ((((buildDependenciesMap systems edges).find?
                (fun e => e.1 = v)).map (fun e => (e.2.length : Int)))).getD 0)
              (sortStrings (((buildDependenciesMap systems edges).filter
                (fun e => e.2.length = 0)).map (fun e => e.1)))
              []).length ≠ (buildDependenciesMap systems edges).length then
          Except.error (detectCycles systems edges)
        else
          Except.ok (kahnLoop (buildDependenciesMap systems edges)
            (buildDependenciesMap systems edges).length
            (fun v => ((((buildDependenciesMap systems edges).find?
              (fun e => e.1 = v)).map (fun e => (e.2.length : Int)))).getD 0)
            (sortStrings (((buildDependenciesMap systems edges).filter
              (fun e => e.2.length = 0)).map (fun e => e.1)))
            [])) := rfl

/-- The initial in-degree of a known system is its dependency count. -/
lemma initial_indeg_eq (dm : List (String × List String)) (v : String)
    (hv : v ∈ dm.map (fun e => e.1)) :
    (((dm.find? (fun e => e.1 = v)).map (fun e => (e.2.length : Int)))).getD 0 =
      ((lookupAdj dm v).length : Int) := by
  cases hf : dm.find? (fun e => e.1 = v) with
  | none =>
    exfalso
    obtain ⟨e, he, hek⟩ := List.mem_map.mp hv
    have := List.find?_eq_none.mp hf e he
    simp [hek] at this
  | some e => simp [lookupAdj, hf]

/-- The initial Kahn state satisfies the loop invariant. -/
lemma kahn_initial_inv (dm : List (String × List String))
    (hnd : (dm.map (fun e => e.1)).Nodup) :
    KahnInv dm
      (fun v => (((dm.find? (fun e => e.1 = v)).map
        (fun e => (e.2.length : Int)))).getD 0)
      (sortStrings ((dm.filter (fun e => e.2.length = 0)).map (fun e => e.1)))
      [] := by
  refine ⟨List.nodup_nil, ?_, by simp, by simp, ?_, ?_, ?_, ?_⟩
  · refine ((perm_sortStrings _).nodup_iff).mpr ?_
    exact ((List.filter_sublist dm).map _).nodup hnd
  · intro q hq
    obtain ⟨e, he, hek⟩ := List.mem_map.mp (mem_sortStrings.mp hq)
    exact hek ▸ List.mem_map_of_mem _ (List.mem_of_mem_filter he)
  · intro q hq d hd
    obtain ⟨e, he, hek⟩ := List.mem_map.mp (mem_sortStrings.mp hq)
    have he' := List.mem_filter.mp he
    have hlen : e.2 = [] := by
      apply List.length_eq_zero.mp
      simpa using he'.2
    have hadj : lookupAdj dm q = e.2 :=
      hek ▸ lookupAdj_eq_of_mem hnd (by simpa using he'.1)
    rw [hadj, hlen] at hd
    simp at hd
  · intro l1 v l2 hsplit
    exact absurd hsplit (by simp)
  · intro v hvK hvR hvQ
    have hfil : (lookupAdj dm v).filter (fun d => d ∉ ([] : List String)) =
        lookupAdj dm v := List.filter_eq_self.mpr (fun a _ => by simp)
    obtain ⟨e, he, rfl⟩ := List.mem_map.mp hvK
    have hadj : lookupAdj dm e.1 = e.2 :=
      lookupAdj_eq_of_mem hnd (by simpa using he)
    have hlen_pos : e.2.length ≠ 0 := by
      intro h0
      apply hvQ
      apply mem_sortStrings.mpr
      exact List.mem_map_of_mem _ (List.mem_filter.mpr ⟨he, by simpa using h0⟩)
    constructor
    · rw [hfil]
      exact initial_indeg_eq dm e.1 (List.mem_map_of_mem _ he)
    · rw [hfil, hadj]
      omega

/-- **C1.** For every acyclic edge set over a finite system set (with the
store's endpoint and uniqueness integrity), `get_topological_order` returns
`ok` with a list containing every system exactly once in which, for every
edge `(s, d)`, the dependency `d` appears before `s`; and on the diamond
graph core, api→core, cli→core, ui→{api, cli}, the output — ties among
ready nodes broken by lexicographic path order — is exactly
`[core, api, cli, ui]`. -/
theorem topological_order_correct (systems : List String)
    (edges : List (String × String))
    (hE : ∀ e ∈ edges, e.1 ∈ systems ∧ e.2 ∈ systems)
    (hedges : edges.Nodup)
    (hacyc : ∀ v, ¬ Relation.TransGen (fun a b => (a, b) ∈ edges) v v) :
    (∃ out, getTopologicalOrder systems edges = Except.ok out ∧
        out.Nodup ∧ (∀ s, s ∈ out ↔ s ∈ systems) ∧
        ∀ p ∈ edges, ∃ l1 l2, out = l1 ++ p.1 :: l2 ∧ p.2 ∈ l1) ∧
    getTopologicalOrder ["core", "api", "cli", "ui"]
        [("api", "core"), ("cli", "core"), ("ui", "api"), ("ui", "cli")] =
      Except.ok ["core", "api", "cli", "ui"] := by
  refine ⟨?_, by decide⟩
  have hnd : ((buildDependenciesMap systems edges).map (fun e => e.1)).Nodup := by
    rw [keys_buildDependenciesMap]
    exact nodup_dedupKeys systems
  have hdeps : ∀ v, (lookupAdj (buildDependenciesMap systems edges) v).Nodup :=
    fun v => nodup_lookupAdj_deps hedges v
  by_cases hnil : buildDependenciesMap systems edges = []
  · have hsys : ∀ s : String, s ∉ systems := by
      intro s hs
      have hk : s ∈ (buildDependenciesMap systems edges).map (fun e => e.1) := by
        rw [keys_buildDependenciesMap]
        exact mem_dedupKeys.mpr hs
      rw [hnil] at hk
      simp at hk
    refine ⟨[], ?_, List.nodup_nil, ?_, ?_⟩
    · rw [getTopologicalOrder_eq, if_pos hnil]
    · intro s
      simp [hsys s]
    · intro p hp
      exact absurd (hE p hp).1 (hsys p.1)
  · obtain ⟨hand, hbk, hord, hpos⟩ :=
      kahnLoop_spec (buildDependenciesMap systems edges) hnd hdeps
        (buildDependenciesMap systems edges).length
        (fun v => ((((buildDependenciesMap systems edges).find?
          (fun e => e.1 = v)).map (fun e => (e.2.length : Int)))).getD 0)
        (sortStrings (((buildDependenciesMap systems edges).filter
          (fun e => e.2.length = 0)).map (fun e => e.1)))
        [] (by simp) (kahn_initial_inv _ hnd)
    set out := kahnLoop (buildDependenciesMap systems edges)
      (buildDependenciesMap systems edges).length
      (fun v => ((((buildDependenciesMap systems edges).find?
        (fun e => e.1 = v)).map (fun e => (e.2.length : Int)))).getD 0)
      (sortStrings (((buildDependenciesMap systems edges).filter
        (fun e => e.2.length = 0)).map (fun e => e.1)))
      [] with hout
    have hcomp : ∀ k ∈ (buildDependenciesMap systems edges).map (fun e => e.1),
        k ∈ out := by
      by_contra hncomp
      push_neg at hncomp
      obtain ⟨k, hkK, hkO⟩ := hncomp
      have hsucc : ∀ v ∈ ((buildDependenciesMap systems edges).map
          (fun e => e.1)).filter (fun x => x ∉ out),
          ∃ w ∈ ((buildDependenciesMap systems edges).map
            (fun e => e.1)).filter (fun x => x ∉ out), (v, w) ∈ edges := by
        intro v hv
        have hv' := List.mem_filter.mp hv
        have hvK := hv'.1
        have hvO : v ∉ out := by simpa using hv'.2
        have hp := hpos v hvK hvO
        have hne : (lookupAdj (buildDependenciesMap systems edges) v).filter
            (fun d => d ∉ out) ≠ [] := by
          intro hc
          rw [hc] at hp
          simp at hp
        obtain ⟨d, hd⟩ := List.exists_mem_of_ne_nil _ hne
        have hd' := List.mem_filter.mp hd
        have hedge : (v, d) ∈ edges ∧ v ∈ systems :=
          mem_lookupAdj_deps.mp hd'.1
        have hdK : d ∈ (buildDependenciesMap systems edges).map
            (fun e => e.1) := by
          rw [keys_buildDependenciesMap]
          exact mem_dedupKeys.mpr (hE _ hedge.1).2
        exact ⟨d, List.mem_filter.mpr ⟨hdK, hd'.2⟩, hedge.1⟩
      obtain ⟨v, hcyc⟩ := cycle_of_successors _
        (by
          intro hc
          have : k ∈ ((buildDependenciesMap systems edges).map
              (fun e => e.1)).filter (fun x => x ∉ out) :=
            List.mem_filter.mpr ⟨hkK, by simpa using hkO⟩
          rw [hc] at this
          simp at this)
        hsucc
      exact hacyc v hcyc
    have hlen : out.length = (buildDependenciesMap systems edges).length := by
      have h1 : out.length ≤ ((buildDependenciesMap systems edges).map
          (fun e => e.1)).length :=
        (List.subperm_of_subset hand hbk).length_le
      have h2 : ((buildDependenciesMap systems edges).map
          (fun e => e.1)).length ≤ out.length :=
        (List.subperm_of_subset hnd hcomp).length_le
      simpa using le_antisymm h1 (by simpa using h2)
    refine ⟨out, ?_, hand, ?_, ?_⟩
    · rw [getTopologicalOrder_eq, if_neg hnil, ← hout, if_neg (by simp [hlen])]
    · intro s
      constructor
      · intro hs
        have := hbk s hs
        rw [keys_buildDependenciesMap] at this
        exact mem_dedupKeys.mp this
      · intro hs
        apply hcomp
        rw [keys_buildDependenciesMap]
        exact mem_dedupKeys.mpr hs
    · intro p hp
      have hp1 : p.1 ∈ out := by
        apply hcomp
        rw [keys_buildDependenciesMap]
        exact mem_dedupKeys.mpr (hE p hp).1
      obtain ⟨l1, l2, hsplit⟩ := List.append_of_mem hp1
      have hd : p.2 ∈ lookupAdj (buildDependenciesMap systems edges) p.1 :=
        mem_lookupAdj_deps.mpr ⟨by simpa using hp, (hE p hp).1⟩
      exact ⟨l1, l2, hsplit, hord l1 p.1 l2 hsplit p.2 hd⟩

/-- Witness for C1: the diamond scenario discharges the store-integrity and
acyclicity hypotheses concretely. -/
theorem topological_order_correct_witness :
    getTopologicalOrder ["core", "api", "cli", "ui"]
        [("api", "core"), ("cli", "core"), ("ui", "api"), ("ui", "cli")] =
      Except.ok ["core", "api", "cli", "ui"] :=
  (topological_order_correct ["core", "api", "cli", "ui"]
      [("api", "core"), ("cli", "core"), ("ui", "api"), ("ui", "cli")]
      (by decide) (by decide)
      (by
        intro v hv
        have hmono : ∀ a b : String,
            Relation.TransGen (fun a b => (a, b) ∈
              [("api", "core"), ("cli", "core"), ("ui", "api"), ("ui", "cli")])
              a b →
            (if b = "ui" then 2 else if b = "core" then 0 else 1) <
              (if a = "ui" then 2 else if a = "core" then 0 else 1) := by
          intro a b h
          induction h with
          | single h1 =>
            simp only [List.mem_cons, List.not_mem_nil, or_false,
              Prod.mk.injEq] at h1
            rcases h1 with ⟨rfl, rfl⟩ | ⟨rfl, rfl⟩ | ⟨rfl, rfl⟩ | ⟨rfl, rfl⟩ <;>
              decide
          | tail h1 h2 ih =>
            refine lt_trans ?_ ih
            simp only [List.mem_cons, List.not_mem_nil, or_false,
              Prod.mk.injEq] at h2
            rcases h2 with ⟨rfl, rfl⟩ | ⟨rfl, rfl⟩ | ⟨rfl, rfl⟩ | ⟨rfl, rfl⟩ <;>
              decide
        exact absurd (hmono v v hv) (lt_irrefl _))).2

/-- A cyclic edge set stalls the Kahn loop: the output misses a key, so
`get_topological_order` takes the error branch carrying `detect_cycles`. -/
lemma cyclic_getTopologicalOrder_error (systems : List String)
    (edges : List (String × String))
    (hE : ∀ e ∈ edges, e.1 ∈ systems ∧ e.2 ∈ systems)
    (hedges : edges.Nodup) {v : String}
    (hcyc : Relation.TransGen (fun a b => (a, b) ∈ edges) v v) :
    getTopologicalOrder systems edges =
      Except.error (detectCycles systems edges) := by
  have hnd : ((buildDependenciesMap systems edges).map (fun e => e.1)).Nodup := by
    rw [keys_buildDependenciesMap]
    exact nodup_dedupKeys systems
  have hdeps : ∀ w, (lookupAdj (buildDependenciesMap systems edges) w).Nodup :=
    fun w => nodup_lookupAdj_deps hedges w
  have hvs : v ∈ systems := by
    have hfirst : ∀ a b : String,
        Relation.TransGen (fun a b => (a, b) ∈ edges) a b →
        ∃ c, (a, c) ∈ edges := by
      intro a b h
      induction h with
      | single h1 => exact ⟨_, h1⟩
      | tail h1 h2 ih => exact ih
    obtain ⟨c, hc⟩ := hfirst v v hcyc
    exact (hE _ hc).1
  have hnil : buildDependenciesMap systems edges ≠ [] := by
    intro hc
    have hk : v ∈ (buildDependenciesMap systems edges).map (fun e => e.1) := by
      rw [keys_buildDependenciesMap]
      exact mem_dedupKeys.mpr hvs
    rw [hc] at hk
    simp at hk
  obtain ⟨hand, hbk, hord, hpos⟩ :=
    kahnLoop_spec (buildDependenciesMap systems edges) hnd hdeps
      (buildDependenciesMap systems edges).length
      (fun v => ((((buildDependenciesMap systems edges).find?
        (fun e => e.1 = v)).map (fun e => (e.2.length : Int)))).getD 0)
      (sortStrings (((buildDependenciesMap systems edges).filter
        (fun e => e.2.length = 0)).map (fun e => e.1)))
      [] (by simp) (kahn_initial_inv _ hnd)
  set out := kahnLoop (buildDependenciesMap systems edges)
    (buildDependenciesMap systems edges).length
    (fun v => ((((buildDependenciesMap systems edges).find?
      (fun e => e.1 = v)).map (fun e => (e.2.length : Int)))).getD 0)
    (sortStrings (((buildDependenciesMap systems edges).filter
      (fun e => e.2.length = 0)).map (fun e => e.1)))
    [] with hout
  have hlen_ne : out.length ≠ (buildDependenciesMap systems edges).length := by
    intro hlen
    have hperm : out.Perm
        ((buildDependenciesMap systems edges).map (fun e => e.1)) :=
      (List.subperm_of_subset hand hbk).perm_of_length_le
        (by simpa using hlen.ge)
    have hcomp : ∀ k ∈ (buildDependenciesMap systems edges).map
        (fun e => e.1), k ∈ out := fun k hk => hperm.symm.subset hk
    have hstep : ∀ a b : String, (a, b) ∈ edges →
        out.indexOf b < out.indexOf a := by
      intro a b hab
      have haK : a ∈ out := by
        apply hcomp
        rw [keys_buildDependenciesMap]
        exact mem_dedupKeys.mpr (hE _ hab).1
      obtain ⟨l1, l2, hsplit⟩ := List.append_of_mem haK
      have hbadj : b ∈ lookupAdj (buildDependenciesMap systems edges) a :=
        mem_lookupAdj_deps.mpr ⟨hab, (hE _ hab).1⟩
      have hbl1 : b ∈ l1 := hord l1 a l2 hsplit b hbadj
      have hal1 : a ∉ l1 := by
        intro hmem
        exact List.disjoint_of_nodup_append (hsplit ▸ hand) hmem
          (List.mem_cons_self a l2)
      calc out.indexOf b = l1.indexOf b := by
            rw [hsplit]
            exact List.indexOf_append_of_mem hbl1
        _ < l1.length := List.indexOf_lt_length.mpr hbl1
        _ = out.indexOf a := by
            rw [hsplit, List.indexOf_append_of_not_mem hal1,
              List.indexOf_cons_self]
            omega
    have hmono : ∀ a b : String,
        Relation.TransGen (fun a b => (a, b) ∈ edges) a b →
        out.indexOf b < out.indexOf a := by
      intro a b h
      induction h with
      | single h1 => exact hstep _ _ h1
      | tail h1 h2 ih => exact lt_trans (hstep _ _ h2) ih
    exact absurd (hmono v v hcyc) (lt_irrefl _)
  rw [getTopologicalOrder_eq, if_neg hnil, ← hout, if_pos hlen_ne]

/-- Inserting a fresh key appends it. -/
lemma dictInsert_of_not_mem (d : List (String × String)) (k v : String)
    (h : d.any (fun p => p.1 = k) = false) :
    dictInsert d k v = d ++ [(k, v)] := by
  simp only [dictInsert, h]
  simp

/-- The enumerated-header fold, generalized over the accumulator: with
pairwise-distinct headers that are fresh for the accumulator, every update
appends. -/
lemma buildRow_fold (cells : List String) :
    ∀ (ps : List (Nat × String)) (acc : List (String × String)),
      (ps.map Prod.snd).Nodup →
      (∀ p ∈ ps, acc.any (fun q => q.1 = p.2) = false) →
      ps.foldl (fun d p => dictInsert d p.2 (cells.getD p.1 "")) acc =
        acc ++ ps.map (fun p => (p.2, cells.getD p.1 "")) := by
  intro ps
  induction ps with
  | nil => intro acc _ _; simp
  | cons p rest ih =>
    intro acc hnd hfresh
    have hnd' : (p.2 :: rest.map Prod.snd).Nodup := by simpa using hnd
    have h1 : p.2 ∉ rest.map Prod.snd := (List.nodup_cons.mp hnd').1
    have h2 : (rest.map Prod.snd).Nodup := (List.nodup_cons.mp hnd').2
    simp only [List.foldl_cons]
    rw [dictInsert_of_not_mem _ _ _ (hfresh p (List.mem_cons_self _ _))]
    rw [ih (acc ++ [(p.2, cells.getD p.1 "")]) h2 ?_]
    · simp
    · intro q hq
      have hfq := hfresh q (List.mem_cons_of_mem _ hq)
      have hne : p.2 ≠ q.2 := fun hc => h1 (hc ▸ List.mem_map_of_mem Prod.snd hq)
      simp [List.any_append, hfq, hne]

/-- After a successful `SnapshotFixer.fix`, a second run succeeds with no
modified files. -/
lemma snapshotFixer_idem (env : FixerEnv) (root : FsPath) (fs : FileSystem)
    (issue : FixableIssue)
    (hs : (snapshotFixerFix env root fs issue).1.success = true) :
    (snapshotFixerFix env root (snapshotFixerFix env root fs issue).2 issue).1.success = true ∧
    (snapshotFixerFix env root (snapshotFixerFix env root fs issue).2 issue).1.files_modified = [] := by
  by_cases h1 : root ++ [issue.system, ".ctx", "snapshot.md"] ∈ fs.files
  · simp [snapshotFixerFix, h1]
  · by_cases h2 : root ++ [issue.system, ".ctx"] ∈ fs.dirs
    · cases hr : env.renderTemplate "snapshot"
          (paramOr issue.fix_params "system_name"
            (deriveSystemName (root ++ [issue.system]))) with
      | error e => simp [snapshotFixerFix, h1, h2, hr] at hs
      | ok c => simp [snapshotFixerFix, h1, h2, hr]
    · simp [snapshotFixerFix, h1, h2] at hs

/-- After a successful `MissingTemplateFileFixer.fix`, a second run succeeds
with no modified files. -/
lemma missingTemplateFixer_idem (env : FixerEnv) (root : FsPath)
    (fs : FileSystem) (issue : FixableIssue)
    (hs : (missingTemplateFileFixerFix env root fs issue).1.success = true) :
    (missingTemplateFileFixerFix env root
        (missingTemplateFileFixerFix env root fs issue).2 issue).1.success = true ∧
    (missingTemplateFileFixerFix env root
        (missingTemplateFileFixerFix env root fs issue).2 issue).1.files_modified = [] := by
  set tn := paramOr issue.fix_params "template_name" "" with htn
  by_cases h0 : tn = ""
  · simp [missingTemplateFileFixerFix, ← htn, h0] at hs
  · by_cases hv : tn ∈ VALID_TEMPLATES
    · by_cases h1 : root ++ [issue.system, ".ctx", tn ++ ".md"] ∈ fs.files
      · simp [missingTemplateFileFixerFix, ← htn, h0, hv, h1]
      · by_cases h2 : root ++ [issue.system, ".ctx"] ∈ fs.dirs
        · cases hr : env.renderTemplate tn
              (paramOr issue.fix_params "system_name"
                (deriveSystemName (root ++ [issue.system]))) with
          | error e =>
            simp [missingTemplateFileFixerFix, ← htn, h0, hv, h1, h2, hr] at hs
          | ok c =>
            simp [missingTemplateFileFixerFix, ← htn, h0, hv, h1, h2, hr]
        · simp [missingTemplateFileFixerFix, ← htn, h0, hv, h1, h2] at hs
    · simp [missingTemplateFileFixerFix, ← htn, h0, hv] at hs

/-- After a successful `MissingCtxDirFixer.fix`, a second run succeeds with
no modified files. -/
lemma missingCtxDirFixer_idem (env : FixerEnv) (root : FsPath)
    (fs : FileSystem) (issue : FixableIssue)
    (hs : (missingCtxDirFixerFix env root fs issue).1.success = true) :
    (missingCtxDirFixerFix env root
        (missingCtxDirFixerFix env root fs issue).2 issue).1.success = true ∧
    (missingCtxDirFixerFix env root
        (missingCtxDirFixerFix env root fs issue).2 issue).1.files_modified = [] := by
  by_cases h1 : root ++ [issue.system, ".ctx"] ∈ fs.dirs
  · simp [missingCtxDirFixerFix, h1]
  · cases hc : env.loadConfig with
    | error e => simp [missingCtxDirFixerFix, h1, hc] at hs
    | ok u =>
      cases hsc : env.scaffoldCtx
          (paramOr issue.fix_params "system_name"
            (deriveSystemName (root ++ [issue.system])))
          (root ++ [issue.system]) with
      | error e => simp [missingCtxDirFixerFix, h1, hc, hsc] at hs
      | ok created =>
        by_cases hsys : root ++ [issue.system] ∈ fs.dirs <;>
          simp [missingCtxDirFixerFix, h1, hc, hsc, hsys]

/-- After a successful `AdrFixer.fix`, a second run succeeds with no modified
files (the filesystem is untouched; only the store gains the ADR row). -/
lemma adrFixer_idem (env : FixerEnv) (root db_path : FsPath)
    (fs : FileSystem) (db : KnowledgeDB) (issue : FixableIssue)
    (hs : (adrFixerFix env root db_path fs db issue).1.success = true) :
    (adrFixerFix env root db_path fs
        (adrFixerFix env root db_path fs db issue).2 issue).1.success = true ∧
    (adrFixerFix env root db_path fs
        (adrFixerFix env root db_path fs db issue).2 issue).1.files_modified = [] := by
  set aid := paramOr issue.fix_params "adr_id" "" with haid
  set fp := paramOr issue.fix_params "file_path" "" with hfp
  by_cases h0 : aid = ""
  · simp [adrFixerFix, ← haid, h0] at hs
  · by_cases h1 : fp = ""
    · simp [adrFixerFix, ← haid, ← hfp, h0, h1] at hs
    · by_cases h2 : db_path ∈ fs.files
      · by_cases h3 : root ++ [fp] ∈ fs.files
        · by_cases h4 : aid ∈ db.adrs
          · simp [adrFixerFix, ← haid, ← hfp, h0, h1, h2, h3, h4]
          · cases hp : env.readParseAdr (root ++ [fp]) with
            | error e =>
              simp [adrFixerFix, ← haid, ← hfp, h0, h1, h2, h3, h4, hp] at hs
            | ok u =>
              simp [adrFixerFix, ← haid, ← hfp, h0, h1, h2, h3, h4, hp]
        · simp [adrFixerFix, ← haid, ← hfp, h0, h1, h2, h3] at hs
      · simp [adrFixerFix, ← haid, ← hfp, h0, h1, h2] at hs

/-- **C2 (counterexample).** The claim "calling fix twice in succession on
the same target returns success=true on both calls and the second call's
files_modified list is empty … including the graph-regeneration fixer" fails
on the code: on a project with an existing `.ctx` directory and database, the
graph fixer succeeds twice but the second call still reports
`files_modified = [".ctx/graph.json"]` (it regenerates unconditionally). -/
theorem graph_fixer_second_run_reports_modified_file :
    (graphFixerFix [] ["knowledge.db"]
        ⟨[["knowledge.db"]], [[".ctx"]]⟩ ⟨[], [], []⟩
        ⟨"", "graph_freshness", Severity.warning, "graph.json is stale",
          "stale_graph", [], "Regenerate graph.json"⟩).1.success = true ∧
    (graphFixerFix [] ["knowledge.db"]
        (graphFixerFix [] ["knowledge.db"]
          ⟨[["knowledge.db"]], [[".ctx"]]⟩ ⟨[], [], []⟩
          ⟨"", "graph_freshness", Severity.warning, "graph.json is stale",
            "stale_graph", [], "Regenerate graph.json"⟩).2 ⟨[], [], []⟩
        ⟨"", "graph_freshness", Severity.warning, "graph.json is stale",
          "stale_graph", [], "Regenerate graph.json"⟩).1.success = true ∧
    (graphFixerFix [] ["knowledge.db"]
        (graphFixerFix [] ["knowledge.db"]
          ⟨[["knowledge.db"]], [[".ctx"]]⟩ ⟨[], [], []⟩
          ⟨"", "graph_freshness", Severity.warning, "graph.json is stale",
            "stale_graph", [], "Regenerate graph.json"⟩).2 ⟨[], [], []⟩
        ⟨"", "graph_freshness", Severity.warning, "graph.json is stale",
          "stale_graph", [], "Regenerate graph.json"⟩).1.files_modified =
      [".ctx/graph.json"] := by
  refine ⟨?_, ?_, ?_⟩ <;> decide

/-- **C2 (amended).** For the four fixers that pre-check their target —
`missing_snapshot`, `missing_template_file`, `missing_ctx_dir`,
`unregistered_adr` — a successful fix followed by a second invocation on the
resulting state returns `success = true` with an empty `files_modified`
list; the fifth fixer, graph regeneration (`stale_graph`), also succeeds on
the second call but rewrites `graph.json` unconditionally and reports it in
`files_modified` on every successful call.  (No embedded fixer can raise:
each is a total function into `FixResult`.) -/
theorem fixers_idempotent_once_target_reached :
    (∀ env root fs issue,
        (snapshotFixerFix env root fs issue).1.success = true →
        (snapshotFixerFix env root
            (snapshotFixerFix env root fs issue).2 issue).1.success = true ∧
        (snapshotFixerFix env root
            (snapshotFixerFix env root fs issue).2 issue).1.files_modified = []) ∧
    (∀ env root fs issue,
        (missingTemplateFileFixerFix env root fs issue).1.success = true →
        (missingTemplateFileFixerFix env root
            (missingTemplateFileFixerFix env root fs issue).2 issue).1.success = true ∧
        (missingTemplateFileFixerFix env root
            (missingTemplateFileFixerFix env root fs issue).2 issue).1.files_modified = []) ∧
    (∀ env root fs issue,
        (missingCtxDirFixerFix env root fs issue).1.success = true →
        (missingCtxDirFixerFix env root
            (missingCtxDirFixerFix env root fs issue).2 issue).1.success = true ∧
        (missingCtxDirFixerFix env root
            (missingCtxDirFixerFix env root fs issue).2 issue).1.files_modified = []) ∧
    (∀ env root db_path fs db issue,
        (adrFixerFix env root db_path fs db issue).1.success = true →
        (adrFixerFix env root db_path fs
            (adrFixerFix env root db_path fs db issue).2 issue).1.success = true ∧
        (adrFixerFix env root db_path fs
            (adrFixerFix env root db_path fs db issue).2 issue).1.files_modified = []) ∧
    (∀ root db_path fs db issue,
        (graphFixerFix root db_path fs db issue).1.success = true →
        (graphFixerFix root db_path
            (graphFixerFix root db_path fs db issue).2 db issue).1.success = true ∧
        (graphFixerFix root db_path
            (graphFixerFix root db_path fs db issue).2 db issue).1.files_modified =
          [pathStr [".ctx", "graph.json"]]) := by
  refine ⟨fun env root fs issue hs => snapshotFixer_idem env root fs issue hs,
    fun env root fs issue hs => missingTemplateFixer_idem env root fs issue hs,
    fun env root fs issue hs => missingCtxDirFixer_idem env root fs issue hs,
    fun env root db_path fs db issue hs =>
      adrFixer_idem env root db_path fs db issue hs,
    ?_⟩
  intro root db_path fs db issue hs
  by_cases h1 : db_path ∈ fs.files
  · by_cases h2 : root ++ [".ctx"] ∈ fs.dirs
    · by_cases h3 : root ++ [".ctx", "graph.json"] ∈ fs.files <;>
        simp [graphFixerFix, h1, h2, h3, List.drop_left]
    · simp [graphFixerFix, h1, h2] at hs
  · simp [graphFixerFix, h1] at hs

/-- Witness for the amended C2: a concrete successful snapshot fix whose
second run succeeds with no modified files. -/
theorem fixers_idempotent_once_target_reached_witness :
    (snapshotFixerFix
        ⟨fun _ _ => Except.ok "content", fun _ _ => Except.ok ["snapshot.md"],
          Except.ok (), fun _ => Except.ok ()⟩
        ["repo"]
        (snapshotFixerFix
          ⟨fun _ _ => Except.ok "content", fun _ _ => Except.ok ["snapshot.md"],
            Except.ok (), fun _ => Except.ok ()⟩
          ["repo"] ⟨[], [["repo", "auth", ".ctx"]]⟩
          ⟨"auth", "missing_snapshot", Severity.error, "snapshot.md missing",
            "missing_snapshot", [], "Create snapshot.md"⟩).2
        ⟨"auth", "missing_snapshot", Severity.error, "snapshot.md missing",
          "missing_snapshot", [], "Create snapshot.md"⟩).1.success = true ∧
    (snapshotFixerFix
        ⟨fun _ _ => Except.ok "content", fun _ _ => Except.ok ["snapshot.md"],
          Except.ok (), fun _ => Except.ok ()⟩
        ["repo"]
        (snapshotFixerFix
          ⟨fun _ _ => Except.ok "content", fun _ _ => Except.ok ["snapshot.md"],
            Except.ok (), fun _ => Except.ok ()⟩
          ["repo"] ⟨[], [["repo", "auth", ".ctx"]]⟩
          ⟨"auth", "missing_snapshot", Severity.error, "snapshot.md missing",
            "missing_snapshot", [], "Create snapshot.md"⟩).2
        ⟨"auth", "missing_snapshot", Severity.error, "snapshot.md missing",
          "missing_snapshot", [], "Create snapshot.md"⟩).1.files_modified = [] :=
  fixers_idempotent_once_target_reached.1
    ⟨fun _ _ => Except.ok "content", fun _ _ => Except.ok ["snapshot.md"],
      Except.ok (), fun _ => Except.ok ()⟩
    ["repo"] ⟨[], [["repo", "auth", ".ctx"]]⟩
    ⟨"auth", "missing_snapshot", Severity.error, "snapshot.md missing",
      "missing_snapshot", [], "Create snapshot.md"⟩
    (by decide)

/-- Issues produced by the possible-resolution check all carry the
`possibly_resolved` check name, so the `age_threshold` filter drops them. -/
lemma filter_age_threshold_fileIssues (refs : List String)
    (g : String → Bool) (mk : String → ValidationIssue)
    (hmk : ∀ r, (mk r).check = "possibly_resolved") :
    ((refs.filterMap (fun ref => if g ref then some (mk ref) else none)).filter
      (fun i => i.check = "age_threshold")) = [] := by
  apply List.filter_eq_nil_iff.mpr
  intro i hi
  obtain ⟨r, _, hr⟩ := List.mem_filterMap.mp hi
  by_cases hg : g r
  · simp only [if_pos hg, Option.some.injEq] at hr
    simp [← hr, hmk r]
  · simp [if_neg hg] at hr

/-- **C9.** For a debt table row whose priority column resolves to `"high"`
and whose `Created` date parses to a day 45 days before `now`, with the age
threshold at its default of 30 days, `_audit_debt_item` emits exactly one
issue with check `"age_threshold"`, of severity `"warning"`, whose message
mentions "high-priority" (the message spells it `High-priority`; mention is
case-insensitive containment). -/
theorem high_priority_stale_debt_yields_one_age_warning
    (fileExists : FsPath → Bool) (hasChangesSince : FsPath → Int → Bool)
    (now : Int) (item : List (String × String)) (system_path : FsPath)
    (rel_system : String) (t : Int)
    (hpri : debtItemPriority item = "high")
    (hcreated : parseDate (debtItemCreatedStr item) = some t)
    (hage : now - t = 45) :
    ((auditDebtItem fileExists hasChangesSince DEFAULT_AGE_THRESHOLD_DAYS now
        item system_path rel_system).filter
      (fun i => i.check = "age_threshold")) =
      [{ system := rel_system
         check := "age_threshold"
         severity := Severity.warning
         message := "High-priority debt " ++ debtItemId item ++
           " aging without resolution (45 days)"
         file := some "debt.md" }] ∧
    "high-priority".data <:+:
      (pyLower ("High-priority debt " ++ debtItemId item ++
        " aging without resolution (45 days)")).data := by
  constructor
  · simp only [auditDebtItem, hcreated, hage, hpri]
    norm_num [DEFAULT_AGE_THRESHOLD_DAYS]
    refine ⟨?_, ?_⟩
    · simp only [String.append_assoc]
      rw [show " aging without resolution (" ++ (toString (45 : Int) ++ " days)") =
        " aging without resolution (45 days)" from by decide]
    · intro a _ x _ _ _ hrec
      rw [← hrec]
      simp
  · refine ⟨[], (" debt ".data).map Char.toLower ++
      ((debtItemId item).data).map Char.toLower ++
      (" aging without resolution (45 days)".data).map Char.toLower, ?_⟩
    simp only [pyLower, String.data_append, List.map_append, List.nil_append,
      List.append_assoc]
    rw [show ("High-priority debt ".data).map Char.toLower =
      "high-priority".data ++ (" debt ".data).map Char.toLower from by decide]
    simp [List.append_assoc]

/-- Witness for C9: a concrete row `{ID: DEBT-7, Priority: high,
Created: 2026-08-28}` audited 45 days later (2026-10-12). -/
theorem high_priority_stale_debt_yields_one_age_warning_witness :
    ((auditDebtItem (fun _ => false) (fun _ _ => false)
        DEFAULT_AGE_THRESHOLD_DAYS ((parseDate "2026-10-12").getD 0)
        [("ID", "DEBT-7"), ("Priority", "high"), ("Created", "2026-08-28")]
        ["sys"] "src/sys").filter (fun i => i.check = "age_threshold")) =
      [{ system := "src/sys"
         check := "age_threshold"
         severity := Severity.warning
         message := "High-priority debt DEBT-7 aging without resolution (45 days)"
         file := some "debt.md" }] :=
  have h := high_priority_stale_debt_yields_one_age_warning
    (fun _ => false) (fun _ _ => false) ((parseDate "2026-10-12").getD 0)
    [("ID", "DEBT-7"), ("Priority", "high"), ("Created", "2026-08-28")]
    ["sys"] "src/sys" ((parseDate "2026-08-28").getD 0)
    (by decide) (by decide) (by decide)
  h.1.trans (by decide)

/-- **C7.** For a markdown table whose header row has `N` columns and whose
separator row validly matches with `N` columns, each data row is mapped
header→cell positionally — the row dict binds exactly the headers, in order,
the `j`-th header to the `j`-th cell, with missing trailing cells becoming
empty strings and extra trailing cells beyond the header count dropped
(`cells.getD j ""` is the `j`-th cell when `j < cells.length` and `""`
otherwise, and no index beyond the headers is consulted).  In particular,
header `[A,B,C]` with a 2-cell data row yields `{A: v1, B: v2, C: ""}`, and a
4-cell data row yields a row dict with exactly the keys `{A,B,C}` and the 4th
cell dropped. -/
theorem table_rows_map_header_to_cell_positionally :
    (∀ headers cells : List String, headers.Nodup →
        buildRow headers cells =
          headers.enum.map (fun p => (p.2, cells.getD p.1 ""))) ∧
    extractTables
        "| A | B | C |\n| --- | --- | --- |\n| v1 | v2 |\n| w1 | w2 | w3 | w4 |" =
      [{ headers := ["A", "B", "C"],
         rows := [[("A", "v1"), ("B", "v2"), ("C", "")],
                  [("A", "w1"), ("B", "w2"), ("C", "w3")]] }] := by
  constructor
  · intro headers cells hnd
    have := buildRow_fold cells headers.enum []
      (by simpa [List.enum_map_snd] using hnd) (by simp)
    simpa [buildRow] using this
  · decide

/-- Witness for C7: the general row-mapping law applied to the concrete
header list `[A,B,C]` and a 2-cell row. -/
theorem table_rows_map_header_to_cell_positionally_witness :
    buildRow ["A", "B", "C"] ["v1", "v2"] =
      [("A", "v1"), ("B", "v2"), ("C", "")] := by
  rw [table_rows_map_header_to_cell_positionally.1 ["A", "B", "C"] ["v1", "v2"]
      (by decide)]
  decide

/-- **C10.** `run_validators` silently ignores every requested name that is
not in the fixed validator registry (running the filtered request list gives
the identical result), and when no requested name is known — including an
empty request list — it raises nothing and returns an `AggregatedResult` with
status `"pass"`, `validators_run = 0`, zero `total_issues`/`errors`/
`warnings`/`infos`, and empty `results` and `all_issues` lists. -/
theorem run_validators_ignores_unknown_names :
    (∀ env parallel completion names,
        runValidators env parallel completion
            (names.filter (fun n => n ∈ VALIDATORS)) =
          runValidators env parallel completion names) ∧
    (∀ env parallel completion names,
        (∀ n ∈ names, n ∉ VALIDATORS) →
        runValidators env parallel completion names =
          { status := Status.pass
            validators_run := 0
            total_issues := 0
            errors := 0
            warnings := 0
            infos := 0
            results := []
            all_issues := [] }) := by
  constructor
  · intro env parallel completion names
    unfold runValidators
    rw [List.filter_filter]
    simp
  · intro env parallel completion names h
    unfold runValidators
    rw [List.filter_eq_nil_iff.mpr (by simpa using h)]
    rfl

/-- Witness for C10: on the request list `["bogus", "nope"]`, none of whose
names is registered, `run_validators` returns the empty pass aggregate. -/
theorem run_validators_ignores_unknown_names_witness :
    runValidators (fun n => Except.ok ⟨n, Status.pass, [], 0⟩) true []
        ["bogus", "nope"] =
      { status := Status.pass
        validators_run := 0
        total_issues := 0
        errors := 0
        warnings := 0
        infos := 0
        results := []
        all_issues := [] } :=
  run_validators_ignores_unknown_names.2
    (fun n => Except.ok ⟨n, Status.pass, [], 0⟩) true [] ["bogus", "nope"]
    (by decide)

/-- **C8.** During a multi-validator batch run (sequential or parallel, the
latter for any thread-completion order of the selected names), a selected
validator whose `validate()` raises is converted into a synthetic failing
`ValidatorResult` for that validator containing exactly one issue with check
`"validator_error"` and severity `"error"`, and the batch still completes:
the aggregate holds one result per selected validator and the result of every
other (non-raising) selected validator. -/
theorem runner_converts_raising_validator (env : String → Except String ValidatorResult)
    (parallel : Bool) (completion names : List String)
    (hperm : completion.Perm (names.filter (fun n => n ∈ VALIDATORS))) :
    (runValidators env parallel completion names).results.length =
        (names.filter (fun n => n ∈ VALIDATORS)).length ∧
    (∀ name ∈ names.filter (fun n => n ∈ VALIDATORS), ∀ e,
        env name = Except.error e →
        validatorErrorResult name e ∈ (runValidators env parallel completion names).results ∧
        (validatorErrorResult name e).status = Status.fail ∧
        ∃ iss, (validatorErrorResult name e).issues = [iss] ∧
          iss.check = "validator_error" ∧ iss.severity = Severity.error) ∧
    (∀ name ∈ names.filter (fun n => n ∈ VALIDATORS), ∀ r,
        env name = Except.ok r →
        r ∈ (runValidators env parallel completion names).results) := by
  have hres : (runValidators env parallel completion names).results.length =
        (names.filter (fun n => n ∈ VALIDATORS)).length ∧
      ∀ name ∈ names.filter (fun n => n ∈ VALIDATORS),
        runOne env name ∈ (runValidators env parallel completion names).results := by
    unfold runValidators
    by_cases hnil : names.filter (fun n => n ∈ VALIDATORS) = []
    · simp [hnil, emptyAggregatedResult]
    · simp only [if_neg hnil]
      by_cases hpar : parallel ∧ (names.filter (fun n => n ∈ VALIDATORS)).length > 1
      · simp only [if_pos hpar, aggregateResults, runParallel]
        refine ⟨by simpa using hperm.length_eq, ?_⟩
        intro name hname
        exact List.mem_map_of_mem _ (hperm.mem_iff.mpr hname)
      · simp only [if_neg hpar, aggregateResults, runSequential]
        exact ⟨by simp, fun name hname => List.mem_map_of_mem _ hname⟩
  refine ⟨hres.1, ?_, ?_⟩
  · intro name hname e henv
    refine ⟨?_, rfl, ⟨_, rfl, rfl, rfl⟩⟩
    have := hres.2 name hname
    rwa [runOne, henv] at this
  · intro name hname r henv
    have := hres.2 name hname
    rwa [runOne, henv] at this

/-- Witness for C8: a concrete batch `["snapshot", "debt"]` where the
`"debt"` validator raises; the aggregate holds two results including the
synthetic `validator_error` failure and the other validator's result. -/
theorem runner_converts_raising_validator_witness :
    (runValidators
        (fun n => if n = "debt" then Except.error "boom"
                  else Except.ok ⟨n, Status.pass, [], 3⟩)
        false ["snapshot", "debt"] ["snapshot", "debt"]).results.length = 2 ∧
    validatorErrorResult "debt" "boom" ∈
      (runValidators
        (fun n => if n = "debt" then Except.error "boom"
                  else Except.ok ⟨n, Status.pass, [], 3⟩)
        false ["snapshot", "debt"] ["snapshot", "debt"]).results :=
  have h := runner_converts_raising_validator
    (fun n => if n = "debt" then Except.error "boom"
              else Except.ok ⟨n, Status.pass, [], 3⟩)
    false ["snapshot", "debt"] ["snapshot", "debt"] (by decide)
  ⟨by simpa using h.1,
   (h.2.1 "debt" (by decide) "boom" (by simp)).1⟩

/-! ### Order facts for the SCC sort keys -/

lemma charListLt_asymm : ∀ l1 l2 : List Char,
    charListLt l1 l2 = true → charListLt l2 l1 = false := by
  intro l1
  induction l1 with
  | nil =>
    intro l2 h
    cases l2 with
    | nil => simp [charListLt] at h
    | cons b bs => simp [charListLt]
  | cons a as ih =>
    intro l2 h
    cases l2 with
    | nil => simp [charListLt] at h
    | cons b bs =>
      by_cases h1 : a.toNat < b.toNat
      · simp [charListLt, show ¬ b.toNat < a.toNat by omega,
          show ¬ b.toNat = a.toNat by omega]
      · by_cases h2 : a.toNat = b.toNat
        · simp only [charListLt, if_neg h1, if_pos h2] at h
          show (if b.toNat < a.toNat then true
            else if b.toNat = a.toNat then charListLt bs as else false) = false
          rw [if_neg (by omega), if_pos (by omega)]
          exact ih bs h
        · simp [charListLt, h1, h2] at h

lemma charListLt_connex : ∀ l1 l2 : List Char,
    charListLt l1 l2 = false → charListLt l2 l1 = false → l1 = l2 := by
  intro l1
  induction l1 with
  | nil =>
    intro l2 h1 h2
    cases l2 with
    | nil => rfl
    | cons b bs => simp [charListLt] at h1
  | cons a as ih =>
    intro l2 h1 h2
    cases l2 with
    | nil => simp [charListLt] at h2
    | cons b bs =>
      by_cases hl : a.toNat < b.toNat
      · simp [charListLt, hl] at h1
      · by_cases he : a.toNat = b.toNat
        · simp only [charListLt, if_neg hl, if_pos he] at h1
          have hshow : charListLt (b :: bs) (a :: as) =
              (if b.toNat < a.toNat then true
               else if b.toNat = a.toNat then charListLt bs as else false) :=
            rfl
          rw [hshow, if_neg (by omega), if_pos (by omega)] at h2
          have hab : a = b := Char.eq_of_val_eq (UInt32.ext he)
          rw [hab, ih bs h1 h2]
        · simp [charListLt, show b.toNat < a.toNat by omega] at h2

lemma charListLt_trans : ∀ l1 l2 l3 : List Char,
    charListLt l1 l2 = true → charListLt l2 l3 = true →
    charListLt l1 l3 = true := by
  intro l1
  induction l1 with
  | nil =>
    intro l2 l3 h1 h2
    cases l2 with
    | nil => simp [charListLt] at h1
    | cons b bs =>
      cases l3 with
      | nil => simp [charListLt] at h2
      | cons c cs => simp [charListLt]
  | cons a as ih =>
    intro l2 l3 h1 h2
    cases l2 with
    | nil => simp [charListLt] at h1
    | cons b bs =>
      cases l3 with
      | nil => simp [charListLt] at h2
      | cons c cs =>
        by_cases hab : a.toNat < b.toNat
        · by_cases hbc : b.toNat < c.toNat
          · simp [charListLt, show a.toNat < c.toNat by omega]
          · by_cases hbc2 : b.toNat = c.toNat
            · simp [charListLt, show a.toNat < c.toNat by omega]
            · simp [charListLt, hbc, hbc2] at h2
        · by_cases hab2 : a.toNat = b.toNat
          · simp only [charListLt, if_neg hab, if_pos hab2] at h1
            by_cases hbc : b.toNat < c.toNat
            · simp [charListLt, show a.toNat < c.toNat by omega]
            · by_cases hbc2 : b.toNat = c.toNat
              · simp only [charListLt, if_neg hbc, if_pos hbc2] at h2
                show (if a.toNat < c.toNat then true
                  else if a.toNat = c.toNat then charListLt as cs
                  else false) = true
                rw [if_neg (by omega), if_pos (by omega)]
                exact ih bs cs h1 h2
              · simp [charListLt, hbc, hbc2] at h2
          · simp [charListLt, hab, hab2] at h1

lemma strLt_asymm {a b : String} (h : strLt a b = true) :
    strLt b a = false := charListLt_asymm a.data b.data h

lemma strLt_connex {a b : String} (h1 : strLt a b = false)
    (h2 : strLt b a = false) : a = b := by
  have hd : a.data = b.data := charListLt_connex a.data b.data h1 h2
  cases a
  cases b
  exact congrArg String.mk hd

lemma strLt_trans {a b c : String} (h1 : strLt a b = true)
    (h2 : strLt b c = true) : strLt a c = true :=
  charListLt_trans a.data b.data c.data h1 h2

lemma strLt_irrefl {a : String} (h : strLt a a = true) : False := by
  have h2 := strLt_asymm h
  rw [h] at h2
  simp at h2

/-- `insertSorted` keeps the list nondecreasing. -/
lemma pairwise_insertSorted (a : String) :
    ∀ l : List String, l.Pairwise (fun x y => strLt y x = false) →
    (insertSorted a l).Pairwise (fun x y => strLt y x = false) := by
  intro l
  induction l with
  | nil => intro _; simp [insertSorted]
  | cons b rest ih =>
    intro h
    rw [List.pairwise_cons] at h
    rw [insertSorted]
    by_cases hab : strLt a b = true
    · rw [if_pos hab]
      refine List.pairwise_cons.mpr ⟨?_, List.pairwise_cons.mpr h⟩
      intro y hy
      rcases List.mem_cons.mp hy with rfl | hy'
      · exact strLt_asymm hab
      · have hyb : strLt y b = false := h.1 y hy'
        by_cases hya : strLt y a = true
        · exact absurd (strLt_trans hya hab) (by simp [hyb])
        · simpa using hya
    · rw [if_neg hab]
      refine List.pairwise_cons.mpr ⟨?_, ih h.2⟩
      intro y hy
      rcases mem_insertSorted.mp hy with rfl | hy'
      · simpa using hab
      · exact h.1 y hy'

/-- `sorted` on strings is nondecreasing. -/
lemma pairwise_sortStrings (l : List String) :
    (sortStrings l).Pairwise (fun x y => strLt y x = false) := by
  induction l with
  | nil => simp [sortStrings]
  | cons a rest ih => exact pairwise_insertSorted a _ ih

/-- On a duplicate-free list, `sorted` is strictly increasing. -/
lemma pairwise_sortStrings_strict {l : List String} (hnd : l.Nodup) :
    (sortStrings l).Pairwise (fun x y => strLt x y = true) := by
  have h1 := pairwise_sortStrings l
  have h2 : (sortStrings l).Nodup := ((perm_sortStrings l).nodup_iff).mpr hnd
  have h3 := List.Pairwise.and h1 h2
  refine h3.imp ?_
  intro x y hxy
  by_cases hx : strLt x y = true
  · exact hx
  · exact absurd (strLt_connex (by simpa using hx) hxy.1) hxy.2

/-- Two strictly ordered lists with the same members are equal. -/
lemma pairwise_eq_of_mem_iff {α : Type} {r : α → α → Prop}
    (hasymm : ∀ a b, r a b → r b a → False) :
    ∀ l1 l2 : List α, l1.Pairwise r → l2.Pairwise r →
      (∀ x, x ∈ l1 ↔ x ∈ l2) → l1 = l2 := by
  intro l1
  induction l1 with
  | nil =>
    intro l2 _ _ hiff
    cases l2 with
    | nil => rfl
    | cons b t2 => exact absurd ((hiff b).mpr (by simp)) (by simp)
  | cons a t1 ih =>
    intro l2 hp1 hp2 hiff
    cases l2 with
    | nil => exact absurd ((hiff a).mp (by simp)) (by simp)
    | cons b t2 =>
      rw [List.pairwise_cons] at hp1 hp2
      have hab : a = b := by
        rcases List.mem_cons.mp ((hiff a).mp (by simp)) with h | ha2
        · exact h
        · rcases List.mem_cons.mp ((hiff b).mpr (by simp)) with h | hb1
          · exact h.symm
          · exact absurd (hp1.1 b hb1) (fun hr => hasymm _ _ hr (hp2.1 a ha2))
      subst hab
      have htiff : ∀ x, x ∈ t1 ↔ x ∈ t2 := by
        intro x
        constructor
        · intro hx
          rcases List.mem_cons.mp ((hiff x).mp (List.mem_cons_of_mem _ hx))
            with rfl | h
          · exact absurd (hp1.1 x hx) (fun hr => hasymm _ _ hr hr)
          · exact h
        · intro hx
          rcases List.mem_cons.mp ((hiff x).mpr (List.mem_cons_of_mem _ hx))
            with rfl | h
          · exact absurd (hp2.1 x hx) (fun hr => hasymm _ _ hr hr)
          · exact h
      rw [ih t2 hp1.2 hp2.2 htiff]

/-- Unfolding of the component sort key comparison. -/
lemma sccKeyLt_iff {a b : List String} : sccKeyLt a b = true ↔
    (a.length < b.length ∨
      (a.length = b.length ∧ strLt (a.headD "") (b.headD "") = true)) := by
  simp [sccKeyLt]

lemma sccKeyLt_asymm {a b : List String} (h : sccKeyLt a b = true) :
    sccKeyLt b a = false := by
  rcases sccKeyLt_iff.mp h with h1 | ⟨h1, h2⟩
  · by_cases hba : sccKeyLt b a = true
    · rcases sccKeyLt_iff.mp hba with h3 | ⟨h3, _⟩ <;> omega
    · simpa using hba
  · by_cases hba : sccKeyLt b a = true
    · rcases sccKeyLt_iff.mp hba with h3 | ⟨h3, h4⟩
      · omega
      · exact absurd h2 (by simp only [strLt_asymm h4]; simp)
    · simpa using hba

lemma sccKeyLt_connex {a b : List String} (h1 : sccKeyLt a b = false)
    (h2 : sccKeyLt b a = false) :
    a.length = b.length ∧ a.headD "" = b.headD "" := by
  have n1 : ¬ (a.length < b.length ∨
      (a.length = b.length ∧ strLt (a.headD "") (b.headD "") = true)) := by
    intro hc
    exact absurd (sccKeyLt_iff.mpr hc) (by simp [h1])
  have n2 : ¬ (b.length < a.length ∨
      (b.length = a.length ∧ strLt (b.headD "") (a.headD "") = true)) := by
    intro hc
    exact absurd (sccKeyLt_iff.mpr hc) (by simp [h2])
  push_neg at n1 n2
  have hlen : a.length = b.length := by omega
  refine ⟨hlen, strLt_connex ?_ ?_⟩
  · simpa using n1.2 hlen
  · simpa using n2.2 hlen.symm

lemma mem_insertSccSorted {x a : List String} :
    ∀ {l : List (List String)}, x ∈ insertSccSorted a l ↔ x = a ∨ x ∈ l := by
  intro l
  induction l with
  | nil => simp [insertSccSorted]
  | cons b rest ih =>
    rw [insertSccSorted]
    by_cases h : sccKeyLt a b = true
    · simp [h]
    · rw [if_neg h]
      simp only [List.mem_cons, ih]
      tauto

lemma perm_insertSccSorted (a : List String) :
    ∀ l : List (List String), (insertSccSorted a l).Perm (a :: l) := by
  intro l
  induction l with
  | nil => simp [insertSccSorted]
  | cons b rest ih =>
    rw [insertSccSorted]
    by_cases h : sccKeyLt a b = true
    · rw [if_pos h]
    · rw [if_neg h]
      exact (ih.cons b).trans (List.Perm.swap a b rest)

lemma perm_sortSccs (l : List (List String)) : (sortSccs l).Perm l := by
  induction l with
  | nil => simp [sortSccs]
  | cons a rest ih =>
    exact (perm_insertSccSorted a _).trans (ih.cons a)

lemma pairwise_insertSccSorted (a : List String) :
    ∀ l : List (List String),
    l.Pairwise (fun x y => sccKeyLt y x = false) →
    (insertSccSorted a l).Pairwise (fun x y => sccKeyLt y x = false) := by
  intro l
  induction l with
  | nil => intro _; simp [insertSccSorted]
  | cons b rest ih =>
    intro h
    rw [List.pairwise_cons] at h
    rw [insertSccSorted]
    by_cases hab : sccKeyLt a b = true
    · rw [if_pos hab]
      refine List.pairwise_cons.mpr ⟨?_, List.pairwise_cons.mpr h⟩
      intro y hy
      rcases List.mem_cons.mp hy with rfl | hy'
      · exact sccKeyLt_asymm hab
      · have hyb : sccKeyLt y b = false := h.1 y hy'
        by_cases hya : sccKeyLt y a = true
        · by_cases hba : sccKeyLt b a = true
          · have := sccKeyLt_asymm hab
            simp [hba] at this
          · obtain ⟨hl, hh⟩ := sccKeyLt_connex hyb (by
              by_cases hby : sccKeyLt b y = true
              · rcases sccKeyLt_iff.mp hya with m1 | ⟨m1, m2⟩ <;>
                  rcases sccKeyLt_iff.mp hab with m3 | ⟨m3, m4⟩ <;>
                  rcases sccKeyLt_iff.mp hby with m5 | ⟨m5, m6⟩
                · omega
                · omega
                · omega
                · omega
                · omega
                · omega
                · omega
                · exact (strLt_irrefl
                    (strLt_trans m6 (strLt_trans m2 m4))).elim
              · simpa using hby)
            rcases sccKeyLt_iff.mp hya with m1 | ⟨m1, m2⟩ <;>
              rcases sccKeyLt_iff.mp hab with m3 | ⟨m3, m4⟩
            · omega
            · omega
            · omega
            · rw [hh] at m2
              exact (strLt_irrefl (strLt_trans m2 m4)).elim
        · simpa using hya
    · rw [if_neg hab]
      refine List.pairwise_cons.mpr ⟨?_, ih h.2⟩
      intro y hy
      rcases mem_insertSccSorted.mp hy with rfl | hy'
      · simpa using hab
      · exact h.1 y hy'

lemma pairwise_sortSccs (l : List (List String)) :
    (sortSccs l).Pairwise (fun x y => sccKeyLt y x = false) := by
  induction l with
  | nil => simp [sortSccs]
  | cons a rest ih => exact pairwise_insertSccSorted a _ ih

/-! ### Small facts about Tarjan states -/

lemma not_indexed_iff {st : TarjanState} {v : String} :
    (st.indexOf v).isNone = true ↔ ¬ Indexed st v := by
  cases h : st.indexOf v <;> simp [Indexed, h]

lemma indexed_of_some {st : TarjanState} {v : String} {n : Nat}
    (h : st.indexOf v = some n) : Indexed st v := by
  simp [Indexed, h]

lemma numOf_of_some {st : TarjanState} {v : String} {n : Nat}
    (h : st.indexOf v = some n) : numOf st v = n := by
  simp [numOf, h]

lemma sameScc_refl (dm : List (String × List String)) (v : String) :
    SameScc dm v v :=
  ⟨Relation.ReflTransGen.refl, Relation.ReflTransGen.refl⟩

lemma sameScc_symm {dm : List (String × List String)} {v w : String}
    (h : SameScc dm v w) : SameScc dm w v := ⟨h.2, h.1⟩

lemma sameScc_trans {dm : List (String × List String)} {u v w : String}
    (h1 : SameScc dm u v) (h2 : SameScc dm v w) : SameScc dm u w :=
  ⟨h1.1.trans h2.1, h2.2.trans h1.2⟩

lemma sameScc_congr {dm : List (String × List String)} {x y : String}
    (h : SameScc dm x y) (w : String) : (SameScc dm x w ↔ SameScc dm y w) :=
  ⟨fun h2 => sameScc_trans (sameScc_symm h) h2, fun h2 => sameScc_trans h h2⟩

/-- Finished nodes only reach finished nodes. -/
lemma finished_reach_closed {dm : List (String × List String)}
    {st : TarjanState} (hwf : TarjanWF dm st) {u w : String}
    (hu : Finished st u) (h : Reach dm u w) : Finished st w := by
  induction h with
  | refl => exact hu
  | tail h' hedge ih => exact hwf.finished_closed _ ih _ hedge

/-- `popScc` splits a stack at the first occurrence of the sought node. -/
lemma popScc_eq (node : String) :
    ∀ (g rest : List String), node ∉ g →
    popScc node (g ++ node :: rest) = (g ++ [node], rest) := by
  intro g
  induction g with
  | nil => intro rest _; simp [popScc]
  | cons x g' ih =>
    intro rest hmem
    simp only [List.mem_cons, not_or] at hmem
    have hxn : ¬ x = node := fun hc => hmem.1 hc.symm
    rw [List.cons_append]
    simp only [popScc]
    rw [if_neg hxn, ih rest hmem.2]
    simp

lemma filter_length_le_of_imp {α : Type} (p q : α → Bool) :
    ∀ l : List α, (∀ a ∈ l, q a = true → p a = true) →
    (l.filter q).length ≤ (l.filter p).length := by
  intro l
  induction l with
  | nil => intro _; simp
  | cons a rest ih =>
    intro h
    rw [List.filter_cons, List.filter_cons]
    have hrest := ih (fun a ha => h a (List.mem_cons_of_mem _ ha))
    by_cases hq : q a = true
    · rw [if_pos hq, if_pos (h a (by simp) hq)]
      simpa using hrest
    · rw [if_neg (by simpa using hq)]
      split <;> simp <;> omega

lemma filter_length_lt_of_imp {α : Type} (p q : α → Bool) (x : α) :
    ∀ l : List α, x ∈ l → p x = true → q x = false →
    (∀ a ∈ l, q a = true → p a = true) →
    (l.filter q).length < (l.filter p).length := by
  intro l
  induction l with
  | nil => intro h; simp at h
  | cons a rest ih =>
    intro hx hp hq h
    rw [List.filter_cons, List.filter_cons]
    rcases List.mem_cons.mp hx with rfl | hx'
    · rw [if_neg (by simp [hq]), if_pos hp]
      have := filter_length_le_of_imp p q rest
        (fun a ha => h a (List.mem_cons_of_mem _ ha))
      simpa [Nat.lt_succ_iff] using this
    · have hrest := ih hx' hp hq (fun a ha => h a (List.mem_cons_of_mem _ ha))
      by_cases hqa : q a = true
      · rw [if_pos hqa, if_pos (h a (by simp) hqa)]
        simpa using hrest
      · rw [if_neg (by simpa using hqa)]
        split <;> simp <;> omega

lemma indexed_of_pres {s s' : TarjanState} {v : String}
    (hp : s'.indexOf v = s.indexOf v) (hv : Indexed s v) : Indexed s' v := by
  rw [Indexed, hp]
  exact hv

lemma numOf_of_pres {s s' : TarjanState} {v : String}
    (hp : s'.indexOf v = s.indexOf v) : numOf s' v = numOf s v := by
  rw [numOf, hp, numOf]

/-- Well-formedness ignores the lowlink table. -/
lemma tarjanWF_congr_lowlink {dm : List (String × List String)}
    {t : TarjanState} (h : TarjanWF dm t) (f : String → Nat) :
    TarjanWF dm { t with lowlink := f } :=
  { stack_nodup := h.stack_nodup
    onstack_iff := h.onstack_iff
    stack_indexed := h.stack_indexed
    num_lt := h.num_lt
    num_inj := h.num_inj
    stack_sorted := h.stack_sorted
    stack_reach := h.stack_reach
    finished_closed := h.finished_closed
    indexed_key := h.indexed_key
    sccs_classes := h.sccs_classes
    sccs_complete := h.sccs_complete
    sccs_disjoint := h.sccs_disjoint }

/-- The entry bookkeeping of `strongconnect` (index, push, mark) turns a
call precondition into the scan invariant with nothing yet scanned. -/
lemma push_scanInv (dm : List (String × List String)) (st : TarjanState)
    (node : String) (hwf : TarjanWF dm st) (hni : ¬ Indexed st node)
    (hkey : node ∈ keysOf dm)
    (hreach : ∀ y ∈ st.stack, Reach dm y node) :
    ScanInv dm st node
      { st with
        indexOf := fun v => if v = node then some st.counter else st.indexOf v
        lowlink := fun v => if v = node then st.counter else st.lowlink v
        counter := st.counter + 1
        stack := node :: st.stack
        onStack := fun v => if v = node then true else st.onStack v } := by
  set st1 : TarjanState :=
    { st with
      indexOf := fun v => if v = node then some st.counter else st.indexOf v
      lowlink := fun v => if v = node then st.counter else st.lowlink v
      counter := st.counter + 1
      stack := node :: st.stack
      onStack := fun v => if v = node then true else st.onStack v } with hst1
  have hidx1 : ∀ v, Indexed st1 v ↔ (v = node ∨ Indexed st v) := by
    intro v
    by_cases hv : v = node <;> simp [Indexed, hst1, hv]
  have hnum_node : numOf st1 node = st.counter := by simp [numOf, hst1]
  have hnum_old : ∀ v, v ≠ node → numOf st1 v = numOf st v := by
    intro v hv
    simp [numOf, hst1, hv]
  have hnot_stack : node ∉ st.stack := fun hc =>
    hni (hwf.stack_indexed node hc)
  have hne_of_idx : ∀ v, Indexed st v → v ≠ node := by
    intro v hv hc
    exact hni (hc ▸ hv)
  have hfin1 : ∀ v, Finished st1 v ↔ Finished st v := by
    intro v
    constructor
    · rintro ⟨hiv, hsv⟩
      simp only [hst1, List.mem_cons, not_or] at hsv
      refine ⟨?_, hsv.2⟩
      rcases (hidx1 v).mp hiv with rfl | h
      · exact absurd rfl hsv.1
      · exact h
    · rintro ⟨hiv, hsv⟩
      refine ⟨(hidx1 v).mpr (Or.inr hiv), ?_⟩
      simp only [hst1, List.mem_cons, not_or]
      exact ⟨hne_of_idx v hiv, hsv⟩
  refine
    { wf := ?_
      node_fresh := hni
      node_idx := by simp [hst1]
      counter_lt := by simp [hst1]
      idx_pres := ?_
      low_pres := ?_
      fin_mono := fun v hv => (hfin1 v).mpr hv
      new_num_ge := ?_
      new_reach := ?_
      stack_form := ⟨[], by simp [hst1], by simp⟩
      low_le := by simp [hst1]
      low_sound := Or.inl (by simp [hst1])
      covered := ?_ }
  · refine
      { stack_nodup := ?_
        onstack_iff := ?_
        stack_indexed := ?_
        num_lt := ?_
        num_inj := ?_
        stack_sorted := ?_
        stack_reach := ?_
        finished_closed := ?_
        indexed_key := ?_
        sccs_classes := ?_
        sccs_complete := ?_
        sccs_disjoint := ?_ }
    · show (node :: st.stack).Nodup
      exact List.nodup_cons.mpr ⟨hnot_stack, hwf.stack_nodup⟩
    · intro v
      show (if v = node then true else st.onStack v) = true ↔
        v ∈ node :: st.stack
      by_cases hv : v = node
      · simp [hv]
      · simp only [if_neg hv, List.mem_cons, hv, false_or]
        exact hwf.onstack_iff v
    · intro v hv
      rcases List.mem_cons.mp hv with rfl | hv'
      · exact (hidx1 v).mpr (Or.inl rfl)
      · exact (hidx1 v).mpr (Or.inr (hwf.stack_indexed v hv'))
    · intro v hv
      show numOf st1 v < st.counter + 1
      rcases (hidx1 v).mp hv with rfl | h
      · rw [hnum_node]
        omega
      · rw [hnum_old v (hne_of_idx v h)]
        have := hwf.num_lt v h
        omega
    · intro v w hv hw hnm
      rcases (hidx1 v).mp hv with rfl | hv' <;>
        rcases (hidx1 w).mp hw with h2 | hw'
      · rw [h2]
      · rw [hnum_node, hnum_old w (hne_of_idx w hw')] at hnm
        exact absurd (hwf.num_lt w hw') (by omega)
      · rw [h2] at hnm ⊢
        rw [hnum_node, hnum_old v (hne_of_idx v hv')] at hnm
        exact absurd (hwf.num_lt v hv') (by omega)
      · rw [hnum_old v (hne_of_idx v hv'),
          hnum_old w (hne_of_idx w hw')] at hnm
        exact hwf.num_inj v w hv' hw' hnm
    · show (node :: st.stack).Pairwise (fun x y => numOf st1 y < numOf st1 x)
      refine List.pairwise_cons.mpr ⟨?_, ?_⟩
      · intro y hy
        have hyi := hwf.stack_indexed y hy
        rw [hnum_node, hnum_old y (hne_of_idx y hyi)]
        exact hwf.num_lt y hyi
      · refine hwf.stack_sorted.imp_of_mem ?_
        intro a b ha hb hab
        rw [hnum_old a (hne_of_idx a (hwf.stack_indexed a ha)),
          hnum_old b (hne_of_idx b (hwf.stack_indexed b hb))]
        exact hab
    · show (node :: st.stack).Pairwise (fun x y => Reach dm y x)
      exact List.pairwise_cons.mpr ⟨hreach, hwf.stack_reach⟩
    · intro u hu x hx
      have hu' := (hfin1 u).mp hu
      exact (hfin1 x).mpr (hwf.finished_closed u hu' x hx)
    · intro v hv
      rcases (hidx1 v).mp hv with rfl | h
      · exact hkey
      · exact hwf.indexed_key v h
    · intro C hC
      obtain ⟨x, hx, hxC, hmem, hsort, hbig⟩ := hwf.sccs_classes C hC
      exact ⟨x, (hfin1 x).mpr hx, hxC, hmem, hsort, hbig⟩
    · intro x hx hcond
      exact hwf.sccs_complete x ((hfin1 x).mp hx) hcond
    · exact hwf.sccs_disjoint
  · intro v hv
    show (if v = node then some st.counter else st.indexOf v) = st.indexOf v
    rw [if_neg (hne_of_idx v hv)]
  · intro v hv
    show (if v = node then st.counter else st.lowlink v) = st.lowlink v
    rw [if_neg (hne_of_idx v hv)]
  · intro v hv hv1
    rcases (hidx1 v).mp hv1 with rfl | h
    · rw [hnum_node]
    · exact absurd h hv
  · intro v hv hv1
    rcases (hidx1 v).mp hv1 with rfl | h
    · exact Relation.ReflTransGen.refl
    · exact absurd h hv
  · intro u hu hu1 hune x hx
    rcases (hidx1 u).mp hu1 with rfl | h
    · exact absurd rfl hune
    · exact absurd h hu

lemma scanInv_st_stack_sub {dm : List (String × List String)}
    {st : TarjanState} {node : String} {s : TarjanState}
    (hinv : ScanInv dm st node s) : ∀ y ∈ st.stack, y ∈ s.stack := by
  obtain ⟨g, hg, _⟩ := hinv.stack_form
  intro y hy
  rw [hg]
  simp [hy]

lemma scanInv_node_mem {dm : List (String × List String)}
    {st : TarjanState} {node : String} {s : TarjanState}
    (hinv : ScanInv dm st node s) : node ∈ s.stack := by
  obtain ⟨g, hg, _⟩ := hinv.stack_form
  rw [hg]
  simp

/-- Scan step on an already visited successor that left the stack: a no-op. -/
lemma scan_step_done {dm : List (String × List String)} {st : TarjanState}
    {node : String} {s : TarjanState} {succ : String}
    (hinv : ScanInv dm st node s) (hidx : Indexed s succ)
    (hoff : ¬ s.onStack succ = true) : ScanOut dm st node [succ] s s := by
  have hnst : succ ∉ s.stack := fun hc =>
    hoff ((hinv.wf.onstack_iff succ).mpr hc)
  refine
    { inv := hinv
      cov := ?_
      idx_pres := fun v _ => rfl
      stack_ext := ⟨[], rfl⟩
      low_mono := Nat.le_refl _
      fin_mono := fun v h => h
      unvis_le := Nat.le_refl _ }
  intro x hx
  rw [List.mem_singleton] at hx
  subst hx
  refine ⟨hidx, Or.inl ⟨hidx, hnst⟩, ?_⟩
  intro hst
  exact absurd (scanInv_st_stack_sub hinv x hst) hnst

/-- Scan step on a visited successor still on the stack: fold its index
into the lowlink of `node`. -/
lemma scan_step_back {dm : List (String × List String)} {st : TarjanState}
    {node : String} {s : TarjanState} {succ : String}
    (hsucc : succ ∈ lookupAdj dm node) (hinv : ScanInv dm st node s)
    (hon : s.onStack succ = true) :
    ScanOut dm st node [succ] s
      { s with lowlink := fun v =>
          if v = node then min (s.lowlink node) ((s.indexOf succ).getD 0)
          else s.lowlink v } := by
  set s1 : TarjanState :=
    { s with lowlink := fun v =>
        if v = node then min (s.lowlink node) ((s.indexOf succ).getD 0)
        else s.lowlink v } with hs1
  have hl1 : s1.lowlink node =
      min (s.lowlink node) ((s.indexOf succ).getD 0) := if_pos rfl
  have hmem : succ ∈ s.stack := (hinv.wf.onstack_iff succ).mp hon
  have hcov : Indexed s1 succ ∧ (Finished s1 succ ∨ succ ∈ s1.stack) ∧
      (succ ∈ st.stack → s1.lowlink node ≤ numOf s1 succ) := by
    refine ⟨hinv.wf.stack_indexed succ hmem, Or.inr hmem, ?_⟩
    intro _
    rw [hl1]
    exact Nat.min_le_right _ _
  refine
    { inv := ?_
      cov := ?_
      idx_pres := fun v _ => rfl
      stack_ext := ⟨[], rfl⟩
      low_mono := by rw [hl1]; exact Nat.min_le_left _ _
      fin_mono := fun v h => h
      unvis_le := Nat.le_refl _ }
  · refine
      { wf := tarjanWF_congr_lowlink hinv.wf _
        node_fresh := hinv.node_fresh
        node_idx := hinv.node_idx
        counter_lt := hinv.counter_lt
        idx_pres := hinv.idx_pres
        low_pres := ?_
        fin_mono := hinv.fin_mono
        new_num_ge := hinv.new_num_ge
        new_reach := hinv.new_reach
        stack_form := hinv.stack_form
        low_le := by rw [hl1]; exact le_trans (Nat.min_le_left _ _) hinv.low_le
        low_sound := ?_
        covered := ?_ }
    · intro v hv
      have hvn : v ≠ node := fun hc => hinv.node_fresh (hc ▸ hv)
      show (if v = node then min (s.lowlink node) ((s.indexOf succ).getD 0)
        else s.lowlink v) = st.lowlink v
      rw [if_neg hvn]
      exact hinv.low_pres v hv
    · by_cases hab : s.lowlink node ≤ (s.indexOf succ).getD 0
      · rw [hl1, Nat.min_eq_left hab]
        exact hinv.low_sound
      · push_neg at hab
        obtain ⟨g, hg, hgp⟩ := hinv.stack_form
        rw [hg] at hmem
        rcases List.mem_append.mp hmem with hmg | hmc
        · have hni := (hgp succ hmg).1
          have hidx : Indexed s succ :=
            hinv.wf.stack_indexed succ (hg ▸ hmem)
          have := hinv.new_num_ge succ hni hidx
          have hle := hinv.low_le
          rw [numOf] at this
          omega
        · rcases List.mem_cons.mp hmc with rfl | hmst
          · have : numOf s succ = st.counter := numOf_of_some hinv.node_idx
            rw [numOf] at this
            have hle := hinv.low_le
            omega
          · refine Or.inr ⟨succ, hmst, Relation.ReflTransGen.single hsucc, ?_⟩
            rw [hl1, Nat.min_eq_right (Nat.le_of_lt hab)]
            rfl
    · intro u hu hu1 hune x hx
      obtain ⟨hIx, hSB, hlow⟩ := hinv.covered u hu hu1 hune x hx
      refine ⟨hIx, hSB, ?_⟩
      intro hxst
      rw [hl1]
      exact le_trans (Nat.min_le_left _ _) (hlow hxst)
  · intro x hx
    rw [List.mem_singleton] at hx
    subst hx
    exact hcov

/-- Scan step on an unvisited successor: recurse into the child call and
fold its lowlink into the lowlink of `node`. -/
lemma scan_step_new {dm : List (String × List String)} {st : TarjanState}
    {node : String} {s : TarjanState} {succ : String} {fuel : Nat}
    (hclosed : ∀ v w, w ∈ lookupAdj dm v → w ∈ keysOf dm)
    (hreach_st : ∀ y ∈ st.stack, Reach dm y node)
    (hsucc : succ ∈ lookupAdj dm node) (hinv : ScanInv dm st node s)
    (hfuel : unvisitedCount dm s ≤ fuel) (hnew : ¬ Indexed s succ)
    (IH : ∀ nd s0, TarjanWF dm s0 → ¬ Indexed s0 nd → nd ∈ keysOf dm →
      (∀ y ∈ s0.stack, Reach dm y nd) → unvisitedCount dm s0 ≤ fuel →
      SCPost dm s0 nd (strongconnect dm fuel nd s0)) :
    ScanOut dm st node [succ] s
      { strongconnect dm fuel succ s with
        lowlink := fun v =>
          if v = node then
            min ((strongconnect dm fuel succ s).lowlink node)
              ((strongconnect dm fuel succ s).lowlink succ)
          else (strongconnect dm fuel succ s).lowlink v } := by
  have hedge : Reach dm node succ := Relation.ReflTransGen.single hsucc
  have hIdxNode : Indexed s node := indexed_of_some hinv.node_idx
  have hsreach : ∀ y ∈ s.stack, Reach dm y succ := by
    intro y hy
    obtain ⟨g, hg, hgp⟩ := hinv.stack_form
    rw [hg] at hy
    rcases List.mem_append.mp hy with hmg | hmc
    · exact ((hgp y hmg).2).trans hedge
    · rcases List.mem_cons.mp hmc with rfl | hmst
      · exact hedge
      · exact (hreach_st y hmst).trans hedge
  have P := IH succ s hinv.wf hnew (hclosed node succ hsucc) hsreach hfuel
  set t := strongconnect dm fuel succ s with ht
  set s1 : TarjanState :=
    { t with
      lowlink := fun v =>
        if v = node then min (t.lowlink node) (t.lowlink succ)
        else t.lowlink v } with hs1
  have hlown : t.lowlink node = s.lowlink node := P.low_pres node hIdxNode
  have hl1 : s1.lowlink node = min (s.lowlink node) (t.lowlink succ) := by
    show (if node = node then min (t.lowlink node) (t.lowlink succ)
      else t.lowlink node) = _
    rw [if_pos rfl, hlown]
  have hidx_st : ∀ v, Indexed st v → Indexed s v := fun v hv =>
    indexed_of_pres (hinv.idx_pres v hv) hv
  obtain ⟨dl, hdl, hdlp, hdld⟩ := P.stack_delta
  obtain ⟨g, hg, hgp⟩ := hinv.stack_form
  have hIdxSucc : Indexed s1 succ :=
    indexed_of_some (show s1.indexOf succ = some s.counter from P.node_idx)
  have hSBsucc : Finished s1 succ ∨ succ ∈ s1.stack := by
    rcases hdld with ⟨hnil, _⟩ | ⟨hmem, _⟩
    · left
      refine ⟨hIdxSucc, ?_⟩
      show succ ∉ t.stack
      rw [hdl, hnil, List.nil_append]
      intro hc
      exact hnew (hinv.wf.stack_indexed succ hc)
    · right
      show succ ∈ t.stack
      rw [hdl]
      exact List.mem_append_left _ hmem
  have hsucc_nst : succ ∉ st.stack := fun hc =>
    hnew (hinv.wf.stack_indexed succ (scanInv_st_stack_sub hinv succ hc))
  refine
    { inv := ?_
      cov := ?_
      idx_pres := fun v hv => P.idx_pres v hv
      stack_ext := ⟨dl, show t.stack = dl ++ s.stack from hdl⟩
      low_mono := by rw [hl1]; exact Nat.min_le_left _ _
      fin_mono := fun v h => P.fin_mono v h
      unvis_le := ?_ }
  · refine
      { wf := tarjanWF_congr_lowlink P.wf _
        node_fresh := hinv.node_fresh
        node_idx := ?_
        counter_lt := lt_trans hinv.counter_lt P.counter_lt
        idx_pres := ?_
        low_pres := ?_
        fin_mono := fun v hv => P.fin_mono v (hinv.fin_mono v hv)
        new_num_ge := ?_
        new_reach := ?_
        stack_form := ?_
        low_le := by
          rw [hl1]
          exact le_trans (Nat.min_le_left _ _) hinv.low_le
        low_sound := ?_
        covered := ?_ }
    · show t.indexOf node = some st.counter
      rw [P.idx_pres node hIdxNode]
      exact hinv.node_idx
    · intro v hv
      show t.indexOf v = st.indexOf v
      rw [P.idx_pres v (hidx_st v hv)]
      exact hinv.idx_pres v hv
    · intro v hv
      have hvn : v ≠ node := fun hc => hinv.node_fresh (hc ▸ hv)
      show (if v = node then min (t.lowlink node) (t.lowlink succ)
        else t.lowlink v) = st.lowlink v
      rw [if_neg hvn, P.low_pres v (hidx_st v hv)]
      exact hinv.low_pres v hv
    · intro v hv hv1
      by_cases hvs : Indexed s v
      · rw [show numOf s1 v = numOf t v from rfl,
          numOf_of_pres (P.idx_pres v hvs)]
        exact hinv.new_num_ge v hv hvs
      · have h1 := P.new_num_ge v hvs hv1
        have h2 := hinv.counter_lt
        show st.counter ≤ numOf t v
        omega
    · intro v hv hv1
      by_cases hvs : Indexed s v
      · exact hinv.new_reach v hv hvs
      · exact hedge.trans (P.new_reach v hvs hv1)
    · refine ⟨dl ++ g, ?_, ?_⟩
      · show t.stack = (dl ++ g) ++ node :: st.stack
        rw [hdl, hg, List.append_assoc]
      · intro y hy
        rcases List.mem_append.mp hy with hyd | hyg
        · have hyni : ¬ Indexed s y := (hdlp y hyd).1
          refine ⟨fun hc => hyni (hidx_st y hc), ?_⟩
          have hysucc : Reach dm y succ := (hdlp y hyd).2
          rcases hdld with ⟨hnil, _⟩ | ⟨_, z, hz, hrz, _⟩
          · rw [hnil] at hyd
            simp at hyd
          · have hz' : z ∈ g ++ node :: st.stack := hg ▸ hz
            have hzn : Reach dm z node := by
              rcases List.mem_append.mp hz' with hzg | hzc
              · exact (hgp z hzg).2
              · rcases List.mem_cons.mp hzc with rfl | hzst
                · exact Relation.ReflTransGen.refl
                · exact hreach_st z hzst
            exact hysucc.trans (hrz.trans hzn)
        · exact hgp y hyg
    · by_cases hab : s.lowlink node ≤ t.lowlink succ
      · rw [hl1, Nat.min_eq_left hab]
        rcases hinv.low_sound with h | ⟨z, hz, hrz, hnz⟩
        · exact Or.inl h
        · refine Or.inr ⟨z, hz, hrz, ?_⟩
          have hzidx : Indexed s z :=
            hinv.wf.stack_indexed z (scanInv_st_stack_sub hinv z hz)
          rw [show numOf s1 z = numOf t z from rfl,
            numOf_of_pres (P.idx_pres z hzidx)]
          exact hnz
      · push_neg at hab
        rcases hdld with ⟨hnil, hlowc⟩ | ⟨_, z, hz, hrz, hnumz⟩
        · have h1 := hinv.low_le
          have h2 := hinv.counter_lt
          omega
        · have hz' : z ∈ g ++ node :: st.stack := hg ▸ hz
          rcases List.mem_append.mp hz' with hzg | hzc
          · have hzidx : Indexed s z := hinv.wf.stack_indexed z hz
            have hzn := hinv.new_num_ge z (hgp z hzg).1 hzidx
            have hnum : numOf t z = numOf s z :=
              numOf_of_pres (P.idx_pres z hzidx)
            have hle := hinv.low_le
            omega
          · rcases List.mem_cons.mp hzc with hzn | hzst
            · have h1 : numOf s z = st.counter := by
                rw [hzn]
                exact numOf_of_some hinv.node_idx
              have h2 : numOf t z = numOf s z :=
                numOf_of_pres (P.idx_pres z (hzn ▸ hIdxNode))
              have hle := hinv.low_le
              omega
            · refine Or.inr ⟨z, hzst, hedge.trans hrz, ?_⟩
              rw [hl1, Nat.min_eq_right (Nat.le_of_lt hab),
                show numOf s1 z = numOf t z from rfl]
              exact hnumz
    · intro u hu hu1 hune x hx
      by_cases hus : Indexed s u
      · obtain ⟨hIx, hSB, hlow⟩ := hinv.covered u hu hus hune x hx
        refine ⟨indexed_of_pres (P.idx_pres x hIx) hIx, ?_, ?_⟩
        · rcases hSB with hf | hsx
          · exact Or.inl (P.fin_mono x hf)
          · right
            show x ∈ t.stack
            rw [hdl]
            exact List.mem_append_right _ hsx
        · intro hxst
          have hxidx : Indexed s x :=
            hinv.wf.stack_indexed x (scanInv_st_stack_sub hinv x hxst)
          rw [hl1, show numOf s1 x = numOf t x from rfl,
            numOf_of_pres (P.idx_pres x hxidx)]
          exact le_trans (Nat.min_le_left _ _) (hlow hxst)
      · obtain ⟨hIx, hSB, hlow⟩ := P.scan_all u hus hu1 x hx
        refine ⟨hIx, hSB, ?_⟩
        intro hxst
        have hxs : x ∈ s.stack := scanInv_st_stack_sub hinv x hxst
        rw [hl1]
        exact le_trans (Nat.min_le_right _ _) (hlow hxs)
  · intro x hx
    rw [List.mem_singleton] at hx
    subst hx
    exact ⟨hIdxSucc, hSBsucc, fun hc => absurd hc hsucc_nst⟩
  · refine filter_length_le_of_imp _ _ (keysOf dm) ?_
    intro k _ hk
    rw [not_indexed_iff] at hk ⊢
    intro hc
    exact hk (indexed_of_pres (P.idx_pres k hc) hc)

/-- `strongconnect` with positive fuel, phrased with the named stages. -/
lemma strongconnect_succ_eq (dm : List (String × List String)) (fuel : Nat)
    (node : String) (st : TarjanState) :
    strongconnect dm (fuel + 1) node st =
      (if (scanned dm fuel node st).lowlink node =
          ((scanned dm fuel node st).indexOf node).getD 0 then
        popState dm node (scanned dm fuel node st)
      else scanned dm fuel node st) := rfl

/-- Composing a one-successor step with the scan of the remaining ones. -/
lemma scanOut_trans {dm : List (String × List String)} {st : TarjanState}
    {node succ : String} {cs : List String} {s s1 s' : TarjanState}
    (h1 : ScanOut dm st node [succ] s s1)
    (h2 : ScanOut dm st node cs s1 s') :
    ScanOut dm st node (succ :: cs) s s' := by
  refine
    { inv := h2.inv
      cov := ?_
      idx_pres := ?_
      stack_ext := ?_
      low_mono := le_trans h2.low_mono h1.low_mono
      fin_mono := fun v h => h2.fin_mono v (h1.fin_mono v h)
      unvis_le := le_trans h2.unvis_le h1.unvis_le }
  · intro x hx
    rcases List.mem_cons.mp hx with rfl | hx'
    · obtain ⟨hIx, hSB, hlow⟩ := h1.cov x (by simp)
      refine ⟨indexed_of_pres (h2.idx_pres x hIx) hIx, ?_, ?_⟩
      · rcases hSB with hf | hs
        · exact Or.inl (h2.fin_mono x hf)
        · obtain ⟨g, hg⟩ := h2.stack_ext
          exact Or.inr (by rw [hg]; simp [hs])
      · intro hxst
        have hIs1 : Indexed s1 x :=
          h1.inv.wf.stack_indexed x (scanInv_st_stack_sub h1.inv x hxst)
        rw [numOf_of_pres (h2.idx_pres x hIs1)]
        exact le_trans h2.low_mono (hlow hxst)
    · exact h2.cov x hx'
  · intro v hv
    have hv1 : Indexed s1 v := indexed_of_pres (h1.idx_pres v hv) hv
    rw [h2.idx_pres v hv1, h1.idx_pres v hv]
  · obtain ⟨g1, hg1⟩ := h1.stack_ext
    obtain ⟨g2, hg2⟩ := h2.stack_ext
    exact ⟨g2 ++ g1, by rw [hg2, hg1, List.append_assoc]⟩

/-- The full successor scan: invariant preservation plus coverage of every
scanned successor. -/
lemma tarjan_scan {dm : List (String × List String)} {st : TarjanState}
    {node : String} {fuel : Nat}
    (hclosed : ∀ v w, w ∈ lookupAdj dm v → w ∈ keysOf dm)
    (hreach_st : ∀ y ∈ st.stack, Reach dm y node)
    (IH : ∀ nd s0, TarjanWF dm s0 → ¬ Indexed s0 nd → nd ∈ keysOf dm →
      (∀ y ∈ s0.stack, Reach dm y nd) → unvisitedCount dm s0 ≤ fuel →
      SCPost dm s0 nd (strongconnect dm fuel nd s0)) :
    ∀ (rest : List String) (s : TarjanState),
      (∀ x ∈ rest, x ∈ lookupAdj dm node) → ScanInv dm st node s →
      unvisitedCount dm s ≤ fuel →
      ScanOut dm st node rest s
        (rest.foldl (scanStep dm fuel node) s) := by
  intro rest
  induction rest with
  | nil =>
    intro s _ hinv _
    exact
      { inv := hinv
        cov := by simp
        idx_pres := fun v _ => rfl
        stack_ext := ⟨[], rfl⟩
        low_mono := Nat.le_refl _
        fin_mono := fun v h => h
        unvis_le := Nat.le_refl _ }
  | cons succ cs ihl =>
    intro s hadj hinv hfuel
    rw [List.foldl_cons]
    by_cases hidx : (s.indexOf succ).isNone = true
    · have hnew : ¬ Indexed s succ := not_indexed_iff.mp hidx
      have h1 := scan_step_new hclosed hreach_st (hadj succ (by simp)) hinv
        hfuel hnew IH
      have hstep : scanStep dm fuel node s succ =
          { strongconnect dm fuel succ s with
            lowlink := fun v =>
              if v = node then
                min ((strongconnect dm fuel succ s).lowlink node)
                  ((strongconnect dm fuel succ s).lowlink succ)
              else (strongconnect dm fuel succ s).lowlink v } := by
        rw [scanStep, if_pos hidx]
      rw [hstep]
      exact scanOut_trans h1
        (ihl _ (fun x hx => hadj x (List.mem_cons_of_mem _ hx)) h1.inv
          (le_trans h1.unvis_le hfuel))
    · by_cases hon : s.onStack succ = true
      · have hstep : scanStep dm fuel node s succ =
            { s with
              lowlink := fun v =>
                if v = node then
                  min (s.lowlink node) ((s.indexOf succ).getD 0)
                else s.lowlink v } := by
          rw [scanStep, if_neg hidx, if_pos hon]
        rw [hstep]
        have h1 := scan_step_back (hadj succ (by simp)) hinv hon
        exact scanOut_trans h1
          (ihl _ (fun x hx => hadj x (List.mem_cons_of_mem _ hx)) h1.inv
            (le_trans h1.unvis_le hfuel))
      · have hstep : scanStep dm fuel node s succ = s := by
          rw [scanStep, if_neg hidx, if_neg hon]
        rw [hstep]
        have hidx' : Indexed s succ := by
          by_contra hc
          exact hidx (not_indexed_iff.mpr hc)
        have h1 := scan_step_done hinv hidx' hon
        exact scanOut_trans h1
          (ihl _ (fun x hx => hadj x (List.mem_cons_of_mem _ hx)) h1.inv
            (le_trans h1.unvis_le hfuel))

lemma sccsAppended_of_big {dm : List (String × List String)}
    {scc : List String} (h : 1 < scc.length) :
    sccsAppended dm scc = [sortStrings scc] := by
  unfold sccsAppended
  rw [if_pos h]

lemma sccsAppended_single (dm : List (String × List String)) (a : String) :
    sccsAppended dm [a] = if a ∈ lookupAdj dm a then [[a]] else [] := rfl

/-- When the root test fails, the scanned state itself satisfies the call
postcondition. -/
lemma nopop_spec {dm : List (String × List String)} {st st2 : TarjanState}
    {node : String} (inv2 : ScanInv dm st node st2)
    (hcovAll : ∀ u, ¬ Indexed st u → Indexed st2 u → ∀ x ∈ lookupAdj dm u,
      Indexed st2 x ∧ (Finished st2 x ∨ x ∈ st2.stack) ∧
      (x ∈ st.stack → st2.lowlink node ≤ numOf st2 x))
    (hroot : ¬ st2.lowlink node = st.counter) :
    SCPost dm st node st2 := by
  obtain ⟨g2, hg2, hg2p⟩ := inv2.stack_form
  refine
    { wf := inv2.wf
      node_idx := inv2.node_idx
      counter_lt := inv2.counter_lt
      idx_pres := inv2.idx_pres
      low_pres := inv2.low_pres
      fin_mono := inv2.fin_mono
      new_num_ge := inv2.new_num_ge
      new_reach := inv2.new_reach
      scan_all := hcovAll
      stack_delta := ?_
      low_le := inv2.low_le }
  refine ⟨g2 ++ [node], ?_, ?_, Or.inr ⟨by simp, ?_⟩⟩
  · rw [hg2]
    simp
  · intro y hy
    rcases List.mem_append.mp hy with hyg | hyn
    · exact hg2p y hyg
    · rw [List.mem_singleton] at hyn
      subst hyn
      exact ⟨inv2.node_fresh, Relation.ReflTransGen.refl⟩
  · rcases inv2.low_sound with h | hc
    · exact absurd h hroot
    · exact hc

/-- When the root test succeeds, the popped segment is exactly the strongly
connected component of `node`, and emitting it preserves all invariants. -/
lemma pop_spec {dm : List (String × List String)} {st st2 : TarjanState}
    {node : String} (hwf : TarjanWF dm st)
    (inv2 : ScanInv dm st node st2)
    (hcovAll : ∀ u, ¬ Indexed st u → Indexed st2 u → ∀ x ∈ lookupAdj dm u,
      Indexed st2 x ∧ (Finished st2 x ∨ x ∈ st2.stack) ∧
      (x ∈ st.stack → st2.lowlink node ≤ numOf st2 x))
    (hroot : st2.lowlink node = st.counter) :
    SCPost dm st node (popState dm node st2) := by
  obtain ⟨g2, hg2, hg2p⟩ := inv2.stack_form
  have hnodup2 : st2.stack.Nodup := inv2.wf.stack_nodup
  have hnode_ng2 : node ∉ g2 := fun hc =>
    List.disjoint_of_nodup_append (hg2 ▸ hnodup2) hc (List.mem_cons_self _ _)
  have hnode_nst : node ∉ st.stack := fun hc =>
    inv2.node_fresh (hwf.stack_indexed node hc)
  have hp : popScc node st2.stack = (g2 ++ [node], st.stack) := by
    rw [hg2]
    exact popScc_eq node g2 st.stack hnode_ng2
  set P : List String := g2 ++ [node] with hPdef
  have hpop : popState dm node st2 =
      { st2 with
        stack := st.stack
        onStack := fun v => if v ∈ P then false else st2.onStack v
        sccs := st2.sccs ++ sccsAppended dm P } := by
    simp only [popState]
    rw [hp]
  rw [hpop]
  set st' : TarjanState :=
    { st2 with
      stack := st.stack
      onStack := fun v => if v ∈ P then false else st2.onStack v
      sccs := st2.sccs ++ sccsAppended dm P } with hst'
  have hsub : st.stack.Sublist st2.stack := by
    rw [hg2]
    exact (List.sublist_cons_self node st.stack).trans
      (List.sublist_append_right g2 _)
  have hmemiff : ∀ y, y ∈ st2.stack ↔ y ∈ P ∨ y ∈ st.stack := by
    intro y
    rw [hg2, hPdef]
    simp [or_assoc]
  have hPdisj : ∀ y ∈ P, y ∉ st.stack := by
    intro y hy
    rcases List.mem_append.mp hy with hyg | hyn
    · intro hc
      exact List.disjoint_of_nodup_append (hg2 ▸ hnodup2) hyg
        (List.mem_cons_of_mem _ hc)
    · rw [List.mem_singleton] at hyn
      subst hyn
      exact hnode_nst
  have hPstk : ∀ y ∈ P, y ∈ st2.stack := fun y hy =>
    (hmemiff y).mpr (Or.inl hy)
  have hPidx : ∀ y ∈ P, Indexed st2 y := fun y hy =>
    inv2.wf.stack_indexed y (hPstk y hy)
  have hPnew : ∀ y ∈ P, ¬ Indexed st y ∧ Reach dm y node := by
    intro y hy
    rcases List.mem_append.mp hy with hyg | hyn
    · exact hg2p y hyg
    · rw [List.mem_singleton] at hyn
      subst hyn
      exact ⟨inv2.node_fresh, Relation.ReflTransGen.refl⟩
  have hPreach : ∀ y ∈ P, Reach dm node y := fun y hy =>
    inv2.new_reach y (hPnew y hy).1 (hPidx y hy)
  have hnodeP : node ∈ P := by simp [hPdef]
  have hclass : ∀ w, Reach dm node w → Reach dm w node → w ∈ P := by
    intro w h
    induction h with
    | refl => intro _; exact hnodeP
    | tail h1 h2 ih =>
      intro hwn
      rename_i b c
      have hbn : Reach dm b node := Relation.ReflTransGen.head h2 hwn
      have hbP : b ∈ P := ih hbn
      obtain ⟨hIw, hSBw, hloww⟩ :=
        hcovAll b (hPnew b hbP).1 (hPidx b hbP) c h2
      rcases hSBw with hfin | hstk
      · exfalso
        have hfn : Finished st2 node :=
          finished_reach_closed inv2.wf hfin hwn
        exact hfn.2 (scanInv_node_mem inv2)
      · rcases (hmemiff c).mp hstk with hPm | hstm
        · exact hPm
        · exfalso
          have h1' := hloww hstm
          rw [hroot] at h1'
          have hcst : Indexed st c := hwf.stack_indexed c hstm
          have hnum : numOf st2 c = numOf st c :=
            numOf_of_pres (inv2.idx_pres c hcst)
          have := hwf.num_lt c hcst
          omega
  have hPiff : ∀ w, w ∈ P ↔ SameScc dm node w := fun w =>
    ⟨fun hw => ⟨hPreach w hw, (hPnew w hw).2⟩,
     fun hs => hclass w hs.1 hs.2⟩
  have hPnd : P.Nodup := by
    have h := inv2.wf.stack_nodup
    rw [hg2, show g2 ++ node :: st.stack = (g2 ++ [node]) ++ st.stack by
      simp] at h
    exact h.of_append_left
  have hFin' : ∀ x, Finished st' x ↔ (Finished st2 x ∨ x ∈ P) := by
    intro x
    constructor
    · rintro ⟨hix, hsx⟩
      by_cases hx2 : x ∈ st2.stack
      · rcases (hmemiff x).mp hx2 with hPm | hstm
        · exact Or.inr hPm
        · exact absurd hstm hsx
      · exact Or.inl ⟨hix, hx2⟩
    · rintro (hf | hPm)
      · exact ⟨hf.1, fun hc => hf.2 (hsub.mem hc)⟩
      · exact ⟨hPidx x hPm, hPdisj x hPm⟩
  have hfin_mono2 : ∀ x, Finished st2 x → Finished st' x := fun x hf =>
    (hFin' x).mpr (Or.inl hf)
  have hPfin' : ∀ x ∈ P, Finished st' x := fun x hx =>
    (hFin' x).mpr (Or.inr hx)
  have hPnotFin2 : ∀ x ∈ P, ¬ Finished st2 x := fun x hx hf =>
    hf.2 (hPstk x hx)
  have hNoEscape : ∀ u ∈ P, ∀ x ∈ lookupAdj dm u, x ∉ st.stack := by
    intro u hu x hx hxst
    obtain ⟨hIx, hSB, hlow⟩ := hcovAll u (hPnew u hu).1 (hPidx u hu) x hx
    have h1 := hlow hxst
    rw [hroot] at h1
    have hxidxst : Indexed st x := hwf.stack_indexed x hxst
    have hnum : numOf st2 x = numOf st x :=
      numOf_of_pres (inv2.idx_pres x hxidxst)
    have := hwf.num_lt x hxidxst
    omega
  have hAppChar : ∀ C ∈ sccsAppended dm P, ∃ x, x ∈ P ∧ x ∈ C ∧
      (∀ w, w ∈ C ↔ SameScc dm x w) ∧
      C.Pairwise (fun a b => strLt a b = true) ∧
      (1 < C.length ∨ x ∈ lookupAdj dm x) ∧ (∀ w ∈ C, w ∈ P) := by
    intro C hC
    by_cases hbig : 1 < P.length
    · rw [sccsAppended_of_big hbig, List.mem_singleton] at hC
      subst hC
      refine ⟨node, hnodeP, mem_sortStrings.mpr hnodeP, ?_,
        pairwise_sortStrings_strict hPnd, ?_, ?_⟩
      · intro w
        rw [mem_sortStrings]
        exact hPiff w
      · left
        rw [(perm_sortStrings P).length_eq]
        exact hbig
      · intro w hw
        exact mem_sortStrings.mp hw
    · have hg20 : g2 = [] := by
        have : P.length = g2.length + 1 := by simp [hPdef]
        have hle : P.length ≤ 1 := by omega
        rw [this] at hle
        exact List.length_eq_zero.mp (by omega)
      have hPn : P = [node] := by rw [hPdef, hg20, List.nil_append]
      rw [hPn, sccsAppended_single] at hC
      by_cases hself : node ∈ lookupAdj dm node
      · rw [if_pos hself, List.mem_singleton] at hC
        subst hC
        refine ⟨node, hnodeP, by simp, ?_, by simp, Or.inr hself, ?_⟩
        · intro w
          simp only [List.mem_singleton]
          constructor
          · intro hw
            rw [hw]
            exact sameScc_refl dm node
          · intro hs
            have hwP := (hPiff w).mpr hs
            rw [hPn, List.mem_singleton] at hwP
            exact hwP
        · intro w hw
          rw [List.mem_singleton] at hw
          rw [hw]
          exact hnodeP
      · rw [if_neg hself] at hC
        simp at hC
  have hAppComplete : ∀ x ∈ P,
      ((∃ y, y ≠ x ∧ SameScc dm x y) ∨ x ∈ lookupAdj dm x) →
      ∃ C ∈ sccsAppended dm P, ∀ w, w ∈ C ↔ SameScc dm x w := by
    intro x hx hcond
    have hsame : SameScc dm node x := (hPiff x).mp hx
    by_cases hbig : 1 < P.length
    · refine ⟨sortStrings P, by rw [sccsAppended_of_big hbig]; simp, ?_⟩
      intro w
      rw [mem_sortStrings]
      rw [hPiff w]
      exact sameScc_congr hsame w
    · have hg20 : g2 = [] := by
        have : P.length = g2.length + 1 := by simp [hPdef]
        have hle : P.length ≤ 1 := by omega
        rw [this] at hle
        exact List.length_eq_zero.mp (by omega)
      have hPn : P = [node] := by rw [hPdef, hg20, List.nil_append]
      have hxn : x = node := by
        have hx' := hx
        rw [hPn, List.mem_singleton] at hx'
        exact hx'
      have hself : node ∈ lookupAdj dm node := by
        rcases hcond with ⟨y, hyne, hysame⟩ | h
        · exfalso
          have hyP : y ∈ P := (hPiff y).mpr (sameScc_trans hsame hysame)
          rw [hPn, List.mem_singleton] at hyP
          rw [hxn] at hyne
          exact hyne hyP
        · rw [hxn] at h
          exact h
      refine ⟨[node], ?_, ?_⟩
      · rw [hPn, sccsAppended_single, if_pos hself]
        simp
      · intro w
        simp only [List.mem_singleton]
        constructor
        · intro hw
          rw [hw, hxn]
          exact sameScc_refl dm node
        · intro hs
          have hwP : w ∈ P :=
            (hPiff w).mpr (sameScc_trans hsame (hxn ▸ hs))
          rw [hPn, List.mem_singleton] at hwP
          exact hwP
  have happ_small : sccsAppended dm P = [] ∨
      ∃ C0, sccsAppended dm P = [C0] := by
    by_cases hbig : 1 < P.length
    · exact Or.inr ⟨sortStrings P, sccsAppended_of_big hbig⟩
    · have hg20 : g2 = [] := by
        have : P.length = g2.length + 1 := by simp [hPdef]
        have hle : P.length ≤ 1 := by omega
        rw [this] at hle
        exact List.length_eq_zero.mp (by omega)
      have hPn : P = [node] := by rw [hPdef, hg20, List.nil_append]
      rw [hPn, sccsAppended_single]
      by_cases hself : node ∈ lookupAdj dm node
      · exact Or.inr ⟨[node], by rw [if_pos hself]⟩
      · exact Or.inl (by rw [if_neg hself])
  have hwf' : TarjanWF dm st' := by
    refine
      { stack_nodup := hwf.stack_nodup
        onstack_iff := ?_
        stack_indexed := fun v hv =>
          inv2.wf.stack_indexed v (hsub.mem hv)
        num_lt := inv2.wf.num_lt
        num_inj := inv2.wf.num_inj
        stack_sorted := inv2.wf.stack_sorted.sublist hsub
        stack_reach := inv2.wf.stack_reach.sublist hsub
        finished_closed := ?_
        indexed_key := inv2.wf.indexed_key
        sccs_classes := ?_
        sccs_complete := ?_
        sccs_disjoint := ?_ }
    · intro v
      show (if v ∈ P then false else st2.onStack v) = true ↔ v ∈ st.stack
      by_cases hv : v ∈ P
      · rw [if_pos hv]
        simp [hPdisj v hv]
      · rw [if_neg hv, inv2.wf.onstack_iff v]
        constructor
        · intro hv2
          rcases (hmemiff v).mp hv2 with hPm | hstm
          · exact absurd hPm hv
          · exact hstm
        · exact fun hv2 => hsub.mem hv2
    · intro u hu x hx
      rcases (hFin' u).mp hu with hf2 | hPm
      · exact hfin_mono2 x (inv2.wf.finished_closed u hf2 x hx)
      · obtain ⟨hIx, hSB, _⟩ := hcovAll u (hPnew u hPm).1 (hPidx u hPm) x hx
        rcases hSB with hf2 | hstk2
        · exact hfin_mono2 x hf2
        · rcases (hmemiff x).mp hstk2 with hPx | hstx
          · exact hPfin' x hPx
          · exact absurd hstx (hNoEscape u hPm x hx)
    · intro C hC
      rcases List.mem_append.mp hC with hold | hnew
      · obtain ⟨x, hxf, hxC, hiff, hsort, hbig⟩ :=
          inv2.wf.sccs_classes C hold
        exact ⟨x, hfin_mono2 x hxf, hxC, hiff, hsort, hbig⟩
      · obtain ⟨x, hxP, hxC, hiff, hsort, hbig, _⟩ := hAppChar C hnew
        exact ⟨x, hPfin' x hxP, hxC, hiff, hsort, hbig⟩
    · intro x hx hcond
      rcases (hFin' x).mp hx with hf2 | hPm
      · obtain ⟨C, hC, hiff⟩ := inv2.wf.sccs_complete x hf2 hcond
        exact ⟨C, List.mem_append_left _ hC, hiff⟩
      · obtain ⟨C, hC, hiff⟩ := hAppComplete x hPm hcond
        exact ⟨C, List.mem_append_right _ hC, hiff⟩
    · rw [List.pairwise_append]
      refine ⟨inv2.wf.sccs_disjoint, ?_, ?_⟩
      · rcases happ_small with h0 | ⟨C0, h1⟩
        · rw [h0]
          exact List.Pairwise.nil
        · rw [h1]
          exact List.pairwise_singleton _ _
      · intro C1 hC1 C2 hC2 x hx1 hx2
        obtain ⟨x0, hx0f, _, hiff0, _, _⟩ := inv2.wf.sccs_classes C1 hC1
        have hxf2 : Finished st2 x :=
          finished_reach_closed inv2.wf hx0f ((hiff0 x).mp hx1).1
        obtain ⟨_, _, _, _, _, _, hsubP⟩ := hAppChar C2 hC2
        exact hPnotFin2 x (hsubP x hx2) hxf2
  refine
    { wf := hwf'
      node_idx := inv2.node_idx
      counter_lt := inv2.counter_lt
      idx_pres := inv2.idx_pres
      low_pres := inv2.low_pres
      fin_mono := fun v hv => hfin_mono2 v (inv2.fin_mono v hv)
      new_num_ge := inv2.new_num_ge
      new_reach := inv2.new_reach
      scan_all := ?_
      stack_delta := ⟨[], by simp [hst'], fun y hy => absurd hy (by simp),
        Or.inl ⟨rfl, hroot⟩⟩
      low_le := inv2.low_le }
  intro u hu hu2 x hx
  obtain ⟨hIx, hSB, hlow⟩ := hcovAll u hu hu2 x hx
  refine ⟨hIx, ?_, hlow⟩
  rcases hSB with hf2 | hstk2
  · exact Or.inl (hfin_mono2 x hf2)
  · rcases (hmemiff x).mp hstk2 with hPx | hstx
    · exact Or.inl (hPfin' x hPx)
    · exact Or.inr hstx

/-- The main induction: any sufficiently fueled `strongconnect` call on a
fresh key satisfies its postcondition. -/
lemma strongconnect_spec {dm : List (String × List String)}
    (hclosed : ∀ v w, w ∈ lookupAdj dm v → w ∈ keysOf dm) :
    ∀ fuel node st, TarjanWF dm st → ¬ Indexed st node → node ∈ keysOf dm →
      (∀ y ∈ st.stack, Reach dm y node) → unvisitedCount dm st ≤ fuel →
      SCPost dm st node (strongconnect dm fuel node st) := by
  intro fuel
  induction fuel with
  | zero =>
    intro node st hwf hni hkey hreach hfuel
    exfalso
    have hmem : node ∈ (keysOf dm).filter (fun k => (st.indexOf k).isNone) :=
      List.mem_filter.mpr ⟨hkey, not_indexed_iff.mpr hni⟩
    have hpos : 0 < unvisitedCount dm st :=
      List.length_pos.mpr (List.ne_nil_of_mem hmem)
    omega
  | succ fuel IH =>
    intro node st hwf hni hkey hreach hfuel
    rw [strongconnect_succ_eq]
    have hpush : ScanInv dm st node (pushState st node) :=
      push_scanInv dm st node hwf hni hkey hreach
    have hfuel1 : unvisitedCount dm (pushState st node) ≤ fuel := by
      have hlt : unvisitedCount dm (pushState st node) <
          unvisitedCount dm st := by
        refine filter_length_lt_of_imp
          (fun k => (st.indexOf k).isNone)
          (fun k => ((pushState st node).indexOf k).isNone)
          node (keysOf dm) hkey (not_indexed_iff.mpr hni) ?_ ?_
        · show ((if node = node then some st.counter
            else st.indexOf node)).isNone = false
          rw [if_pos rfl]
          rfl
        · intro k _ hk
          by_cases hkn : k = node
          · exfalso
            rw [hkn] at hk
            revert hk
            show ¬ ((if node = node then some st.counter
              else st.indexOf node)).isNone = true
            rw [if_pos rfl]
            simp
          · have hk' : ((if k = node then some st.counter
                else st.indexOf k)).isNone = true := hk
            rw [if_neg hkn] at hk'
            exact hk'
      omega
    have hscan := tarjan_scan hclosed hreach IH (lookupAdj dm node)
      (pushState st node) (fun x hx => hx) hpush hfuel1
    have inv2 : ScanInv dm st node (scanned dm fuel node st) := hscan.inv
    have hcovAll : ∀ u, ¬ Indexed st u →
        Indexed (scanned dm fuel node st) u → ∀ x ∈ lookupAdj dm u,
        Indexed (scanned dm fuel node st) x ∧
        (Finished (scanned dm fuel node st) x ∨
          x ∈ (scanned dm fuel node st).stack) ∧
        (x ∈ st.stack → (scanned dm fuel node st).lowlink node ≤
          numOf (scanned dm fuel node st) x) := by
      intro u hu hu2 x hx
      by_cases hun : u = node
      · subst hun
        exact hscan.cov x hx
      · exact inv2.covered u hu hu2 hun x hx
    by_cases hroot : (scanned dm fuel node st).lowlink node =
        ((scanned dm fuel node st).indexOf node).getD 0
    · rw [if_pos hroot]
      have hroot' : (scanned dm fuel node st).lowlink node = st.counter := by
        rw [hroot]
        exact numOf_of_some inv2.node_idx
      exact pop_spec hwf inv2 hcovAll hroot'
    · rw [if_neg hroot]
      have hroot' : ¬ (scanned dm fuel node st).lowlink node = st.counter := by
        intro hc
        apply hroot
        rw [hc]
        exact (numOf_of_some inv2.node_idx).symm
      exact nopop_spec inv2 hcovAll hroot'

lemma tarjanInit_wf (dm : List (String × List String)) :
    TarjanWF dm tarjanInit :=
  { stack_nodup := List.nodup_nil
    onstack_iff := by intro v; simp [tarjanInit]
    stack_indexed := by intro v hv; simp [tarjanInit] at hv
    num_lt := fun v hv => absurd hv (by simp [Indexed, tarjanInit])
    num_inj := fun v w hv => absurd hv (by simp [Indexed, tarjanInit])
    stack_sorted := List.Pairwise.nil
    stack_reach := List.Pairwise.nil
    finished_closed := fun u hu =>
      absurd hu.1 (by simp [Indexed, tarjanInit])
    indexed_key := fun v hv => absurd hv (by simp [Indexed, tarjanInit])
    sccs_classes := fun C hC => absurd hC (by simp [tarjanInit])
    sccs_complete := fun x hx => absurd hx.1 (by simp [Indexed, tarjanInit])
    sccs_disjoint := List.Pairwise.nil }

/-- The driver loop of `detect_cycles` ends well-formed, with an empty
stack and every key visited — hence every key finished. -/
lemma tarjanRun_spec {dm : List (String × List String)}
    (hclosed : ∀ v w, w ∈ lookupAdj dm v → w ∈ keysOf dm) :
    TarjanWF dm (tarjanRun dm) ∧ (tarjanRun dm).stack = [] ∧
    ∀ k ∈ keysOf dm, Indexed (tarjanRun dm) k := by
  have haux : ∀ l : List (String × List String),
      (∀ e ∈ l, e.1 ∈ keysOf dm) →
      ∀ st : TarjanState, TarjanWF dm st → st.stack = [] →
      TarjanWF dm (l.foldl (fun st e =>
        if (st.indexOf e.1).isNone then
          strongconnect dm (tarjanFuel dm) e.1 st
        else st) st) ∧
      (l.foldl (fun st e =>
        if (st.indexOf e.1).isNone then
          strongconnect dm (tarjanFuel dm) e.1 st
        else st) st).stack = [] ∧
      (∀ e ∈ l, Indexed (l.foldl (fun st e =>
        if (st.indexOf e.1).isNone then
          strongconnect dm (tarjanFuel dm) e.1 st
        else st) st) e.1) ∧
      (∀ v, Indexed st v → Indexed (l.foldl (fun st e =>
        if (st.indexOf e.1).isNone then
          strongconnect dm (tarjanFuel dm) e.1 st
        else st) st) v) := by
    intro l
    induction l with
    | nil =>
      intro _ st hwf hstk
      exact ⟨hwf, hstk, by simp, fun v hv => hv⟩
    | cons e rest ih =>
      intro hl st hwf hstk
      rw [List.foldl_cons]
      by_cases hidx : (st.indexOf e.1).isNone = true
      · rw [if_pos hidx]
        have hni := not_indexed_iff.mp hidx
        have hfb : unvisitedCount dm st ≤ tarjanFuel dm := by
          have h1 : unvisitedCount dm st ≤ (keysOf dm).length :=
            List.length_filter_le _ _
          have h2 : (keysOf dm).length = dm.length := by simp [keysOf]
          rw [tarjanFuel]
          omega
        have P := strongconnect_spec hclosed (tarjanFuel dm) e.1 st hwf hni
          (hl e (by simp)) (by rw [hstk]; intro y hy; simp at hy) hfb
        obtain ⟨dl, hdl, _, hdld⟩ := P.stack_delta
        have hstk' : (strongconnect dm (tarjanFuel dm) e.1 st).stack = [] := by
          rcases hdld with ⟨hnil, _⟩ | ⟨_, z, hz, _⟩
          · rw [hdl, hnil, hstk]
            rfl
          · rw [hstk] at hz
            simp at hz
        obtain ⟨hwfR, hstkR, hidxR, hpresR⟩ :=
          ih (fun e2 he2 => hl e2 (List.mem_cons_of_mem _ he2)) _ P.wf hstk'
        refine ⟨hwfR, hstkR, ?_, ?_⟩
        · intro e2 he2
          rcases List.mem_cons.mp he2 with he2e | he2r
          · rw [he2e]
            exact hpresR e.1 (indexed_of_some P.node_idx)
          · exact hidxR e2 he2r
        · intro v hv
          exact hpresR v (indexed_of_pres (P.idx_pres v hv) hv)
      · rw [if_neg hidx]
        have hIdxe : Indexed st e.1 := by
          by_contra hc
          exact hidx (not_indexed_iff.mpr hc)
        obtain ⟨hwfR, hstkR, hidxR, hpresR⟩ :=
          ih (fun e2 he2 => hl e2 (List.mem_cons_of_mem _ he2)) st hwf hstk
        refine ⟨hwfR, hstkR, ?_, hpresR⟩
        intro e2 he2
        rcases List.mem_cons.mp he2 with he2e | he2r
        · rw [he2e]
          exact hpresR e.1 hIdxe
        · exact hidxR e2 he2r
  obtain ⟨hwfR, hstkR, hidxR, _⟩ :=
    haux dm (fun e he => List.mem_map_of_mem _ he) tarjanInit
      (tarjanInit_wf dm) rfl
  refine ⟨hwfR, hstkR, ?_⟩
  intro k hk
  obtain ⟨e, he, hek⟩ := List.mem_map.mp hk
  rw [← hek]
  exact hidxR e he

/-- The emitted component list of the finished run: soundness,
completeness and disjointness. -/
lemma tarjanRun_sccs_char {dm : List (String × List String)}
    (hclosed : ∀ v w, w ∈ lookupAdj dm v → w ∈ keysOf dm) :
    (∀ C ∈ (tarjanRun dm).sccs, ∃ x, x ∈ C ∧
      (∀ w, w ∈ C ↔ SameScc dm x w) ∧
      C.Pairwise (fun a b => strLt a b = true) ∧
      (1 < C.length ∨ x ∈ lookupAdj dm x)) ∧
    (∀ x ∈ keysOf dm,
      ((∃ y, y ≠ x ∧ SameScc dm x y) ∨ x ∈ lookupAdj dm x) →
      ∃ C ∈ (tarjanRun dm).sccs, ∀ w, w ∈ C ↔ SameScc dm x w) ∧
    (tarjanRun dm).sccs.Pairwise (fun C1 C2 => ∀ x ∈ C1, x ∉ C2) := by
  obtain ⟨hwf, hstk, hallidx⟩ := tarjanRun_spec hclosed
  have hfin : ∀ k ∈ keysOf dm, Finished (tarjanRun dm) k := by
    intro k hk
    refine ⟨hallidx k hk, ?_⟩
    rw [hstk]
    simp
  refine ⟨?_, ?_, hwf.sccs_disjoint⟩
  · intro C hC
    obtain ⟨x, _, hxC, hiff, hsort, hbig⟩ := hwf.sccs_classes C hC
    exact ⟨x, hxC, hiff, hsort, hbig⟩
  · intro x hx hcond
    exact hwf.sccs_complete x (hfin x hx) hcond

/-- With the store's endpoint integrity, reachability over the built
adjacency agrees with reachability over the raw edge rows. -/
lemma reach_iff_edges {systems : List String}
    {edges : List (String × String)}
    (hE : ∀ e ∈ edges, e.1 ∈ systems ∧ e.2 ∈ systems) (v w : String) :
    Reach (buildDependenciesMap systems edges) v w ↔
      Relation.ReflTransGen (fun a b => (a, b) ∈ edges) v w := by
  constructor
  · refine Relation.ReflTransGen.mono ?_
    intro a b hab
    exact (mem_lookupAdj_deps.mp hab).1
  · refine Relation.ReflTransGen.mono ?_
    intro a b hab
    exact mem_lookupAdj_deps.mpr ⟨hab, (hE _ hab).1⟩

/-- A strictly sorted list of length above one holds a second element. -/
lemma exists_second_of_big {C : List String} {x : String}
    (hsort : C.Pairwise (fun a b => strLt a b = true)) (hx : x ∈ C)
    (hlen : 1 < C.length) : ∃ y ∈ C, y ≠ x := by
  by_contra hc
  push_neg at hc
  match C, hsort, hlen with
  | c1 :: c2 :: rest, hsort, _ =>
    have h1 : c1 = x := hc c1 (by simp)
    have h2 : c2 = x := hc c2 (by simp)
    have h12 : strLt c1 c2 = true :=
      (List.pairwise_cons.mp hsort).1 c2 (by simp)
    rw [h1, h2] at h12
    exact strLt_irrefl h12

lemma strLt_strict_asymm : ∀ a b : String,
    strLt a b = true → strLt b a = true → False := by
  intro a b h1 h2
  rw [strLt_asymm h1] at h2
  exact Bool.noConfusion h2

lemma detectCycles_eq (systems : List String)
    (edges : List (String × String)) :
    detectCycles systems edges =
      if buildDependenciesMap systems edges = [] then []
      else sortSccs (tarjanRun (buildDependenciesMap systems edges)).sccs :=
  rfl

lemma keysOf_build (systems : List String)
    (edges : List (String × String)) :
    keysOf (buildDependenciesMap systems edges) = dedupKeys systems :=
  keys_buildDependenciesMap systems edges

lemma headD_mem {C : List String} (h : C ≠ []) : C.headD "" ∈ C := by
  cases C with
  | nil => exact absurd rfl h
  | cons a t => simp

/-- The representative of an edge-level component description is a known
system. -/
lemma class_rep_mem_systems {systems : List String}
    {edges : List (String × String)}
    (hE : ∀ e ∈ edges, e.1 ∈ systems ∧ e.2 ∈ systems)
    {C : List String} {x : String}
    (hsort : C.Pairwise (fun a b => strLt a b = true)) (hxC : x ∈ C)
    (hiff : ∀ w, w ∈ C ↔
      (Relation.ReflTransGen (fun a b => (a, b) ∈ edges) x w ∧
       Relation.ReflTransGen (fun a b => (a, b) ∈ edges) w x))
    (hbig : 1 < C.length ∨ (x, x) ∈ edges) : x ∈ systems := by
  rcases hbig with hlen | hself
  · obtain ⟨y, hyC, hyne⟩ := exists_second_of_big hsort hxC hlen
    have hmut := (hiff y).mp hyC
    rcases Relation.ReflTransGen.cases_head hmut.1 with heq | ⟨c, hc, _⟩
    · exact absurd heq.symm hyne
    · exact (hE _ hc).1
  · exact (hE _ hself).1

/-- Full characterization of `detect_cycles` over a store with endpoint
integrity: the members are exactly the strictly sorted strongly connected
classes of size above one plus the self-loop singletons, and the output is
strictly sorted by the `(size, first)` key. -/
lemma detectCycles_char (systems : List String)
    (edges : List (String × String))
    (hE : ∀ e ∈ edges, e.1 ∈ systems ∧ e.2 ∈ systems) :
    (∀ C, C ∈ detectCycles systems edges ↔
      (C.Pairwise (fun a b => strLt a b = true) ∧
        ∃ x, x ∈ C ∧
          (∀ w, w ∈ C ↔
            (Relation.ReflTransGen (fun a b => (a, b) ∈ edges) x w ∧
             Relation.ReflTransGen (fun a b => (a, b) ∈ edges) w x)) ∧
          (1 < C.length ∨ (x, x) ∈ edges))) ∧
    (detectCycles systems edges).Pairwise
      (fun C1 C2 => sccKeyLt C1 C2 = true) := by
  have hclosed : ∀ v w,
      w ∈ lookupAdj (buildDependenciesMap systems edges) v →
      w ∈ keysOf (buildDependenciesMap systems edges) := by
    intro v w h
    obtain ⟨hedge, _⟩ := mem_lookupAdj_deps.mp h
    rw [keysOf_build]
    exact mem_dedupKeys.mpr (hE _ hedge).2
  obtain ⟨hsound, hcomplete, hdisj⟩ := tarjanRun_sccs_char hclosed
  by_cases hnil : buildDependenciesMap systems edges = []
  · rw [detectCycles_eq, if_pos hnil]
    have hsys : ∀ str : String, str ∉ systems := by
      intro str hstr
      have hk : str ∈ (buildDependenciesMap systems edges).map
          (fun e => e.1) := by
        rw [keys_buildDependenciesMap]
        exact mem_dedupKeys.mpr hstr
      rw [hnil] at hk
      simp at hk
    constructor
    · intro C
      simp only [List.not_mem_nil, false_iff]
      rintro ⟨hsort, x, hxC, hiff, hbig⟩
      exact hsys x (class_rep_mem_systems hE hsort hxC hiff hbig)
    · exact List.Pairwise.nil
  · rw [detectCycles_eq, if_neg hnil]
    have hmemPerm : ∀ C : List String,
        C ∈ sortSccs (tarjanRun (buildDependenciesMap systems edges)).sccs ↔
        C ∈ (tarjanRun (buildDependenciesMap systems edges)).sccs :=
      fun C => (perm_sortSccs _).mem_iff
    constructor
    · intro C
      rw [hmemPerm]
      constructor
      · intro hC
        obtain ⟨x, hxC, hiff, hsort, hbig⟩ := hsound C hC
        refine ⟨hsort, x, hxC, ?_, ?_⟩
        · intro w
          rw [hiff w]
          exact and_congr (reach_iff_edges hE x w) (reach_iff_edges hE w x)
        · rcases hbig with h | h
          · exact Or.inl h
          · exact Or.inr (mem_lookupAdj_deps.mp h).1
      · rintro ⟨hsort, x, hxC, hiff, hbig⟩
        have hxs : x ∈ systems :=
          class_rep_mem_systems hE hsort hxC hiff hbig
        have hxK : x ∈ keysOf (buildDependenciesMap systems edges) := by
          rw [keysOf_build]
          exact mem_dedupKeys.mpr hxs
        have hcond : (∃ y, y ≠ x ∧
            SameScc (buildDependenciesMap systems edges) x y) ∨
            x ∈ lookupAdj (buildDependenciesMap systems edges) x := by
          rcases hbig with hlen | hself
          · obtain ⟨y, hyC, hyne⟩ := exists_second_of_big hsort hxC hlen
            have hmut := (hiff y).mp hyC
            exact Or.inl ⟨y, hyne, (reach_iff_edges hE x y).mpr hmut.1,
              (reach_iff_edges hE y x).mpr hmut.2⟩
          · exact Or.inr (mem_lookupAdj_deps.mpr ⟨hself, hxs⟩)
        obtain ⟨C', hC', hiff'⟩ := hcomplete x hxK hcond
        obtain ⟨x2, hx2C, hiff2, hsort2, _⟩ := hsound C' hC'
        have heq : C = C' := by
          refine pairwise_eq_of_mem_iff strLt_strict_asymm C C' hsort
            hsort2 ?_
          intro w
          rw [hiff w, hiff' w]
          exact (and_congr (reach_iff_edges hE x w)
            (reach_iff_edges hE w x)).symm
        rw [heq]
        exact hC'
    · have hd : (sortSccs
          (tarjanRun (buildDependenciesMap systems edges)).sccs).Pairwise
          (fun C1 C2 => ∀ x ∈ C1, x ∉ C2) := by
        refine ((perm_sortSccs _).pairwise_iff ?_).mpr hdisj
        intro C1 C2 h x hx1 hx2
        exact h x hx2 hx1
      have hs := pairwise_sortSccs
        (tarjanRun (buildDependenciesMap systems edges)).sccs
      have hcomb := List.Pairwise.and hs hd
      refine hcomb.imp_of_mem ?_
      intro C1 C2 hC1 hC2 h
      obtain ⟨hle, hdisj12⟩ := h
      by_contra hlt
      obtain ⟨hlen, hhead⟩ := sccKeyLt_connex (by simpa using hlt) hle
      obtain ⟨x1, hx1C, _, _, _⟩ := hsound C1 ((hmemPerm C1).mp hC1)
      obtain ⟨x2, hx2C, _, _, _⟩ := hsound C2 ((hmemPerm C2).mp hC2)
      have hne1 : C1 ≠ [] := fun hc => by
        rw [hc] at hx1C
        simp at hx1C
      have hne2 : C2 ≠ [] := fun hc => by
        rw [hc] at hx2C
        simp at hx2C
      have hh1 : C1.headD "" ∈ C1 := headD_mem hne1
      have hh2 : C2.headD "" ∈ C2 := headD_mem hne2
      rw [hhead] at hh1
      exact hdisj12 _ hh1 hh2

/-- **C4.** Over a store with endpoint integrity, `detect_cycles` returns
exactly the strongly connected components of size greater than one (each
component's node list sorted ascending), plus each node with an explicit
self-edge as a singleton component, with the result list strictly sorted
by the key (component size, then first path); in particular a self-edge
a→a yields `[[a]]`, a→b→a yields one 2-element component, and two disjoint
2-cycles yield two components. -/
theorem detect_cycles_scc_characterization (systems : List String)
    (edges : List (String × String))
    (hE : ∀ e ∈ edges, e.1 ∈ systems ∧ e.2 ∈ systems) :
    ((∀ C, C ∈ detectCycles systems edges ↔
        (C.Pairwise (fun a b => strLt a b = true) ∧
          ∃ x, x ∈ C ∧
            (∀ w, w ∈ C ↔
              (Relation.ReflTransGen (fun a b => (a, b) ∈ edges) x w ∧
               Relation.ReflTransGen (fun a b => (a, b) ∈ edges) w x)) ∧
            (1 < C.length ∨ (x, x) ∈ edges))) ∧
      (detectCycles systems edges).Pairwise
        (fun C1 C2 => sccKeyLt C1 C2 = true)) ∧
    detectCycles ["a"] [("a", "a")] = [["a"]] ∧
    detectCycles ["a", "b"] [("a", "b"), ("b", "a")] = [["a", "b"]] ∧
    detectCycles ["a", "b", "c", "d"]
        [("a", "b"), ("b", "a"), ("c", "d"), ("d", "c")] =
      [["a", "b"], ["c", "d"]] :=
  ⟨detectCycles_char systems edges hE, by decide, by decide, by decide⟩

/-- Witness for C4: the 2-cycle store discharges the integrity hypothesis
concretely. -/
theorem detect_cycles_scc_characterization_witness :
    detectCycles ["a", "b"] [("a", "b"), ("b", "a")] = [["a", "b"]] :=
  (detect_cycles_scc_characterization ["a", "b"] [("a", "b"), ("b", "a")]
    (by decide)).2.2.1

/-- **C3.** For every store whose edge set contains a cycle (with endpoint
integrity and unique rows), `get_topological_order` fails with the
`CyclicDependencyError` payload computed by `detect_cycles`, and
`detect_cycles` returns at least one component containing every node of
that cycle (every node mutually reachable with the cycle node `v`,
including `v` itself). The error arises only in the topological-order
operation: every other graph operation of the embedding (`generate_graph`,
`get_all_dependencies`, `get_all_dependents`, `detect_cycles`,
`get_root_systems`, `get_leaf_systems`) is a total function whose result
type has no error alternative, mirroring that their code contains no
raise. -/
theorem cyclic_store_error_and_component (systems : List String)
    (edges : List (String × String))
    (hE : ∀ e ∈ edges, e.1 ∈ systems ∧ e.2 ∈ systems)
    (hedges : edges.Nodup) (v : String)
    (hcyc : Relation.TransGen (fun a b => (a, b) ∈ edges) v v) :
    getTopologicalOrder systems edges =
      Except.error (detectCycles systems edges) ∧
    ∃ C ∈ detectCycles systems edges, v ∈ C ∧
      ∀ w, Relation.ReflTransGen (fun a b => (a, b) ∈ edges) v w →
        Relation.ReflTransGen (fun a b => (a, b) ∈ edges) w v → w ∈ C := by
  refine ⟨cyclic_getTopologicalOrder_error systems edges hE hedges hcyc, ?_⟩
  obtain ⟨c, hvc, hcv⟩ := (Relation.TransGen.head'_iff).mp hcyc
  have hvs : v ∈ systems := (hE _ hvc).1
  have hclosed : ∀ a w,
      w ∈ lookupAdj (buildDependenciesMap systems edges) a →
      w ∈ keysOf (buildDependenciesMap systems edges) := by
    intro a w h
    obtain ⟨hedge, _⟩ := mem_lookupAdj_deps.mp h
    rw [keysOf_build]
    exact mem_dedupKeys.mpr (hE _ hedge).2
  have hvK : v ∈ keysOf (buildDependenciesMap systems edges) := by
    rw [keysOf_build]
    exact mem_dedupKeys.mpr hvs
  have hcond : (∃ y, y ≠ v ∧
      SameScc (buildDependenciesMap systems edges) v y) ∨
      v ∈ lookupAdj (buildDependenciesMap systems edges) v := by
    by_cases hc_eq : c = v
    · refine Or.inr (mem_lookupAdj_deps.mpr ⟨?_, hvs⟩)
      exact hc_eq ▸ hvc
    · refine Or.inl ⟨c, hc_eq, ?_, ?_⟩
      · exact (reach_iff_edges hE v c).mpr (Relation.ReflTransGen.single hvc)
      · exact (reach_iff_edges hE c v).mpr hcv
  obtain ⟨C, hC, hiff⟩ :=
    (tarjanRun_sccs_char hclosed).2.1 v hvK hcond
  have hnil : buildDependenciesMap systems edges ≠ [] := by
    intro hc0
    have hk : v ∈ (buildDependenciesMap systems edges).map (fun e => e.1) := by
      rw [keys_buildDependenciesMap]
      exact mem_dedupKeys.mpr hvs
    rw [hc0] at hk
    simp at hk
  have hCd : C ∈ detectCycles systems edges := by
    rw [detectCycles_eq, if_neg hnil]
    exact ((perm_sortSccs _).mem_iff).mpr hC
  refine ⟨C, hCd, (hiff v).mpr (sameScc_refl _ v), ?_⟩
  intro w h1 h2
  exact (hiff w).mpr ⟨(reach_iff_edges hE v w).mpr h1,
    (reach_iff_edges hE w v).mpr h2⟩

/-- Witness for C3: the 2-cycle store, with the cycle witness built
explicitly. -/
theorem cyclic_store_error_and_component_witness :
    getTopologicalOrder ["a", "b"] [("a", "b"), ("b", "a")] =
      Except.error (detectCycles ["a", "b"] [("a", "b"), ("b", "a")]) :=
  (cyclic_store_error_and_component ["a", "b"] [("a", "b"), ("b", "a")]
    (by decide) (by decide) "a"
    (Relation.TransGen.head
      (show ("a", "b") ∈ [("a", "b"), ("b", "a")] by decide)
      (Relation.TransGen.single
        (show ("b", "a") ∈ [("a", "b"), ("b", "a")] by decide)))).1

/-- **C5.** The claim says `detect_cycles` is implemented iteratively with
an explicit work-stack of (node, iterator-position) frames so that its
call-stack depth stays bounded on large graphs. The source `strongconnect`
(graph.py:265–297) is a per-node recursive function instead, so its call
depth grows with the longest dependency chain: the faithfully fueled
embedding — whose fuel counts exactly the nested `strongconnect`
activations — needs nesting depth 6 on a 6-node chain (depth 5 strands the
deepest node unvisited, depth 6 reaches it). On CPython this linear depth
hits the default 1000-frame recursion limit, so the claim's bounded-depth
property fails. -/
theorem strongconnect_recursion_depth_linear_in_chain :
    ¬ Indexed
      (strongconnect
        [("s0", ["s1"]), ("s1", ["s2"]), ("s2", ["s3"]),
         ("s3", ["s4"]), ("s4", ["s5"]), ("s5", [])]
        5 "s0" tarjanInit) "s5" ∧
    Indexed
      (strongconnect
        [("s0", ["s1"]), ("s1", ["s2"]), ("s2", ["s3"]),
         ("s3", ["s4"]), ("s4", ["s5"]), ("s5", [])]
        6 "s0" tarjanInit) "s5" := by
  constructor
  · unfold Indexed
    decide
  · unfold Indexed
    decide

end Cctx
